import Mathlib

/-!
# Verification of the `ed` directed-graph algorithms

Shallow embedding of the directed-graph algorithm core (package `graph`/`ed`):
the dense adjacency-list data model, forest extraction (`FromList`),
DFS topological sort (`Topological`), Kahn's algorithm (`TopologicalKahn`),
Tarjan's SCC algorithm (`Tarjan`, `TarjanForward`, `TarjanCondensation`),
and breadth-first traversal (`BreadthFirstTraverse`), together with proofs
of the documented contracts.

Go slices become Lean lists; the `big.Int` bit sets become `Finset Nat`;
Go `int` values that use `-1` as a sentinel become `Int`; recursion whose
termination depends on the visitation state uses an explicit fuel parameter,
returning `none` on exhaustion, and adequacy of the fuel supplied by the
top-level entry points is proved.
-/

namespace Ed

/-- Node identifier (`NI` in the source, a Go int); nodes of a graph of
order `N` are `0 .. N-1`, so only non-negative values occur as nodes. -/
abbrev NI := Nat

/-- `Half` in the source: half of a labeled arc, the target node `To`
together with an opaque label.  No algorithm here inspects the label. -/
structure Half where
  To : NI
  Label : Int
deriving DecidableEq, Repr

/-- `LabeledAdjacencyList`: record `i` holds the arcs departing node `i`. -/
abbrev LabeledAdjacencyList := List (List Half)

/-- `AdjacencyList`: the unlabeled variant. -/
abbrev AdjacencyList := List (List NI)

/-- The arcs departing node `n` (Go `g[n]`; out of range reads as empty,
which the theorems exclude via the `BoundsOk` hypotheses). -/
def arcsFrom (g : LabeledAdjacencyList) (n : Nat) : List Half := g.getD n []

/-- The arc relation of a labeled graph: `g` has an arc from `u` to `v`. -/
def ArcL (g : LabeledAdjacencyList) (u v : Nat) : Prop :=
  v ∈ (arcsFrom g u).map Half.To

instance (g : LabeledAdjacencyList) (u v : Nat) : Decidable (ArcL g u v) := by
  unfold ArcL; infer_instance

/-- The documented `BoundsOk` precondition: every arc target lies in `[0, N)`. -/
def BoundsOkL (g : LabeledAdjacencyList) : Prop :=
  ∀ l ∈ g, ∀ h ∈ l, Half.To h < g.length

instance (g : LabeledAdjacencyList) : Decidable (BoundsOkL g) := by
  unfold BoundsOkL; infer_instance

/-- A graph contains a cycle: a non-empty arc path from some node to itself. -/
def CyclicL (g : LabeledAdjacencyList) : Prop :=
  ∃ n, Relation.TransGen (ArcL g) n n

/-- Acyclicity: no non-empty arc path from any node back to itself. -/
def AcyclicL (g : LabeledAdjacencyList) : Prop :=
  ∀ n, ¬ Relation.TransGen (ArcL g) n n

theorem acyclicL_iff_not_cyclic (g : LabeledAdjacencyList) :
    AcyclicL g ↔ ¬ CyclicL g := by
  constructor
  · rintro h ⟨n, hn⟩; exact h n hn
  · intro h n hn; exact h ⟨n, hn⟩

/-! ## Forest extraction: `FromList`

The `FromList` record and its `PathEnd` entries are declared elsewhere in
the repository; only the fields the extraction method touches are modelled. -/

/-- Modelled from the spec: a per-node parent record (`PathEnd` in the
repository, declared outside the analysed sources) — "array of per-node
parent records (`From`: parent NI or "no parent" sentinel)".  The sentinel
is `-1` as in the method body (`paths[i].From = -1`). -/
structure PathEnd where
  From : Int
deriving DecidableEq, Repr

/-- Modelled from the spec: the `FromList` forest record (declared outside
the analysed sources); the extraction method populates only `Paths`. -/
structure FromList where
  Paths : List PathEnd
deriving DecidableEq, Repr

/-- Inner loop of `FromList`: walk the arcs `tos` departing node `fr`;
on the first target that already has a recorded parent return it
(`Sum.inl`), otherwise record `fr` as the parent of each target. -/
def fromListArcs (fr : Nat) : List Half → List PathEnd → Int ⊕ List PathEnd
  | [], paths => Sum.inr paths
  | t :: rest, paths =>
    if (paths.getD t.To ⟨-1⟩).From ≥ 0 then Sum.inl (Int.ofNat t.To)
    else fromListArcs fr rest (paths.set t.To ⟨Int.ofNat fr⟩)

/-- Outer loop of `FromList`: walk every node's arc list once. -/
def fromListLoop : Nat → List (List Half) → List PathEnd → Option (List PathEnd) × Int
  | _, [], paths => (some paths, -1)
  | fr, tos :: rest, paths =>
    match fromListArcs fr tos paths with
    | Sum.inl v => (none, v)
    | Sum.inr paths' => fromListLoop (fr + 1) rest paths'

/-- `DirectedLabeled.FromList` from the source: transposes a labeled graph
into a `FromList`.  If some node `v` has two incoming arcs the scan fails
at the second one, returning `(none, v)` (Go `(nil, v)`); otherwise it
returns the populated forest and `-1`. -/
def DirectedLabeled.FromList (g : LabeledAdjacencyList) : Option FromList × Int :=
  match fromListLoop 0 g (List.replicate g.length ⟨-1⟩) with
  | (some paths, _) => (some ⟨paths⟩, -1)
  | (none, v) => (none, v)

/-- The (source, target) pairs of the arcs of `rest` in the scan order of
the `FromList` loop, the first row being row `fr`. -/
def pairsFrom : Nat → List (List Half) → List (Nat × Nat)
  | _, [] => []
  | fr, tos :: rest => tos.map (fun h => (fr, h.To)) ++ pairsFrom (fr + 1) rest

/-- All arc targets of `g` in scan order. -/
def targetsOf (g : LabeledAdjacencyList) : List Nat :=
  (pairsFrom 0 g).map Prod.snd

/-- The first value of the list that repeats an earlier value (or a value of
`seen`), scanning left to right: the node at which `FromList` detects its
conflict. -/
def firstDup (seen : List Nat) : List Nat → Option Nat
  | [] => none
  | t :: rest => if t ∈ seen then some t else firstDup (t :: seen) rest

theorem firstDup_congr {s₁ s₂ : List Nat} (h : ∀ x, x ∈ s₁ ↔ x ∈ s₂) :
    ∀ l, firstDup s₁ l = firstDup s₂ l
  | [] => rfl
  | t :: rest => by
    by_cases ht : t ∈ s₁
    · simp [firstDup, ht, (h t).mp ht]
    · have ht₂ : t ∉ s₂ := fun hc => ht ((h t).mpr hc)
      simp only [firstDup, if_neg ht, if_neg ht₂]
      exact firstDup_congr (fun x => by simp [h x]) rest

theorem firstDup_append (s l₁ l₂ : List Nat) :
    firstDup s (l₁ ++ l₂) =
      match firstDup s l₁ with
      | some v => some v
      | none => firstDup (l₁.reverse ++ s) l₂ := by
  induction l₁ generalizing s with
  | nil => simp [firstDup]
  | cons t rest ih =>
    by_cases ht : t ∈ s
    · simp [firstDup, ht]
    · rw [show (t :: rest) ++ l₂ = t :: (rest ++ l₂) from rfl,
        show firstDup s (t :: (rest ++ l₂)) = firstDup (t :: s) (rest ++ l₂) by
          simp [firstDup, ht],
        show firstDup s (t :: rest) = firstDup (t :: s) rest by simp [firstDup, ht],
        ih (t :: s)]
      cases firstDup (t :: s) rest with
      | some v => rfl
      | none =>
        refine firstDup_congr (fun x => ?_) l₂
        simp only [List.mem_append, List.mem_reverse, List.mem_cons,
          List.reverse_cons]
        tauto

theorem firstDup_eq_none_iff (s l : List Nat) :
    firstDup s l = none ↔ l.Nodup ∧ ∀ x ∈ l, x ∉ s := by
  induction l generalizing s with
  | nil => simp [firstDup]
  | cons t rest ih =>
    by_cases ht : t ∈ s
    · simp only [firstDup, if_pos ht]
      refine ⟨fun h => ?_, fun h => ?_⟩
      · cases h
      · exact absurd ht (h.2 t (List.mem_cons_self t rest))
    · simp only [firstDup, if_neg ht, ih (t :: s), List.nodup_cons]
      constructor
      · rintro ⟨hnd, hfresh⟩
        have htr : t ∉ rest := fun hc => (hfresh t hc) (List.mem_cons_self t s)
        refine ⟨⟨htr, hnd⟩, ?_⟩
        intro x hx
        rcases List.mem_cons.mp hx with rfl | hx'
        · exact ht
        · exact fun hc => (hfresh x hx') (List.mem_cons_of_mem t hc)
      · rintro ⟨⟨htr, hnd⟩, hfresh⟩
        refine ⟨hnd, fun x hx => ?_⟩
        intro hc
        rcases List.mem_cons.mp hc with rfl | hc'
        · exact htr hx
        · exact hfresh x (List.mem_cons_of_mem t hx) hc'

theorem firstDup_some_mem {s l : List Nat} {v : Nat}
    (h : firstDup s l = some v) : v ∈ l ∧ (v ∈ s ∨ 2 ≤ l.count v) := by
  induction l generalizing s with
  | nil => simp [firstDup] at h
  | cons t rest ih =>
    by_cases ht : t ∈ s
    · simp only [firstDup, if_pos ht, Option.some.injEq] at h
      subst h
      exact ⟨by simp, Or.inl ht⟩
    · simp only [firstDup, if_neg ht] at h
      obtain ⟨hmem, hcase⟩ := ih h
      refine ⟨by simp [hmem], ?_⟩
      rcases hcase with hs | hcount
      · rcases List.mem_cons.mp hs with rfl | hs
        · right
          have h1 : 1 ≤ rest.count v := List.count_pos_iff.mpr hmem
          rw [List.count_cons_self]
          omega
        · exact Or.inl hs
      · right
        have h2 : rest.count v ≤ (t :: rest).count v := by
          rw [List.count_cons]
          exact Nat.le_add_right _ _
        omega

/-- The recorded parent of node `v` (Go `paths[v].From`). -/
def pf (paths : List PathEnd) (v : Nat) : Int := (paths.getD v ⟨-1⟩).From


theorem pf_set (paths : List PathEnd) (i v : Nat) (a : PathEnd) :
    pf (paths.set i a) v =
      if i = v ∧ i < paths.length then a.From else pf paths v := by
  unfold pf
  rw [List.getD_eq_getElem?_getD, List.getD_eq_getElem?_getD, List.getElem?_set]
  by_cases h : i = v
  · subst h
    by_cases hl : i < paths.length
    · simp [hl]
    · rw [if_pos rfl, if_neg hl, if_neg (fun hc : i = i ∧ i < paths.length => hl hc.2),
        List.getElem?_eq_none (Nat.le_of_not_lt hl)]
  · simp [h]

/-- The nodes with a recorded parent. -/
def recList (N : Nat) (paths : List PathEnd) : List Nat :=
  (List.range N).filter (fun v => decide (0 ≤ pf paths v))

theorem mem_recList {N : Nat} {paths : List PathEnd} {v : Nat} :
    v ∈ recList N paths ↔ v < N ∧ 0 ≤ pf paths v := by
  simp [recList, List.mem_filter]

theorem recList_after_block {N : Nat} {paths paths' : List PathEnd}
    {tos : List Half} {fr : Nat}
    (hbtos : ∀ h ∈ tos, Half.To h < N)
    (hpf' : ∀ v, v < N →
      pf paths' v = if v ∈ tos.map Half.To then Int.ofNat fr else pf paths v) :
    ∀ x, x ∈ (tos.map Half.To).reverse ++ recList N paths ↔
      x ∈ recList N paths' := by
  intro x
  rw [List.mem_append, List.mem_reverse, mem_recList, mem_recList]
  constructor
  · rintro (hx | ⟨hxN, hx⟩)
    · have hxN : x < N := by
        obtain ⟨h, hh, rfl⟩ := List.mem_map.mp hx
        exact hbtos h hh
      refine ⟨hxN, ?_⟩
      rw [hpf' x hxN, if_pos hx]
      exact Int.ofNat_nonneg fr
    · refine ⟨hxN, ?_⟩
      rw [hpf' x hxN]
      by_cases he : x ∈ tos.map Half.To
      · rw [if_pos he]; exact Int.ofNat_nonneg fr
      · rw [if_neg he]; exact hx
  · rintro ⟨hxN, hx⟩
    rw [hpf' x hxN] at hx
    by_cases he : x ∈ tos.map Half.To
    · exact Or.inl he
    · rw [if_neg he] at hx
      exact Or.inr ⟨hxN, hx⟩

theorem fromListArcs_spec (N : Nat) :
    ∀ (tos : List Half) (paths : List PathEnd) (fr : Nat),
    paths.length = N → (∀ h ∈ tos, Half.To h < N) →
    (∀ v, firstDup (recList N paths) (tos.map Half.To) = some v →
       fromListArcs fr tos paths = Sum.inl (Int.ofNat v)) ∧
    (firstDup (recList N paths) (tos.map Half.To) = none →
       ∃ paths', fromListArcs fr tos paths = Sum.inr paths' ∧ paths'.length = N ∧
         ∀ v, v < N →
           pf paths' v = if v ∈ tos.map Half.To then Int.ofNat fr else pf paths v)
  | [], paths, fr, hlen, _ => by
    constructor
    · intro v hv
      simp [firstDup] at hv
    · intro _
      exact ⟨paths, rfl, hlen, fun v _ => by simp⟩
  | t :: rest, paths, fr, hlen, hb => by
    have htN : t.To < N := hb t (List.mem_cons_self t rest)
    have hcode : fromListArcs fr (t :: rest) paths =
        if (paths.getD t.To ⟨-1⟩).From ≥ 0 then Sum.inl (Int.ofNat t.To)
        else fromListArcs fr rest (paths.set t.To ⟨Int.ofNat fr⟩) := rfl
    have hfd1 : ∀ (l : List Nat), firstDup (recList N paths) (t.To :: l) =
        if t.To ∈ recList N paths then some t.To
        else firstDup (t.To :: recList N paths) l := fun _ => rfl
    by_cases hrec : (paths.getD t.To ⟨-1⟩).From ≥ 0
    · have hrecpf : (0 : Int) ≤ pf paths t.To := hrec
      have hmem : t.To ∈ recList N paths := mem_recList.mpr ⟨htN, hrecpf⟩
      constructor
      · intro v hv
        rw [List.map_cons, hfd1, if_pos hmem] at hv
        cases hv
        rw [hcode, if_pos hrec]
      · intro hnone
        rw [List.map_cons, hfd1, if_pos hmem] at hnone
        cases hnone
    · have hrecpf : ¬ (0 : Int) ≤ pf paths t.To := hrec
      have hnotmem : t.To ∉ recList N paths := fun hc => hrecpf (mem_recList.mp hc).2
      have hlen₂ : (paths.set t.To ⟨Int.ofNat fr⟩).length = N := by
        rw [List.length_set, hlen]
      have hpf₂ : ∀ v, pf (paths.set t.To ⟨Int.ofNat fr⟩) v =
          if t.To = v then Int.ofNat fr else pf paths v := by
        intro v
        rw [pf_set, hlen]
        by_cases hv : t.To = v
        · rw [if_pos ⟨hv, htN⟩, if_pos hv]
        · rw [if_neg (fun hc => hv hc.1), if_neg hv]
      have hcongr : ∀ x, x ∈ t.To :: recList N paths ↔
          x ∈ recList N (paths.set t.To ⟨Int.ofNat fr⟩) := by
        intro x
        rw [List.mem_cons, mem_recList, mem_recList, hpf₂ x]
        constructor
        · rintro (rfl | ⟨hxN, hx⟩)
          · exact ⟨htN, by rw [if_pos rfl]; exact Int.ofNat_nonneg fr⟩
          · refine ⟨hxN, ?_⟩
            by_cases he : t.To = x
            · rw [if_pos he]; exact Int.ofNat_nonneg fr
            · rw [if_neg he]; exact hx
        · rintro ⟨hxN, hx⟩
          by_cases he : t.To = x
          · exact Or.inl he.symm
          · rw [if_neg he] at hx
            exact Or.inr ⟨hxN, hx⟩
      have ih := fromListArcs_spec N rest (paths.set t.To ⟨Int.ofNat fr⟩) fr hlen₂
        (fun h hh => hb h (List.mem_cons_of_mem t hh))
      constructor
      · intro v hv
        rw [List.map_cons, hfd1, if_neg hnotmem, firstDup_congr hcongr] at hv
        rw [hcode, if_neg hrec]
        exact ih.1 v hv
      · intro hnone
        rw [List.map_cons, hfd1, if_neg hnotmem, firstDup_congr hcongr] at hnone
        obtain ⟨paths', hres, hlen', hpf'⟩ := ih.2 hnone
        refine ⟨paths', by rw [hcode, if_neg hrec]; exact hres, hlen',
          fun v hvN => ?_⟩
        rw [hpf' v hvN, List.map_cons]
        by_cases hvrest : v ∈ rest.map Half.To
        · have hvcons : v ∈ t.To :: rest.map Half.To := List.mem_cons_of_mem _ hvrest
          rw [if_pos hvrest, if_pos hvcons]
        · by_cases hvt : v = t.To
          · have hvcons : v ∈ t.To :: rest.map Half.To := by
              rw [hvt]; exact List.mem_cons_self _ _
            rw [if_neg hvrest, if_pos hvcons, hpf₂, if_pos hvt.symm]
          · have hvcons : v ∉ t.To :: rest.map Half.To := by
              intro hc
              rcases List.mem_cons.mp hc with hc | hc
              · exact hvt hc
              · exact hvrest hc
            rw [if_neg hvrest, if_neg hvcons, hpf₂, if_neg (fun hc => hvt hc.symm)]

theorem fromListLoop_spec (N : Nat) :
    ∀ (rest : List (List Half)) (fr : Nat) (paths : List PathEnd),
    paths.length = N → (∀ l ∈ rest, ∀ h ∈ l, Half.To h < N) →
    (∀ v, firstDup (recList N paths) ((pairsFrom fr rest).map Prod.snd) = some v →
        fromListLoop fr rest paths = (none, Int.ofNat v)) ∧
    (firstDup (recList N paths) ((pairsFrom fr rest).map Prod.snd) = none →
      ∃ paths', fromListLoop fr rest paths = (some paths', -1) ∧ paths'.length = N ∧
        ∀ v, v < N →
          (v ∉ (pairsFrom fr rest).map Prod.snd → pf paths' v = pf paths v) ∧
          (∀ u, (u, v) ∈ pairsFrom fr rest → pf paths' v = Int.ofNat u))
  | [], fr, paths, hlen, _ => by
    constructor
    · intro v hv
      simp [pairsFrom, firstDup] at hv
    · intro _
      refine ⟨paths, rfl, hlen, fun v _ => ⟨fun _ => rfl, fun u hu => ?_⟩⟩
      simp [pairsFrom] at hu
  | tos :: rest', fr, paths, hlen, hb => by
    have hbtos : ∀ h ∈ tos, Half.To h < N := hb tos (List.mem_cons_self tos rest')
    have hbrest : ∀ l ∈ rest', ∀ h ∈ l, Half.To h < N :=
      fun l hl => hb l (List.mem_cons_of_mem tos hl)
    have hmapsnd : (pairsFrom fr (tos :: rest')).map Prod.snd
        = tos.map Half.To ++ (pairsFrom (fr + 1) rest').map Prod.snd := by
      simp [pairsFrom, List.map_map, Function.comp]
    have harcs := fromListArcs_spec N tos paths fr hlen hbtos
    have hsplit := firstDup_append (recList N paths) (tos.map Half.To)
      ((pairsFrom (fr + 1) rest').map Prod.snd)
    constructor
    · intro v hv
      rw [hmapsnd, hsplit] at hv
      cases hfd : firstDup (recList N paths) (tos.map Half.To) with
      | some w =>
        rw [hfd] at hv
        have hwv : w = v := by injection hv
        subst hwv
        show fromListLoop fr (tos :: rest') paths = (none, Int.ofNat w)
        rw [fromListLoop, harcs.1 w hfd]
      | none =>
        rw [hfd] at hv
        obtain ⟨paths', hres, hlen', hpf'⟩ := harcs.2 hfd
        rw [firstDup_congr (recList_after_block hbtos hpf')] at hv
        have ih := fromListLoop_spec N rest' (fr + 1) paths' hlen' hbrest
        show fromListLoop fr (tos :: rest') paths = (none, Int.ofNat v)
        rw [fromListLoop, hres]
        exact ih.1 v hv
    · intro hnone
      rw [hmapsnd, hsplit] at hnone
      cases hfd : firstDup (recList N paths) (tos.map Half.To) with
      | some w =>
        rw [hfd] at hnone
        cases hnone
      | none =>
        rw [hfd] at hnone
        obtain ⟨paths', hres, hlen', hpf'⟩ := harcs.2 hfd
        have hseen := recList_after_block hbtos hpf'
        have hnone' := hnone
        rw [firstDup_congr hseen] at hnone'
        have ih := fromListLoop_spec N rest' (fr + 1) paths' hlen' hbrest
        obtain ⟨paths'', hres'', hlen'', hpf''⟩ := ih.2 hnone'
        refine ⟨paths'', ?_, hlen'', fun v hvN => ?_⟩
        · rw [fromListLoop, hres]
          exact hres''
        · have hdisj : ∀ x, x ∈ tos.map Half.To →
              x ∉ (pairsFrom (fr + 1) rest').map Prod.snd := by
            have hni := (firstDup_eq_none_iff _ _).mp hnone'
            intro x hx hx'
            exact hni.2 x hx'
              ((hseen x).mp (List.mem_append.mpr (Or.inl (List.mem_reverse.mpr hx))))
          constructor
          · intro hvnot
            rw [hmapsnd, List.mem_append] at hvnot
            push_neg at hvnot
            rw [(hpf'' v hvN).1 hvnot.2, hpf' v hvN, if_neg hvnot.1]
          · intro u hu
            rw [pairsFrom] at hu
            rcases List.mem_append.mp hu with hu | hu
            · obtain ⟨h, hh, heq⟩ := List.mem_map.mp hu
              have hueq : u = fr := (congrArg Prod.fst heq).symm
              have hveq : h.To = v := congrArg Prod.snd heq
              have hvtos : v ∈ tos.map Half.To :=
                hveq ▸ List.mem_map_of_mem Half.To hh
              rw [(hpf'' v hvN).1 (hdisj v hvtos), hpf' v hvN, if_pos hvtos, hueq]
            · exact (hpf'' v hvN).2 u hu

theorem pairsFrom_mem : ∀ (rest : List (List Half)) (fr u v : Nat),
    ((u, v) ∈ pairsFrom fr rest ↔
      fr ≤ u ∧ u - fr < rest.length ∧ v ∈ (rest.getD (u - fr) []).map Half.To)
  | [], fr, u, v => by simp [pairsFrom]
  | tos :: rest', fr, u, v => by
    rw [pairsFrom, List.mem_append, pairsFrom_mem rest' (fr + 1) u v]
    constructor
    · rintro (hm | ⟨hle, hlt, hmem⟩)
      · obtain ⟨h, hh, heq⟩ := List.mem_map.mp hm
        have hueq : fr = u := congrArg Prod.fst heq
        have hveq : h.To = v := congrArg Prod.snd heq
        subst hueq
        refine ⟨le_refl _, by simp, ?_⟩
        simp only [Nat.sub_self]
        exact hveq ▸ List.mem_map_of_mem Half.To hh
      · refine ⟨by omega, by simp; omega, ?_⟩
        have h2 : u - fr = (u - (fr + 1)) + 1 := by omega
        rw [h2]
        simpa using hmem
    · rintro ⟨hle, hlt, hmem⟩
      by_cases hu : u = fr
      · subst hu
        simp only [Nat.sub_self] at hmem
        left
        obtain ⟨t, ht, rfl⟩ := List.mem_map.mp (by simpa using hmem)
        exact List.mem_map_of_mem _ ht
      · right
        have h1 : fr + 1 ≤ u := by omega
        have h2 : u - fr = (u - (fr + 1)) + 1 := by omega
        rw [h2] at hmem
        refine ⟨h1, by simp at hlt; omega, by simpa using hmem⟩

theorem arcL_iff_pairs (g : LabeledAdjacencyList) (u v : Nat) :
    ArcL g u v ↔ (u, v) ∈ pairsFrom 0 g := by
  rw [pairsFrom_mem]
  unfold ArcL arcsFrom
  constructor
  · intro h
    have hu : u < g.length := by
      by_contra hc
      rw [List.getD_eq_getElem?_getD, List.getElem?_eq_none (by omega)] at h
      simp at h
    exact ⟨Nat.zero_le u, by simpa using hu, by simpa using h⟩
  · rintro ⟨-, -, h⟩
    simpa using h

/-- C7.  With all arc targets in range, `FromList` fails returning
`(none, v)` exactly when the arc scan meets a target `v` whose parent is
already recorded (equivalently, iff some node has at least two incoming
arcs); `v` is the target of the first repeated-target arc in scan order.
Otherwise it succeeds returning `-1`, every node with an incoming arc
`u → v` getting `From = u` and every node without one keeping `-1`. -/
theorem fromList_spec (g : LabeledAdjacencyList) (hb : BoundsOkL g) :
    (∀ v, firstDup [] (targetsOf g) = some v →
        DirectedLabeled.FromList g = (none, Int.ofNat v) ∧
          2 ≤ (targetsOf g).count v) ∧
    ((firstDup [] (targetsOf g)).isSome ↔ ∃ v, 2 ≤ (targetsOf g).count v) ∧
    (firstDup [] (targetsOf g) = none →
      ∃ fl, DirectedLabeled.FromList g = (some fl, -1) ∧
        fl.Paths.length = g.length ∧
        ∀ v, v < g.length →
          ((∀ u, ¬ ArcL g u v) → (fl.Paths.getD v ⟨-1⟩).From = -1) ∧
          (∀ u, ArcL g u v → (fl.Paths.getD v ⟨-1⟩).From = Int.ofNat u)) := by
  have hb' : ∀ l ∈ g, ∀ h ∈ l, Half.To h < g.length := hb
  have hlen₀ : (List.replicate g.length (⟨-1⟩ : PathEnd)).length = g.length := by
    simp
  have hpf₀ : ∀ v, pf (List.replicate g.length (⟨-1⟩ : PathEnd)) v = -1 := by
    intro v
    unfold pf
    rw [List.getD_eq_getElem?_getD, List.getElem?_replicate]
    by_cases hv : v < g.length <;> simp [hv]
  have hrec₀ : ∀ x, x ∈ ([] : List Nat) ↔
      x ∈ recList g.length (List.replicate g.length (⟨-1⟩ : PathEnd)) := by
    intro x
    simp [mem_recList, hpf₀]
  have hfd₀ : firstDup [] (targetsOf g) =
      firstDup (recList g.length (List.replicate g.length (⟨-1⟩ : PathEnd)))
        ((pairsFrom 0 g).map Prod.snd) := firstDup_congr hrec₀ _
  have hloop := fromListLoop_spec g.length g 0
    (List.replicate g.length ⟨-1⟩) hlen₀ hb'
  refine ⟨fun v hv => ?_, ?_, fun hnone => ?_⟩
  · have hv' := hv
    rw [hfd₀] at hv'
    have hcode := hloop.1 v hv'
    constructor
    · show (match fromListLoop 0 g (List.replicate g.length ⟨-1⟩) with
        | (some paths, _) => (some (⟨paths⟩ : FromList), -1)
        | (none, v) => (none, v)) = (none, Int.ofNat v)
      rw [hcode]
    · rcases (firstDup_some_mem hv).2 with hmem | hcount
      · cases hmem
      · exact hcount
  · constructor
    · intro hsome
      obtain ⟨v, hv⟩ := Option.isSome_iff_exists.mp hsome
      rcases (firstDup_some_mem hv).2 with hmem | hcount
      · cases hmem
      · exact ⟨v, hcount⟩
    · rintro ⟨v, hv⟩
      by_contra hc
      rw [Option.not_isSome_iff_eq_none, firstDup_eq_none_iff] at hc
      have := List.nodup_iff_count_le_one.mp hc.1 v
      omega
  · rw [hfd₀] at hnone
    obtain ⟨paths', hres, hlen', hpf'⟩ := hloop.2 hnone
    refine ⟨⟨paths'⟩, ?_, hlen', fun v hvN => ?_⟩
    · show (match fromListLoop 0 g (List.replicate g.length ⟨-1⟩) with
        | (some paths, _) => (some (⟨paths⟩ : FromList), -1)
        | (none, v) => (none, v)) = (some ⟨paths'⟩, -1)
      rw [hres]
    · constructor
      · intro hnoarc
        have hvnot : v ∉ (pairsFrom 0 g).map Prod.snd := by
          intro hc
          obtain ⟨p, hpair, heq⟩ := List.mem_map.mp hc
          have hp : p = (p.1, v) := by
            cases p
            cases heq
            rfl
          rw [hp] at hpair
          exact hnoarc p.1 ((arcL_iff_pairs g p.1 v).mpr hpair)
        have hkeep := (hpf' v hvN).1 hvnot
        rw [hpf₀] at hkeep
        exact hkeep
      · intro u harc
        exact (hpf' v hvN).2 u ((arcL_iff_pairs g u v).mp harc)

/-- C7 witness: on the graph `{0:[2], 1:[2], 2:[]}` node 2 has two incoming
arcs and `FromList` fails with it. -/
theorem fromList_spec_witness :
    DirectedLabeled.FromList [[⟨2, 0⟩], [⟨2, 0⟩], []] = (none, 2) :=
  ((fromList_spec [[⟨2, 0⟩], [⟨2, 0⟩], []] (by decide)).1 2 (by rfl)).1

/-- C10: the two-node graph with arcs `0 → 1` and `1 → 0` is cyclic, yet
`FromList` succeeds on it (every node has exactly one incoming arc),
returning a populated forest and the no-conflict value `-1`. -/
theorem fromList_succeeds_on_cyclic :
    CyclicL [[⟨1, 0⟩], [⟨0, 0⟩]] ∧
    DirectedLabeled.FromList [[⟨1, 0⟩], [⟨0, 0⟩]] = (some ⟨[⟨1⟩, ⟨0⟩]⟩, -1) := by
  constructor
  · have h01 : ArcL [[⟨1, 0⟩], [⟨0, 0⟩]] 0 1 := by decide
    have h10 : ArcL [[⟨1, 0⟩], [⟨0, 0⟩]] 1 0 := by decide
    exact ⟨0, Relation.TransGen.head h01 (Relation.TransGen.single h10)⟩
  · rfl

/-! ## DFS topological sort: `Topological` -/

/-- The mutable state of `Topological`'s recursive `df`: the two bit sets
`temp` and `perm`, the cycle flags, the found cycle (the repurposed tail of
the `ordering` array, grown leftwards) and the ordering built back to front
(list head = lowest written array index). -/
structure TopoState where
  temp : Finset Nat
  perm : Finset Nat
  cycleFound : Bool
  cycleStart : Int
  cycle : List Nat
  ordering : List Nat

mutual

/-- `df` of `Topological`: on a temp-marked node flag the cycle, on a
perm-marked node return, otherwise temp-mark, walk the arcs, then move the
node from temp to perm and prepend it to the ordering.  `fuel` bounds the
recursion depth; `none` reports exhaustion (shown unreachable below). -/
def dfT (g : LabeledAdjacencyList) : Nat → Nat → TopoState → Option TopoState
  | 0, _, _ => none
  | fuel + 1, n, st =>
    if n ∈ st.temp then
      some { st with cycleFound := true, cycleStart := Int.ofNat n }
    else if n ∈ st.perm then
      some st
    else
      match dfTarcs g fuel n (arcsFrom g n) { st with temp := insert n st.temp } with
      | none => none
      | some st2 =>
        if st2.cycleFound then some st2
        else some { st2 with
          temp := st2.temp.erase n
          perm := insert n st2.perm
          ordering := n :: st2.ordering }
termination_by fuel _ _ => (fuel, 0)

/-- The arc loop of `df`: recurse into each arc in listed order; if the
recursion flagged a cycle and the start node has not been written yet,
prepend the current node to the cycle (Go writes `ordering[x] = n` one cell
to the left of the previous write), closing it when `n == cycleStart`. -/
def dfTarcs (g : LabeledAdjacencyList) :
    Nat → Nat → List Half → TopoState → Option TopoState
  | _, _, [], st => some st
  | fuel, n, nb :: rest, st =>
    match dfT g fuel nb.To st with
    | none => none
    | some st2 =>
      if st2.cycleFound then
        if st2.cycleStart ≥ 0 then
          some { st2 with
            cycle := n :: st2.cycle
            cycleStart := if Int.ofNat n = st2.cycleStart then -1
              else st2.cycleStart }
        else some st2
      else dfTarcs g fuel n rest st2
termination_by fuel _ arcs _ => (fuel, arcs.length + 1)

end

/-- The outer loop of `Topological`: run `df` from every not-yet-permanent
node in index order, stopping as soon as a cycle is found. -/
def topoLoop (g : LabeledAdjacencyList) (fuel : Nat) :
    List Nat → TopoState → Option TopoState
  | [], st => some st
  | n :: rest, st =>
    if n ∈ st.perm then topoLoop g fuel rest st
    else
      match dfT g fuel n st with
      | none => none
      | some st2 => if st2.cycleFound then some st2 else topoLoop g fuel rest st2

/-- Recursion-depth budget used by the entry points: more than one level
per node plus one per arc (adequacy is proved, the `none` branches of the
traversals are never taken). -/
def dfsFuel (g : LabeledAdjacencyList) : Nat :=
  g.length + (g.map List.length).sum + 1

/-- The initial `df` state: empty bit sets, zero value for `cycleStart`. -/
def initTopoState : TopoState :=
  { temp := ∅, perm := ∅, cycleFound := false, cycleStart := 0,
    cycle := [], ordering := [] }

/-- `DirectedLabeled.Topological` from the source: for an acyclic graph the
ordering is a permutation of the node numbers in topologically sorted order
and `cycle` is empty; on a cyclic graph `ordering` is empty and `cycle` is
the path of a found cycle. -/
def Topological (g : LabeledAdjacencyList) : List Nat × List Nat :=
  match topoLoop g (dfsFuel g) (List.range g.length) initTopoState with
  | none => ([], [])
  | some st => if st.cycleFound then ([], st.cycle) else (st.ordering, [])

/-- Arcs read out of `g` stay below `g.length` under `BoundsOk`. -/
theorem arcsFrom_bounds {g : LabeledAdjacencyList} (hb : BoundsOkL g) (n : Nat) :
    ∀ h ∈ arcsFrom g n, Half.To h < g.length := by
  intro h hh
  unfold arcsFrom at hh
  by_cases hn : n < g.length
  · rw [List.getD_eq_getElem?_getD, List.getElem?_eq_getElem hn] at hh
    exact hb _ (List.getElem_mem hn) h hh
  · rw [List.getD_eq_getElem?_getD, List.getElem?_eq_none (by omega)] at hh
    cases hh

theorem arcL_of_mem {g : LabeledAdjacencyList} {n : Nat} {h : Half}
    (hh : h ∈ arcsFrom g n) : ArcL g n h.To :=
  List.mem_map_of_mem Half.To hh

theorem arcL_elim {g : LabeledAdjacencyList} {u v : Nat} (h : ArcL g u v) :
    ∃ hf ∈ arcsFrom g u, Half.To hf = v := List.mem_map.mp h

theorem arcL_src_lt {g : LabeledAdjacencyList} {u v : Nat} (h : ArcL g u v) :
    u < g.length := by
  by_contra hc
  unfold ArcL arcsFrom at h
  rw [List.getD_eq_getElem?_getD, List.getElem?_eq_none (by omega)] at h
  cases h

/-- The reverse-postorder invariant of the growing ordering: every listed
node has all of its arc targets listed after it. -/
def topoSortedFrom (g : LabeledAdjacencyList) : List Nat → Prop
  | [] => True
  | n :: rest => (∀ v, ArcL g n v → v ∈ rest) ∧ topoSortedFrom g rest

/-- A list of nodes is a closed walk of `g`: non-empty, each consecutive
pair joined by an arc, and an arc from the last node back to the first
(stated as: the list extended by its own head is an arc chain). -/
def cycleWalkOK (g : LabeledAdjacencyList) : List Nat → Prop
  | [] => False
  | a :: rest => List.Chain' (ArcL g) ((a :: rest) ++ [a])

/-- The state invariant of `df` while no cycle has been found. -/
def TopoInv (g : LabeledAdjacencyList) (st : TopoState) : Prop :=
  st.cycle = [] ∧ st.ordering.Nodup ∧ topoSortedFrom g st.ordering ∧
  (∀ m, m ∈ st.ordering ↔ m ∈ st.perm) ∧
  Disjoint st.temp st.perm ∧
  (∀ m ∈ st.temp, m < g.length) ∧ (∀ m ∈ st.perm, m < g.length)

/-- A completed, closed witness cycle. -/
def CycClosed (g : LabeledAdjacencyList) (st' : TopoState) : Prop :=
  st'.cycleStart = -1 ∧ cycleWalkOK g st'.cycle

/-- A cycle still being written out while the recursion unwinds: the start
node `s` is a proper ancestor (member of `temp`), the partial cycle starts
at the hook node `a` (the node the present call was entered with), its
consecutive nodes are joined by arcs and its last node has an arc to `s`. -/
def CycOpenTail (g : LabeledAdjacencyList) (temp : Finset Nat)
    (st' : TopoState) (a : Nat) : Prop :=
  ∃ s : Nat, st'.cycleStart = Int.ofNat s ∧ s ∈ temp ∧ s ≠ a ∧
    st'.cycle.head? = some a ∧ List.Chain' (ArcL g) (st'.cycle ++ [s])

/-- Master lemma for `df` and its arc loop: with fuel exceeding the number
of nodes not yet on the recursion path, the call returns, and either no
cycle was found — the node (resp. every arc target) is now permanent, the
recursion path is restored and the invariant maintained — or a cycle was
flagged, in one of the three shapes: closed walk, open tail hooked at the
entry node, or a bare detection at the entry node. -/
theorem dfT_master (g : LabeledAdjacencyList) (hb : BoundsOkL g) : ∀ fuel : Nat,
    (∀ n st, n < g.length → st.cycleFound = false → TopoInv g st →
      g.length < st.temp.card + fuel →
      ∃ st', dfT g fuel n st = some st' ∧
        ((st'.cycleFound = false ∧ TopoInv g st' ∧ st'.temp = st.temp ∧
          st.perm ⊆ st'.perm ∧ n ∈ st'.perm ∧ st'.cycleStart = st.cycleStart) ∨
         (st'.cycleFound = true ∧
           (CycClosed g st' ∨ CycOpenTail g st.temp st' n ∨
            (st'.cycle = st.cycle ∧ st'.cycleStart = Int.ofNat n ∧
              n ∈ st.temp))))) ∧
    (∀ n arcs st, (∀ h ∈ arcs, h ∈ arcsFrom g n) → n ∈ st.temp →
      st.cycleFound = false → TopoInv g st →
      g.length < st.temp.card + fuel →
      ∃ st', dfTarcs g fuel n arcs st = some st' ∧
        ((st'.cycleFound = false ∧ TopoInv g st' ∧ st'.temp = st.temp ∧
          st.perm ⊆ st'.perm ∧ (∀ h ∈ arcs, Half.To h ∈ st'.perm) ∧
          st'.cycleStart = st.cycleStart) ∨
         (st'.cycleFound = true ∧
           (CycClosed g st' ∨ CycOpenTail g st.temp st' n)))) := by
  intro fuel
  induction fuel using Nat.strong_induction_on with
  | _ fuel IH =>
  have hT : ∀ n st, n < g.length → st.cycleFound = false → TopoInv g st →
      g.length < st.temp.card + fuel →
      ∃ st', dfT g fuel n st = some st' ∧
        ((st'.cycleFound = false ∧ TopoInv g st' ∧ st'.temp = st.temp ∧
          st.perm ⊆ st'.perm ∧ n ∈ st'.perm ∧ st'.cycleStart = st.cycleStart) ∨
         (st'.cycleFound = true ∧
           (CycClosed g st' ∨ CycOpenTail g st.temp st' n ∨
            (st'.cycle = st.cycle ∧ st'.cycleStart = Int.ofNat n ∧
              n ∈ st.temp)))) := by
    intro n st hn hnc hinv hfuel
    match fuel, hfuel with
    | 0, hfuel =>
      exfalso
      have hsub : st.temp ⊆ Finset.range g.length :=
        fun m hm => Finset.mem_range.mpr (hinv.2.2.2.2.2.1 m hm)
      have := Finset.card_le_card hsub
      rw [Finset.card_range] at this
      omega
    | f + 1, hfuel =>
      rw [dfT]
      by_cases h1 : n ∈ st.temp
      · rw [if_pos h1]
        exact ⟨_, rfl, Or.inr ⟨rfl, Or.inr (Or.inr ⟨rfl, rfl, h1⟩)⟩⟩
      · rw [if_neg h1]
        by_cases h2 : n ∈ st.perm
        · rw [if_pos h2]
          exact ⟨st, rfl, Or.inl ⟨hnc, hinv, rfl, subset_rfl, h2, rfl⟩⟩
        · rw [if_neg h2]
          have hinv1 : TopoInv g ({ st with temp := insert n st.temp }) := by
            obtain ⟨hc, hnd, hts, hmem, hdis, hbt, hbp⟩ := hinv
            refine ⟨hc, hnd, hts, hmem, ?_, ?_, hbp⟩
            · rw [Finset.disjoint_left]
              intro m hm
              rcases Finset.mem_insert.mp hm with rfl | hm'
              · exact h2
              · exact (Finset.disjoint_left.mp hdis) hm'
            · intro m hm
              rcases Finset.mem_insert.mp hm with rfl | hm'
              · exact hn
              · exact hbt m hm'
          have hfuel1 : g.length <
              ({ st with temp := insert n st.temp } : TopoState).temp.card + f := by
            have : (insert n st.temp).card = st.temp.card + 1 :=
              Finset.card_insert_of_not_mem h1
            simp only [this]
            omega
          obtain ⟨st2, hrun, hpost⟩ := (IH f (by omega)).2 n (arcsFrom g n)
            { st with temp := insert n st.temp }
            (fun h hh => hh) (Finset.mem_insert_self n st.temp) hnc hinv1 hfuel1
          rw [hrun]
          dsimp only
          rcases hpost with ⟨hncf, hinv2, htemp2, hperm2, hall, hcs2⟩ |
            ⟨hcf2, hcyc⟩
          · dsimp only at htemp2 hperm2 hcs2
            rw [if_neg (by rw [hncf]; exact Bool.false_ne_true)]
            have hn2 : n ∈ st2.temp := by
              rw [htemp2]; exact Finset.mem_insert_self n st.temp
            have hnp2 : n ∉ st2.perm :=
              Finset.disjoint_left.mp hinv2.2.2.2.2.1 hn2
            refine ⟨_, rfl, Or.inl ⟨hncf, ?_, ?_, ?_, ?_, hcs2⟩⟩
            · -- TopoInv of the completed state
              obtain ⟨hc2, hnd2, hts2, hmem2, hdis2, hbt2, hbp2⟩ := hinv2
              refine ⟨hc2, ?_, ?_, ?_, ?_, ?_, ?_⟩
              · exact List.nodup_cons.mpr ⟨fun hc => hnp2 ((hmem2 n).mp hc), hnd2⟩
              · refine ⟨?_, hts2⟩
                intro v harc
                obtain ⟨hf, hhf, rfl⟩ := arcL_elim harc
                exact (hmem2 hf.To).mpr (hall hf hhf)
              · intro m
                simp only [List.mem_cons, Finset.mem_insert]
                rw [hmem2 m]
              · rw [Finset.disjoint_left]
                intro m hm
                have hme := Finset.mem_erase.mp hm
                have hm' : m ∈ st.temp := by
                  have hm2 := hme.2
                  rw [htemp2] at hm2
                  exact Finset.mem_of_mem_insert_of_ne hm2 hme.1
                intro hmp
                rcases Finset.mem_insert.mp hmp with rfl | hmp'
                · exact h1 hm'
                · have hm2 : m ∈ st2.temp := by
                    rw [htemp2]
                    exact Finset.mem_insert_of_mem hm'
                  exact Finset.disjoint_left.mp hdis2 hm2 hmp'
              · intro m hm
                rw [htemp2] at hm
                have := Finset.mem_erase.mp hm
                exact hinv.2.2.2.2.2.1 m
                  (Finset.mem_of_mem_insert_of_ne this.2 this.1)
              · intro m hm
                rcases Finset.mem_insert.mp hm with rfl | hm'
                · exact hn
                · exact hbp2 m hm'
            · show st2.temp.erase n = st.temp
              rw [htemp2, Finset.erase_insert h1]
            · exact fun m hm => Finset.mem_insert_of_mem (hperm2 hm)
            · exact Finset.mem_insert_self n st2.perm
          · dsimp only at hcyc
            rw [if_pos hcf2]
            refine ⟨st2, rfl, Or.inr ⟨hcf2, ?_⟩⟩
            rcases hcyc with hclosed | hopen
            · exact Or.inl hclosed
            · obtain ⟨s, hcs, hstemp, hsn, hhead, hchain⟩ := hopen
              refine Or.inr (Or.inl ⟨s, hcs, ?_, hsn, hhead, hchain⟩)
              have hsmem : s ∈ insert n st.temp := hstemp
              exact Finset.mem_of_mem_insert_of_ne hsmem hsn
  have hA : ∀ n arcs st, (∀ h ∈ arcs, h ∈ arcsFrom g n) → n ∈ st.temp →
      st.cycleFound = false → TopoInv g st →
      g.length < st.temp.card + fuel →
      ∃ st', dfTarcs g fuel n arcs st = some st' ∧
        ((st'.cycleFound = false ∧ TopoInv g st' ∧ st'.temp = st.temp ∧
          st.perm ⊆ st'.perm ∧ (∀ h ∈ arcs, Half.To h ∈ st'.perm) ∧
          st'.cycleStart = st.cycleStart) ∨
         (st'.cycleFound = true ∧
           (CycClosed g st' ∨ CycOpenTail g st.temp st' n))) := by
    intro n arcs
    induction arcs with
    | nil =>
      intro st _ _ hnc hinv _
      refine ⟨st, by rw [dfTarcs], Or.inl ⟨hnc, hinv, rfl, subset_rfl, ?_, rfl⟩⟩
      intro h hh
      cases hh
    | cons nb rest ihA =>
      intro st harcs hmem hnc hinv hfuel
      have hnbN : nb.To < g.length :=
        arcsFrom_bounds hb n nb (harcs nb (List.mem_cons_self nb rest))
      have hnbarc : ArcL g n nb.To :=
        arcL_of_mem (harcs nb (List.mem_cons_self nb rest))
      obtain ⟨st2, hrun, hpost⟩ := hT nb.To st hnbN hnc hinv hfuel
      rw [dfTarcs, hrun]
      dsimp only
      rcases hpost with ⟨hncf, hinv2, htemp2, hperm2, hnbp, hcs2⟩ | ⟨hcf2, hcyc⟩
      · -- clean child: continue the loop
        rw [if_neg (by rw [hncf]; exact Bool.false_ne_true)]
        obtain ⟨st3, hrun3, hpost3⟩ := ihA st2
          (fun h hh => harcs h (List.mem_cons_of_mem nb hh))
          (htemp2 ▸ hmem) hncf hinv2 (by rw [htemp2]; exact hfuel)
        refine ⟨st3, hrun3, ?_⟩
        rcases hpost3 with ⟨hncf3, hinv3, htemp3, hperm3, hall3, hcs3⟩ | hcyc3
        · refine Or.inl ⟨hncf3, hinv3, by rw [htemp3, htemp2], ?_, ?_, by
            rw [hcs3, hcs2]⟩
          · exact subset_trans hperm2 hperm3
          · intro h hh
            rcases List.mem_cons.mp hh with rfl | hh'
            · exact hperm3 hnbp
            · exact hall3 h hh'
        · rw [htemp2] at hcyc3
          exact Or.inr hcyc3
      · -- child flagged a cycle
        rw [if_pos hcf2]
        rcases hcyc with hclosed | hopen | hdetect
        · -- closed already: no write
          rw [if_neg (by rw [hclosed.1]; decide)]
          exact ⟨st2, rfl, Or.inr ⟨hcf2, Or.inl hclosed⟩⟩
        · -- open tail hooked at nb.To: the current node writes itself
          obtain ⟨s, hcs, hstemp, hsnb, hhead, hchain⟩ := hopen
          rw [if_pos (by rw [hcs]; exact Int.ofNat_nonneg s)]
          have hheadapp : (st2.cycle ++ [s]).head? = some nb.To := by
            cases hcyclist : st2.cycle with
            | nil => rw [hcyclist] at hhead; cases hhead
            | cons a resta =>
              rw [hcyclist] at hhead
              simpa using hhead
          have hchain3 : List.Chain' (ArcL g) ((n :: st2.cycle) ++ [s]) := by
            rw [List.cons_append]
            refine List.chain'_cons'.mpr ⟨?_, hchain⟩
            intro y hy
            rw [hheadapp] at hy
            cases hy
            exact hnbarc
          by_cases hns : n = s
          · refine ⟨_, rfl, Or.inr ⟨hcf2, Or.inl ⟨?_, ?_⟩⟩⟩
            · show (if Int.ofNat n = st2.cycleStart then (-1 : Int)
                else st2.cycleStart) = -1
              rw [hcs, if_pos (by rw [hns])]
            · show cycleWalkOK g (n :: st2.cycle)
              show List.Chain' (ArcL g) ((n :: st2.cycle) ++ [n])
              rw [hns] at hchain3 ⊢
              exact hchain3
          · refine ⟨_, rfl, Or.inr ⟨hcf2, Or.inr
              ⟨s, ?_, hstemp, fun hc => hns hc.symm, ?_, hchain3⟩⟩⟩
            · show (if Int.ofNat n = st2.cycleStart then (-1 : Int)
                else st2.cycleStart) = Int.ofNat s
              rw [hcs, if_neg (fun hc => hns (Int.ofNat.inj hc))]
            · show (n :: st2.cycle).head? = some n
              rfl
        · -- bare detection at nb.To
          obtain ⟨hcyceq, hcs, hnbtemp⟩ := hdetect
          have hcycnil : st2.cycle = [] := by rw [hcyceq]; exact hinv.1
          rw [if_pos (by rw [hcs]; exact Int.ofNat_nonneg nb.To)]
          have hchain3 : List.Chain' (ArcL g) ((n :: st2.cycle) ++ [nb.To]) := by
            rw [hcycnil]
            exact List.chain'_pair.mpr hnbarc
          by_cases hns : n = nb.To
          · refine ⟨_, rfl, Or.inr ⟨hcf2, Or.inl ⟨?_, ?_⟩⟩⟩
            · show (if Int.ofNat n = st2.cycleStart then (-1 : Int)
                else st2.cycleStart) = -1
              rw [hcs, if_pos (by rw [hns])]
            · show cycleWalkOK g (n :: st2.cycle)
              show List.Chain' (ArcL g) ((n :: st2.cycle) ++ [n])
              rw [hns] at hchain3 ⊢
              exact hchain3
          · refine ⟨_, rfl, Or.inr ⟨hcf2, Or.inr
              ⟨nb.To, ?_, hnbtemp, fun hc => hns hc.symm, ?_, hchain3⟩⟩⟩
            · show (if Int.ofNat n = st2.cycleStart then (-1 : Int)
                else st2.cycleStart) = Int.ofNat nb.To
              rw [hcs, if_neg (fun hc => hns (Int.ofNat.inj hc))]
            · show (n :: st2.cycle).head? = some n
              rfl
  exact ⟨hT, hA⟩

/-- The outer loop of `Topological` either finishes every listed node with
the invariant intact and the recursion path empty, or stops at the first
found cycle, which is then a closed walk. -/
theorem topoLoop_spec (g : LabeledAdjacencyList) (hb : BoundsOkL g)
    (fuel : Nat) (hfuel : g.length < fuel) :
    ∀ (ns : List Nat) (st : TopoState), (∀ n ∈ ns, n < g.length) →
    st.cycleFound = false → TopoInv g st → st.temp = ∅ →
    ∃ st', topoLoop g fuel ns st = some st' ∧
      ((st'.cycleFound = false ∧ TopoInv g st' ∧ st'.temp = ∅ ∧
        st.perm ⊆ st'.perm ∧ ∀ n ∈ ns, n ∈ st'.perm) ∨
       (st'.cycleFound = true ∧ cycleWalkOK g st'.cycle))
  | [], st, _, hnc, hinv, htemp => by
    refine ⟨st, by rw [topoLoop], Or.inl ⟨hnc, hinv, htemp, subset_rfl, ?_⟩⟩
    intro n hn
    cases hn
  | n :: rest, st, hns, hnc, hinv, htemp => by
    rw [topoLoop]
    by_cases hp : n ∈ st.perm
    · rw [if_pos hp]
      obtain ⟨st', hrun, hpost⟩ := topoLoop_spec g hb fuel hfuel rest st
        (fun m hm => hns m (List.mem_cons_of_mem n hm)) hnc hinv htemp
      refine ⟨st', hrun, ?_⟩
      rcases hpost with ⟨hncf, hinv', htemp', hperm', hall⟩ | hcyc
      · refine Or.inl ⟨hncf, hinv', htemp', hperm', ?_⟩
        intro m hm
        rcases List.mem_cons.mp hm with rfl | hm'
        · exact hperm' hp
        · exact hall m hm'
      · exact Or.inr hcyc
    · rw [if_neg hp]
      have hfuel' : g.length < st.temp.card + fuel := by
        rw [htemp]
        simpa using hfuel
      obtain ⟨st2, hrun2, hpost⟩ := (dfT_master g hb fuel).1 n st
        (hns n (List.mem_cons_self n rest)) hnc hinv hfuel'
      rw [hrun2]
      dsimp only
      rcases hpost with ⟨hncf, hinv2, htemp2, hperm2, hnp, _⟩ | ⟨hcf, hcyc⟩
      · rw [if_neg (by rw [hncf]; exact Bool.false_ne_true)]
        obtain ⟨st', hrun', hpost'⟩ := topoLoop_spec g hb fuel hfuel rest st2
          (fun m hm => hns m (List.mem_cons_of_mem n hm)) hncf hinv2
          (by rw [htemp2, htemp])
        refine ⟨st', hrun', ?_⟩
        rcases hpost' with ⟨hncf', hinv', htemp', hperm', hall⟩ | hcyc'
        · refine Or.inl ⟨hncf', hinv', htemp', subset_trans hperm2 hperm', ?_⟩
          intro m hm
          rcases List.mem_cons.mp hm with rfl | hm'
          · exact hperm' hnp
          · exact hall m hm'
        · exact Or.inr hcyc'
      · rw [if_pos hcf]
        refine ⟨st2, rfl, Or.inr ⟨hcf, ?_⟩⟩
        rcases hcyc with hclosed | hopen | hdetect
        · exact hclosed.2
        · obtain ⟨s, -, hstemp, -⟩ := hopen
          rw [htemp] at hstemp
          exact absurd hstemp (Finset.not_mem_empty s)
        · obtain ⟨-, -, hntemp⟩ := hdetect
          rw [htemp] at hntemp
          exact absurd hntemp (Finset.not_mem_empty n)

/-- The invariant holds for the initial state of `Topological`. -/
theorem topoInv_init (g : LabeledAdjacencyList) : TopoInv g initTopoState := by
  refine ⟨rfl, List.nodup_nil, trivial, ?_, ?_, ?_, ?_⟩
  · intro m
    constructor
    · intro hm; cases hm
    · intro hm; exact absurd hm (Finset.not_mem_empty m)
  · exact Finset.disjoint_empty_left _
  · intro m hm; exact absurd hm (Finset.not_mem_empty m)
  · intro m hm; exact absurd hm (Finset.not_mem_empty m)

/-- `Topological` dichotomy: either a duplicate-free reverse postorder
covering exactly the nodes of `g` with an empty cycle, or an empty
ordering with a closed-walk cycle witness. -/
theorem Topological_cases (g : LabeledAdjacencyList) (hb : BoundsOkL g) :
    (∃ ord, Topological g = (ord, []) ∧ ord.Nodup ∧ topoSortedFrom g ord ∧
       (∀ m, m ∈ ord ↔ m < g.length)) ∨
    (∃ cyc, Topological g = ([], cyc) ∧ cycleWalkOK g cyc) := by
  have hfuel : g.length < dfsFuel g := by
    unfold dfsFuel
    omega
  obtain ⟨st', hrun, hpost⟩ := topoLoop_spec g hb (dfsFuel g) hfuel
    (List.range g.length) initTopoState (fun n hn => List.mem_range.mp hn)
    rfl (topoInv_init g) rfl
  unfold Topological
  rw [hrun]
  dsimp only
  rcases hpost with ⟨hncf, hinv', _, _, hall⟩ | ⟨hcf, hwok⟩
  · rw [if_neg (by rw [hncf]; exact Bool.false_ne_true)]
    left
    refine ⟨st'.ordering, rfl, hinv'.2.1, hinv'.2.2.1, ?_⟩
    intro m
    rw [hinv'.2.2.2.1 m]
    constructor
    · exact fun hm => hinv'.2.2.2.2.2.2 m hm
    · exact fun hm => hall m (List.mem_range.mpr hm)
  · rw [if_pos hcf]
    right
    exact ⟨st'.cycle, rfl, hwok⟩

/-- In a reverse postorder, arcs point strictly forwards. -/
theorem topoSortedFrom_index {g : LabeledAdjacencyList} :
    ∀ {l : List Nat}, topoSortedFrom g l → l.Nodup →
    ∀ u v, ArcL g u v → u ∈ l → v ∈ l ∧ l.indexOf u < l.indexOf v := by
  intro l
  induction l with
  | nil =>
    intro _ _ u v _ hu
    cases hu
  | cons n rest ih =>
    intro hts hnd u v harc hu
    obtain ⟨hhead, hrest⟩ := hts
    have hnr : n ∉ rest := (List.nodup_cons.mp hnd).1
    have hndr : rest.Nodup := (List.nodup_cons.mp hnd).2
    rcases List.mem_cons.mp hu with rfl | hu'
    · have hv : v ∈ rest := hhead v harc
      have hvu : v ≠ u := fun hc => hnr (hc ▸ hv)
      refine ⟨List.mem_cons_of_mem u hv, ?_⟩
      rw [List.indexOf_cons_self, List.indexOf_cons_ne rest (fun hc => hvu hc.symm)]
      exact Nat.succ_pos _
    · obtain ⟨hv, hlt⟩ := ih hrest hndr u v harc hu'
      have hun : u ≠ n := fun hc => hnr (hc ▸ hu')
      have hvn : v ≠ n := fun hc => hnr (hc ▸ hv)
      refine ⟨List.mem_cons_of_mem n hv, ?_⟩
      rw [List.indexOf_cons_ne rest hun.symm, List.indexOf_cons_ne rest hvn.symm]
      exact Nat.succ_lt_succ hlt

theorem topoSortedFrom_index_transGen {g : LabeledAdjacencyList} {l : List Nat}
    (hts : topoSortedFrom g l) (hnd : l.Nodup) :
    ∀ u v, Relation.TransGen (ArcL g) u v → u ∈ l →
      v ∈ l ∧ l.indexOf u < l.indexOf v := by
  intro u v htg
  induction htg with
  | single h =>
    intro hu
    exact topoSortedFrom_index hts hnd _ _ h hu
  | tail _ harc ihtg =>
    intro hu
    obtain ⟨hm, hlt⟩ := ihtg hu
    obtain ⟨hm2, hlt2⟩ := topoSortedFrom_index hts hnd _ _ harc hm
    exact ⟨hm2, lt_trans hlt hlt2⟩

/-- A duplicate-free reverse postorder covering all nodes certifies
acyclicity. -/
theorem transGen_first_arc {g : LabeledAdjacencyList} {u v : Nat}
    (h : Relation.TransGen (ArcL g) u v) : ∃ c, ArcL g u c := by
  induction h with
  | single h => exact ⟨_, h⟩
  | tail _ _ ihtg => exact ihtg

theorem ordering_complete_acyclic {g : LabeledAdjacencyList} {l : List Nat}
    (hts : topoSortedFrom g l) (hnd : l.Nodup)
    (hcov : ∀ m, m ∈ l ↔ m < g.length) : AcyclicL g := by
  intro n htg
  obtain ⟨c, hc⟩ := transGen_first_arc htg
  have hn : n ∈ l := (hcov n).mpr (arcL_src_lt hc)
  obtain ⟨-, hlt⟩ := topoSortedFrom_index_transGen hts hnd n n htg hn
  omega

/-- An arc chain from `a` to `b` yields transitive reachability. -/
theorem chain'_append_transGen {g : LabeledAdjacencyList} :
    ∀ (l : List Nat) (a b : Nat), List.Chain' (ArcL g) (a :: l ++ [b]) →
      Relation.TransGen (ArcL g) a b
  | [], a, b, h => Relation.TransGen.single (List.chain'_pair.mp h)
  | c :: l, a, b, h => by
    have h' : List.Chain' (ArcL g) (a :: c :: (l ++ [b])) := h
    rw [List.chain'_cons] at h'
    exact Relation.TransGen.head h'.1 (chain'_append_transGen l c b h'.2)

/-- A closed walk witnesses a cycle. -/
theorem cycleWalkOK_cyclic {g : LabeledAdjacencyList} {l : List Nat}
    (h : cycleWalkOK g l) : CyclicL g := by
  match l, h with
  | a :: rest, h => exact ⟨a, chain'_append_transGen rest a a h⟩

/-- A decidable sufficient acyclicity check for witnesses: every arc goes
from a smaller to a larger node number. -/
theorem pairs_increase_acyclic (g : LabeledAdjacencyList)
    (hinc : ∀ p ∈ pairsFrom 0 g, Prod.fst p < Prod.snd p) : AcyclicL g := by
  have harcs : ∀ u v, ArcL g u v → u < v := by
    intro u v harc
    exact hinc (u, v) ((arcL_iff_pairs g u v).mp harc)
  intro n htg
  have : ∀ u v, Relation.TransGen (ArcL g) u v → u < v := by
    intro u v htg'
    induction htg' with
    | single h => exact harcs _ _ h
    | tail _ harc ihtg => exact lt_trans ihtg (harcs _ _ harc)
  exact absurd (this n n htg) (lt_irrefl n)

/-- C1.  For every acyclic graph (with arc targets in range), `Topological`
returns an ordering that is a permutation of `0 .. N-1` with an empty
cycle, and every arc `u → v` has `u` placed strictly before `v`. -/
theorem topological_acyclic_correct (g : LabeledAdjacencyList)
    (hb : BoundsOkL g) (hac : AcyclicL g) :
    ∃ ord, Topological g = (ord, []) ∧ ord.Perm (List.range g.length) ∧
      ∀ u v, ArcL g u v → ord.indexOf u < ord.indexOf v := by
  rcases Topological_cases g hb with ⟨ord, heq, hnd, hts, hcov⟩ | ⟨cyc, heq, hwok⟩
  · refine ⟨ord, heq, ?_, ?_⟩
    · refine List.perm_of_nodup_nodup_toFinset_eq hnd (List.nodup_range _) ?_
      ext m
      rw [List.mem_toFinset, List.mem_toFinset, hcov, List.mem_range]
    · intro u v harc
      have hu : u ∈ ord := (hcov u).mpr (arcL_src_lt harc)
      exact (topoSortedFrom_index hts hnd u v harc hu).2
  · exact absurd (cycleWalkOK_cyclic hwok) ((acyclicL_iff_not_cyclic g).mp hac)

/-- C1 witness at the three-node acyclic graph `{0:[1,2], 1:[2], 2:[]}`. -/
theorem topological_acyclic_correct_witness :
    ∃ ord, Topological [[⟨1, 0⟩, ⟨2, 0⟩], [⟨2, 0⟩], []] = (ord, []) ∧
      ord.Perm (List.range 3) ∧
      ∀ u v, ArcL [[⟨1, 0⟩, ⟨2, 0⟩], [⟨2, 0⟩], []] u v →
        ord.indexOf u < ord.indexOf v :=
  topological_acyclic_correct [[⟨1, 0⟩, ⟨2, 0⟩], [⟨2, 0⟩], []] (by decide)
    (pairs_increase_acyclic _ (by decide))

/-- C9 counterexample: on the empty graph (N = 0) `Topological` returns an
empty ordering and an empty cycle, so it is not the case that exactly one
of the two results is non-empty. -/
theorem topological_empty_graph_counterexample :
    ¬ (((Topological ([] : LabeledAdjacencyList)).1 ≠ [] ∧
         (Topological ([] : LabeledAdjacencyList)).2 = []) ∨
       ((Topological ([] : LabeledAdjacencyList)).2 ≠ [] ∧
         (Topological ([] : LabeledAdjacencyList)).1 = [])) := by
  decide

/-- C9 amended: for every graph with at least one node (and arc targets in
range), exactly one of `ordering` and `cycle` is non-empty: either the
ordering has length N and the cycle is empty, or the cycle is non-empty and
the ordering is empty. -/
theorem topological_dichotomy (g : LabeledAdjacencyList) (hb : BoundsOkL g)
    (hN : 1 ≤ g.length) :
    ((Topological g).1.length = g.length ∧ (Topological g).1 ≠ [] ∧
      (Topological g).2 = []) ∨
    ((Topological g).2 ≠ [] ∧ (Topological g).1 = []) := by
  rcases Topological_cases g hb with ⟨ord, heq, hnd, hts, hcov⟩ | ⟨cyc, heq, hwok⟩
  · left
    have hperm : ord.Perm (List.range g.length) := by
      refine List.perm_of_nodup_nodup_toFinset_eq hnd (List.nodup_range _) ?_
      ext m
      rw [List.mem_toFinset, List.mem_toFinset, hcov, List.mem_range]
    have hlen : ord.length = g.length := by
      rw [hperm.length_eq, List.length_range]
    rw [heq]
    dsimp only
    refine ⟨hlen, ?_, rfl⟩
    intro hc
    rw [hc] at hlen
    simp at hlen
    omega
  · right
    rw [heq]
    dsimp only
    refine ⟨?_, rfl⟩
    intro hc
    rw [hc] at hwok
    exact hwok

/-- C9 amended witness at the one-node graph with a self-loop. -/
theorem topological_dichotomy_witness :
    ((Topological [[⟨0, 0⟩]]).1.length = 1 ∧ (Topological [[⟨0, 0⟩]]).1 ≠ [] ∧
      (Topological [[⟨0, 0⟩]]).2 = []) ∨
    ((Topological [[⟨0, 0⟩]]).2 ≠ [] ∧ (Topological [[⟨0, 0⟩]]).1 = []) :=
  topological_dichotomy [[⟨0, 0⟩]] (by decide) (by decide)

/-! ## Kahn's algorithm: `TopologicalKahn` -/

/-- The initialization loop of `TopologicalKahn`: for each node `n` of the
transpose, an empty row puts `n` into the frontier `S`, otherwise `rem[n]`
is set to the row length (the in-degree). -/
def kahnInit : Nat → List (List NI) → List NI → List Nat → List NI × List Nat
  | _, [], S, rem => (S, rem)
  | n, fr :: rest, S, rem =>
    if fr.length = 0 then kahnInit (n + 1) rest (S ++ [n]) rem
    else kahnInit (n + 1) rest S (rem.set n fr.length)

/-- The successor loop of `TopologicalKahn`: for each arc of the popped
node, if the target still has remaining in-degree, consume one unit and
admit the target to the frontier when it reaches zero. -/
def kahnArcs : List Half → List NI → List Nat → List NI × List Nat
  | [], S, rem => (S, rem)
  | m :: rest, S, rem =>
    if 0 < rem.getD m.To 0 then
      if rem.getD m.To 0 - 1 = 0 then
        kahnArcs rest (S ++ [m.To]) (rem.set m.To (rem.getD m.To 0 - 1))
      else
        kahnArcs rest S (rem.set m.To (rem.getD m.To 0 - 1))
    else kahnArcs rest S rem

/-- The main loop of `TopologicalKahn`: while the frontier is non-empty,
pop a node from the end (the slice is used as a stack), append it to the
output order and process its arcs.  Fuel bounds the iteration count;
adequacy is proved below. -/
def kahnLoop (g : LabeledAdjacencyList) :
    Nat → List NI → List NI → List Nat → Option (List NI × List Nat)
  | _, [], L, rem => some (L, rem)
  | 0, _ :: _, _, _ => none
  | fuel + 1, s0 :: srest, L, rem =>
    let n := (s0 :: srest).getLast (List.cons_ne_nil s0 srest)
    let S1 := (s0 :: srest).dropLast
    let p := kahnArcs (arcsFrom g n) S1 rem
    kahnLoop g fuel p.1 (L ++ [n]) p.2

/-- The cycle-recovery scan of `TopologicalKahn`: the nodes that retain
nonzero remaining in-degree and have an arc to another such node, in
ascending node order. -/
def kahnCycle (g : LabeledAdjacencyList) (rem : List Nat) : List NI :=
  (List.range rem.length).filter (fun c =>
    decide (0 < rem.getD c 0) &&
      (arcsFrom g c).any (fun nb => decide (0 < rem.getD nb.To 0)))

/-- Fuel for the Kahn main loop: each iteration strictly decreases
`S.length + rem.sum`. -/
def kahnFuel (tr : AdjacencyList) : Nat :=
  tr.length + (tr.map List.length).sum + 1

/-- The state of `TopologicalKahn` after initialization and main loop:
the built order `L` and the final remaining in-degree counters. -/
def kahnRun (g : LabeledAdjacencyList) (tr : AdjacencyList) :
    Option (List NI × List Nat) :=
  match kahnInit 0 tr [] (List.replicate g.length 0) with
  | (S, rem) => kahnLoop g (kahnFuel tr) S [] rem

/-- `DirectedLabeled.TopologicalKahn` from the source: Kahn's algorithm,
consuming a local copy of the in-degrees taken from the caller-supplied
transpose `tr`. -/
def TopologicalKahn (g : LabeledAdjacencyList) (tr : AdjacencyList) :
    List NI × List NI :=
  match kahnRun g tr with
  | none => ([], [])
  | some (L, rem) =>
    let cycle := kahnCycle g rem
    if 0 < cycle.length then ([], cycle) else (L, [])

/-- Modelled from the spec (glossary): "Transpose: graph with every arc
direction reversed" — row `m` of the transpose lists the source of every
arc of `g` into `m`, with multiplicity.  (`Directed.Transpose` itself lies
outside the analysed sources.) -/
def transposeL (g : LabeledAdjacencyList) : AdjacencyList :=
  (List.range g.length).map (fun m =>
    (pairsFrom 0 g).filterMap (fun p => if p.2 = m then some p.1 else none))

/-- The targets of the arcs departing `u`. -/
def nodeTargets (g : LabeledAdjacencyList) (u : Nat) : List Nat :=
  (arcsFrom g u).map Half.To

/-- In-degree of `m` (with arc multiplicity). -/
def inDeg (g : LabeledAdjacencyList) (m : Nat) : Nat :=
  (targetsOf g).count m

/-- Number of arcs into `m` whose source is listed in `L` (multiplicity
counted; sources listed twice count twice, excluded by `Nodup` uses). -/
def consumedCount (g : LabeledAdjacencyList) (L : List Nat) (m : Nat) : Nat :=
  ((L.map (nodeTargets g)).flatten).count m

theorem range_map_getD {α : Type} (d : α) :
    ∀ (l : List α), (List.range l.length).map (fun i => l.getD i d) = l
  | [] => rfl
  | a :: l => by
    rw [List.length_cons, List.range_succ_eq_map, List.map_cons, List.map_map]
    have h0 : (a :: l).getD 0 d = a := rfl
    rw [h0]
    congr 1
    have : ∀ i, ((fun i => (a :: l).getD i d) ∘ Nat.succ) i = l.getD i d :=
      fun i => rfl
    rw [List.map_congr_left (fun i _ => this i)]
    exact range_map_getD d l

theorem pairsFrom_map_snd :
    ∀ (rows : List (List Half)) (fr : Nat),
    (pairsFrom fr rows).map Prod.snd = (rows.map (fun l => l.map Half.To)).flatten
  | [], _ => rfl
  | tos :: rest, fr => by
    rw [pairsFrom, List.map_append, List.map_cons, List.flatten_cons,
      pairsFrom_map_snd rest (fr + 1), List.map_map]
    rfl

theorem targetsOf_eq_flatten (g : LabeledAdjacencyList) :
    targetsOf g = ((List.range g.length).map (nodeTargets g)).flatten := by
  unfold targetsOf
  rw [pairsFrom_map_snd g 0]
  congr 1
  have h1 : (List.range g.length).map (nodeTargets g)
      = ((List.range g.length).map (fun i => g.getD i [])).map
          (fun l => l.map Half.To) := by
    rw [List.map_map]
    rfl
  rw [h1, range_map_getD ([] : List Half) g]

theorem inDeg_eq_consumed_range (g : LabeledAdjacencyList) (m : Nat) :
    inDeg g m = consumedCount g (List.range g.length) m := by
  unfold inDeg consumedCount
  rw [targetsOf_eq_flatten]

theorem consumed_append (g : LabeledAdjacencyList) (L₁ L₂ : List Nat) (m : Nat) :
    consumedCount g (L₁ ++ L₂) m = consumedCount g L₁ m + consumedCount g L₂ m := by
  unfold consumedCount
  rw [List.map_append, List.flatten_append, List.count_append]

theorem consumed_single (g : LabeledAdjacencyList) (u m : Nat) :
    consumedCount g [u] m = (nodeTargets g u).count m := by
  unfold consumedCount
  simp

theorem consumed_perm (g : LabeledAdjacencyList) {L₁ L₂ : List Nat}
    (h : L₁.Perm L₂) (m : Nat) : consumedCount g L₁ m = consumedCount g L₂ m := by
  unfold consumedCount
  exact ((h.map (nodeTargets g)).flatten).count_eq m

theorem arcL_iff_count_pos (g : LabeledAdjacencyList) (u m : Nat) :
    ArcL g u m ↔ 0 < (nodeTargets g u).count m := by
  rw [List.count_pos_iff]
  exact Iff.rfl

theorem consumed_eq_zero_iff (g : LabeledAdjacencyList) (L : List Nat) (m : Nat) :
    consumedCount g L m = 0 ↔ ∀ u ∈ L, ¬ ArcL g u m := by
  unfold consumedCount
  rw [List.count_flatten]
  constructor
  · intro h u hu harc
    have hpos : 0 < (nodeTargets g u).count m := (arcL_iff_count_pos g u m).mp harc
    have hmem : (nodeTargets g u).count m ∈ (L.map (nodeTargets g)).map (List.count m) := by
      rw [List.map_map]
      exact List.mem_map_of_mem _ hu
    have hz := List.sum_eq_zero_iff.mp h _ hmem
    simp only [Function.comp_apply] at hz
    omega
  · intro h
    apply List.sum_eq_zero_iff.mpr
    intro x hx
    rw [List.map_map] at hx
    obtain ⟨u, hu, rfl⟩ := List.mem_map.mp hx
    simp only [Function.comp_apply]
    have := h u hu
    rw [arcL_iff_count_pos] at this
    omega

/-- Complement decomposition: a duplicate-free list of nodes below `N`
extends to a permutation of `range N`. -/
theorem exists_compl {N : Nat} {L : List Nat} (hnd : L.Nodup)
    (hsub : ∀ u ∈ L, u < N) :
    ∃ rest, (List.range N).Perm (L ++ rest) := by
  have hsp : L.Subperm (List.range N) :=
    hnd.subperm (fun u hu => List.mem_range.mpr (hsub u hu))
  obtain ⟨l, hl, hsl⟩ := hsp
  obtain ⟨rest, hrest⟩ := hsl.exists_perm_append
  exact ⟨rest, hrest.trans (hl.append_right rest)⟩

/-- Bounding the consumed count by the in-degree, with the exact
complement. -/
theorem consumed_decomp (g : LabeledAdjacencyList) {L : List Nat}
    (hnd : L.Nodup) (hsub : ∀ u ∈ L, u < g.length) (m : Nat) :
    ∃ rest, inDeg g m = consumedCount g L m + consumedCount g rest m ∧
      rest.Nodup ∧ L.Disjoint rest ∧
      (∀ u, u < g.length → u ∉ L → u ∈ rest) := by
  obtain ⟨rest, hperm⟩ := exists_compl hnd hsub
  have hnds : (L ++ rest).Nodup := hperm.nodup_iff.mp (List.nodup_range _)
  rw [List.nodup_append] at hnds
  refine ⟨rest, ?_, hnds.2.1, hnds.2.2, ?_⟩
  · rw [inDeg_eq_consumed_range, consumed_perm g hperm, consumed_append]
  · intro u hu hnotL
    have : u ∈ L ++ rest := hperm.mem_iff.mp (List.mem_range.mpr hu)
    rcases List.mem_append.mp this with h | h
    · exact absurd h hnotL
    · exact h

/-! sum bookkeeping for the fuel argument -/

theorem getD_pos_lt_length {l : List Nat} {i : Nat} (h : 0 < l.getD i 0) :
    i < l.length := by
  by_contra hc
  rw [List.getD_eq_getElem?_getD, List.getElem?_eq_none (by omega)] at h
  simp at h

theorem sum_set : ∀ (l : List Nat) (i a : Nat), i < l.length →
    (l.set i a).sum + l.getD i 0 = l.sum + a
  | [], i, a, h => by simp at h
  | b :: l, 0, a, _ => by
    simp [List.set, List.sum_cons]
    omega
  | b :: l, i + 1, a, h => by
    have hi : i < l.length := by
      simp at h
      omega
    have := sum_set l i a hi
    simp only [List.set, List.sum_cons]
    have hgd : (b :: l).getD (i + 1) 0 = l.getD i 0 := rfl
    rw [hgd]
    omega

theorem sum_le_of_getD_le {l₁ l₂ : List Nat} (hlen : l₁.length = l₂.length)
    (h : ∀ i, i < l₁.length → l₁.getD i 0 ≤ l₂.getD i 0) : l₁.sum ≤ l₂.sum := by
  induction l₁ generalizing l₂ with
  | nil =>
    have : l₂ = [] := List.length_eq_zero.mp hlen.symm
    rw [this]
  | cons a l ih =>
    match l₂, hlen with
    | b :: l₂, hlen =>
      have h0 : a ≤ b := h 0 (by simp)
      have hrest : l.sum ≤ l₂.sum := by
        refine ih (by simpa using hlen) ?_
        intro i hi
        exact h (i + 1) (by simpa using Nat.succ_lt_succ hi)
      simp only [List.sum_cons]
      omega

/-! characterization of the initialization loop -/

/-- The indices (starting at `n`) of the empty rows: the initial frontier. -/
def emptyIdx : Nat → List (List NI) → List NI
  | _, [] => []
  | n, r :: rest =>
    if r.length = 0 then n :: emptyIdx (n + 1) rest else emptyIdx (n + 1) rest

theorem kahnInit_fst : ∀ (rows : List (List NI)) (n : Nat) (S : List NI)
    (rem : List Nat), (kahnInit n rows S rem).1 = S ++ emptyIdx n rows
  | [], n, S, rem => by simp [kahnInit, emptyIdx]
  | r :: rest, n, S, rem => by
    rw [kahnInit, emptyIdx]
    by_cases hr : r.length = 0
    · rw [if_pos hr, if_pos hr, kahnInit_fst rest (n + 1) (S ++ [n]) rem]
      simp
    · rw [if_neg hr, if_neg hr, kahnInit_fst rest (n + 1) S (rem.set n r.length)]

theorem kahnInit_snd_length : ∀ (rows : List (List NI)) (n : Nat) (S : List NI)
    (rem : List Nat), (kahnInit n rows S rem).2.length = rem.length
  | [], n, S, rem => rfl
  | r :: rest, n, S, rem => by
    rw [kahnInit]
    by_cases hr : r.length = 0
    · rw [if_pos hr, kahnInit_snd_length rest (n + 1) (S ++ [n]) rem]
    · rw [if_neg hr, kahnInit_snd_length rest (n + 1) S (rem.set n r.length),
        List.length_set]

theorem getD_set_nat (l : List Nat) (i v m : Nat) :
    (l.set i v).getD m 0 = if i = m ∧ i < l.length then v else l.getD m 0 := by
  rw [List.getD_eq_getElem?_getD, List.getD_eq_getElem?_getD, List.getElem?_set]
  by_cases h : i = m
  · subst h
    by_cases hl : i < l.length
    · simp [hl]
    · rw [if_pos rfl, if_neg hl, if_neg (fun hc : i = i ∧ i < l.length => hl hc.2),
        List.getElem?_eq_none (Nat.le_of_not_lt hl)]
  · simp [h]

theorem kahnInit_snd_getD : ∀ (rows : List (List NI)) (n : Nat) (S : List NI)
    (rem : List Nat), n + rows.length ≤ rem.length → ∀ m,
    (kahnInit n rows S rem).2.getD m 0 =
      if n ≤ m ∧ m - n < rows.length ∧ (rows.getD (m - n) []).length ≠ 0 then
        (rows.getD (m - n) []).length
      else rem.getD m 0
  | [], n, S, rem, _, m => by
    rw [kahnInit]
    simp
  | r :: rest, n, S, rem, hsz, m => by
    rw [kahnInit]
    have hsz' : (n + 1) + rest.length ≤ rem.length := by
      simp at hsz
      omega
    by_cases hr : r.length = 0
    · rw [if_pos hr, kahnInit_snd_getD rest (n + 1) (S ++ [n]) rem hsz' m]
      by_cases hm : n + 1 ≤ m ∧ m - (n + 1) < rest.length ∧
          (rest.getD (m - (n + 1)) []).length ≠ 0
      · rw [if_pos hm]
        have h2 : n ≤ m ∧ m - n < (r :: rest).length ∧
            ((r :: rest).getD (m - n) []).length ≠ 0 := by
          have hmn : m - n = (m - (n + 1)) + 1 := by omega
          refine ⟨by omega, by simp; omega, ?_⟩
          rw [hmn]
          exact hm.2.2
        rw [if_pos h2]
        have hmn : m - n = (m - (n + 1)) + 1 := by omega
        rw [hmn]
        rfl
      · rw [if_neg hm]
        by_cases h2 : n ≤ m ∧ m - n < (r :: rest).length ∧
            ((r :: rest).getD (m - n) []).length ≠ 0
        · exfalso
          rcases h2 with ⟨hnm, hlt, hne⟩
          by_cases hmeq : m = n
          · subst hmeq
            simp at hne
            exact hne (List.length_eq_zero.mp hr)
          · have hm1 : n + 1 ≤ m := by omega
            have hmn : m - n = (m - (n + 1)) + 1 := by omega
            rw [hmn] at hlt hne
            exact hm ⟨hm1, by simp at hlt; omega, hne⟩
        · rw [if_neg h2]
    · rw [if_neg hr,
        kahnInit_snd_getD rest (n + 1) S (rem.set n r.length) (by
          rw [List.length_set]; exact hsz') m]
      by_cases hm : n + 1 ≤ m ∧ m - (n + 1) < rest.length ∧
          (rest.getD (m - (n + 1)) []).length ≠ 0
      · rw [if_pos hm]
        have hmn : m - n = (m - (n + 1)) + 1 := by omega
        rw [if_pos ⟨by omega, by simp; omega, by rw [hmn]; exact hm.2.2⟩, hmn]
        rfl
      · rw [if_neg hm, getD_set_nat]
        by_cases hmeq : n = m
        · subst hmeq
          rw [if_pos ⟨rfl, by simp at hsz; omega⟩,
            if_pos ⟨le_refl n, by simp, by simpa using hr⟩]
          simp
        · rw [if_neg (fun hc => hmeq hc.1)]
          by_cases h2 : n ≤ m ∧ m - n < (r :: rest).length ∧
              ((r :: rest).getD (m - n) []).length ≠ 0
          · exfalso
            rcases h2 with ⟨hnm, hlt, hne⟩
            have hm1 : n + 1 ≤ m := by omega
            have hmn : m - n = (m - (n + 1)) + 1 := by omega
            rw [hmn] at hlt hne
            exact hm ⟨hm1, by simp at hlt; omega, hne⟩
          · rw [if_neg h2]

theorem emptyIdx_ge : ∀ (rows : List (List NI)) (n : Nat),
    ∀ m ∈ emptyIdx n rows, n ≤ m
  | [], n, m, hm => by cases hm
  | r :: rest, n, m, hm => by
    rw [emptyIdx] at hm
    by_cases hr : r.length = 0
    · rw [if_pos hr] at hm
      rcases List.mem_cons.mp hm with rfl | hm'
      · exact le_refl m
      · have := emptyIdx_ge rest (n + 1) m hm'
        omega
    · rw [if_neg hr] at hm
      have := emptyIdx_ge rest (n + 1) m hm
      omega

theorem emptyIdx_nodup : ∀ (rows : List (List NI)) (n : Nat),
    (emptyIdx n rows).Nodup
  | [], n => List.nodup_nil
  | r :: rest, n => by
    rw [emptyIdx]
    by_cases hr : r.length = 0
    · rw [if_pos hr]
      refine List.nodup_cons.mpr ⟨?_, emptyIdx_nodup rest (n + 1)⟩
      intro hc
      have := emptyIdx_ge rest (n + 1) n hc
      omega
    · rw [if_neg hr]
      exact emptyIdx_nodup rest (n + 1)

theorem emptyIdx_mem : ∀ (rows : List (List NI)) (n m : Nat),
    (m ∈ emptyIdx n rows ↔
      n ≤ m ∧ m - n < rows.length ∧ (rows.getD (m - n) []).length = 0)
  | [], n, m => by simp [emptyIdx]
  | r :: rest, n, m => by
    rw [emptyIdx]
    by_cases hr : r.length = 0
    · rw [if_pos hr]
      constructor
      · intro hm
        rcases List.mem_cons.mp hm with rfl | hm'
        · exact ⟨le_refl m, by simp, by simpa using hr⟩
        · obtain ⟨h1, h2, h3⟩ := (emptyIdx_mem rest (n + 1) m).mp hm'
          have hmn : m - n = (m - (n + 1)) + 1 := by omega
          exact ⟨by omega, by rw [hmn]; simp; omega, by rw [hmn]; exact h3⟩
      · rintro ⟨h1, h2, h3⟩
        by_cases hmeq : m = n
        · exact hmeq ▸ List.mem_cons_self m _
        · have hm1 : n + 1 ≤ m := by omega
          have hmn : m - n = (m - (n + 1)) + 1 := by omega
          rw [hmn] at h2 h3
          refine List.mem_cons_of_mem _ ((emptyIdx_mem rest (n + 1) m).mpr
            ⟨hm1, by simp at h2; omega, h3⟩)
    · rw [if_neg hr]
      constructor
      · intro hm
        obtain ⟨h1, h2, h3⟩ := (emptyIdx_mem rest (n + 1) m).mp hm
        have hmn : m - n = (m - (n + 1)) + 1 := by omega
        exact ⟨by omega, by rw [hmn]; simp; omega, by rw [hmn]; exact h3⟩
      · rintro ⟨h1, h2, h3⟩
        by_cases hmeq : m = n
        · exfalso
          subst hmeq
          simp at h3
          exact hr (List.length_eq_zero.mpr h3)
        · have hm1 : n + 1 ≤ m := by omega
          have hmn : m - n = (m - (n + 1)) + 1 := by omega
          rw [hmn] at h2 h3
          exact (emptyIdx_mem rest (n + 1) m).mpr ⟨hm1, by simp at h2; omega, h3⟩

theorem emptyIdx_length_le : ∀ (rows : List (List NI)) (n : Nat),
    (emptyIdx n rows).length ≤ rows.length
  | [], _ => le_refl 0
  | r :: rest, n => by
    rw [emptyIdx]
    by_cases hr : r.length = 0
    · rw [if_pos hr]
      simpa using emptyIdx_length_le rest (n + 1)
    · rw [if_neg hr]
      have := emptyIdx_length_le rest (n + 1)
      simp
      omega

/-! the transpose rows measure in-degrees -/

theorem filterMap_snd_count (m : Nat) :
    ∀ (l : List (Nat × Nat)),
    (l.filterMap (fun p => if p.2 = m then some p.1 else none)).length
      = (l.map Prod.snd).count m
  | [] => rfl
  | p :: l => by
    rw [List.filterMap_cons, List.map_cons]
    by_cases hp : p.2 = m
    · rw [if_pos hp, List.length_cons, List.count_cons, filterMap_snd_count m l]
      simp [hp]
    · rw [if_neg hp, List.count_cons, filterMap_snd_count m l]
      simp [hp, Ne.symm hp]

theorem transposeL_length (g : LabeledAdjacencyList) :
    (transposeL g).length = g.length := by
  unfold transposeL
  rw [List.length_map, List.length_range]

theorem transposeL_row (g : LabeledAdjacencyList) {m : Nat} (hm : m < g.length) :
    (transposeL g).getD m [] =
      (pairsFrom 0 g).filterMap (fun p => if p.2 = m then some p.1 else none) := by
  unfold transposeL
  rw [List.getD_eq_getElem?_getD, List.getElem?_map, List.getElem?_range hm]
  rfl

theorem transposeL_row_len (g : LabeledAdjacencyList) {m : Nat}
    (hm : m < g.length) :
    ((transposeL g).getD m []).length = inDeg g m := by
  rw [transposeL_row g hm, filterMap_snd_count m (pairsFrom 0 g)]
  rfl

/-- Invariant of the Kahn main loop at loop heads: the frontier `S` and
the output `L` are duplicate-free and disjoint, `rem` records in-degrees
minus arcs consumed from `L`, membership in `S ∪ L` coincides with an
exhausted counter, all predecessors of listed nodes are already output,
and output nodes follow all their predecessors. -/
def KInv (g : LabeledAdjacencyList) (S L : List NI) (rem : List Nat) : Prop :=
  rem.length = g.length ∧
  S.Nodup ∧ L.Nodup ∧ (∀ m ∈ S, m ∉ L) ∧
  (∀ m ∈ S, m < g.length) ∧ (∀ m ∈ L, m < g.length) ∧
  (∀ m, m < g.length → rem.getD m 0 + consumedCount g L m = inDeg g m) ∧
  (∀ m, m < g.length → ((m ∈ S ∨ m ∈ L) ↔ rem.getD m 0 = 0)) ∧
  (∀ v, (v ∈ S ∨ v ∈ L) → ∀ u, ArcL g u v → u ∈ L) ∧
  (∀ v ∈ L, ∀ u, ArcL g u v → L.indexOf u < L.indexOf v)

/-- Specification of the successor loop `kahnArcs`, processing the
remaining `arcs` of the just-output node `n` (already appended to the
order, written `Lold ++ [n]`), with `done` the already-processed prefix. -/
theorem kahnArcs_spec (g : LabeledAdjacencyList) (hb : BoundsOkL g) (n : Nat) :
    ∀ (arcs done : List Half) (S : List NI) (Lold : List NI) (rem : List Nat),
    arcsFrom g n = done ++ arcs →
    rem.length = g.length →
    S.Nodup → (Lold ++ [n]).Nodup →
    (∀ m ∈ S, m ∉ Lold ++ [n]) →
    (∀ m ∈ S, m < g.length) → (∀ m ∈ Lold ++ [n], m < g.length) →
    (∀ m, m < g.length →
      rem.getD m 0 + consumedCount g Lold m + (done.map Half.To).count m
        = inDeg g m) →
    (∀ m, m < g.length → ((m ∈ S ∨ m ∈ Lold ++ [n]) ↔ rem.getD m 0 = 0)) →
    (∀ v, (v ∈ S ∨ v ∈ Lold ++ [n]) → ∀ u, ArcL g u v → u ∈ Lold ++ [n]) →
    ∃ S' rem', kahnArcs arcs S rem = (S', rem') ∧
      rem'.length = g.length ∧
      S'.Nodup ∧
      (∀ m ∈ S', m ∉ Lold ++ [n]) ∧
      (∀ m ∈ S', m < g.length) ∧
      (∀ m ∈ S, m ∈ S') ∧
      (∀ m, m < g.length →
        rem'.getD m 0 + consumedCount g Lold m
          + ((done ++ arcs).map Half.To).count m = inDeg g m) ∧
      (∀ m, m < g.length → ((m ∈ S' ∨ m ∈ Lold ++ [n]) ↔ rem'.getD m 0 = 0)) ∧
      (∀ v, (v ∈ S' ∨ v ∈ Lold ++ [n]) → ∀ u, ArcL g u v → u ∈ Lold ++ [n]) ∧
      S'.length + rem'.sum ≤ S.length + rem.sum
  | [], done, S, Lold, rem, hsplit, hlen, hndS, hndL, hSL, hSb, hLb, heq, hio,
      hpred => by
    refine ⟨S, rem, rfl, hlen, hndS, hSL, hSb, fun m hm => hm, ?_, hio, hpred,
      le_refl _⟩
    intro m hm
    rw [List.append_nil]
    exact heq m hm
  | nb :: rest, done, S, Lold, rem, hsplit, hlen, hndS, hndL, hSL, hSb, hLb,
      heq, hio, hpred => by
    have hnbmem : nb ∈ arcsFrom g n := by
      rw [hsplit]
      exact List.mem_append_right done (List.mem_cons_self nb rest)
    have hmN : nb.To < g.length := arcsFrom_bounds hb n nb hnbmem
    have hLnd' : Lold.Nodup := (List.nodup_append.mp hndL).1
    have hLb' : ∀ u ∈ Lold ++ [n], u < g.length := hLb
    -- counting facts shared by the branches
    obtain ⟨restc, hdec, hndrc, hdisrc, hcomplrc⟩ :=
      consumed_decomp g (L := Lold ++ [n]) hndL hLb' nb.To
    have hcL : consumedCount g (Lold ++ [n]) nb.To
        = consumedCount g Lold nb.To + (nodeTargets g n).count nb.To := by
      rw [consumed_append, consumed_single]
    have hcount_full : (nodeTargets g n).count nb.To
        = (done.map Half.To).count nb.To
          + ((nb :: rest).map Half.To).count nb.To := by
      unfold nodeTargets
      rw [hsplit, List.map_append, List.count_append]
    have hcount_cur : 0 < ((nb :: rest).map Half.To).count nb.To := by
      rw [List.count_pos_iff]
      exact List.mem_map_of_mem Half.To (List.mem_cons_self nb rest)
    rw [kahnArcs]
    by_cases hg : 0 < rem.getD nb.To 0
    · rw [if_pos hg]
      have hnotio : nb.To ∉ S ∧ nb.To ∉ Lold ++ [n] := by
        have := hio nb.To hmN
        constructor
        · intro hc
          have := this.mp (Or.inl hc)
          omega
        · intro hc
          have := this.mp (Or.inr hc)
          omega
      have hmrem : nb.To < rem.length := getD_pos_lt_length hg
      have hgd2 : ∀ k, (rem.set nb.To (rem.getD nb.To 0 - 1)).getD k 0
          = if nb.To = k then rem.getD nb.To 0 - 1 else rem.getD k 0 := by
        intro k
        rw [getD_set_nat]
        by_cases hk : nb.To = k
        · rw [if_pos ⟨hk, hmrem⟩, if_pos hk]
        · rw [if_neg (fun hc => hk hc.1), if_neg hk]
      have heq2 : ∀ m, m < g.length →
          (rem.set nb.To (rem.getD nb.To 0 - 1)).getD m 0
            + consumedCount g Lold m
            + ((done ++ [nb]).map Half.To).count m = inDeg g m := by
        intro m hm
        rw [hgd2 m, List.map_append, List.count_append]
        by_cases hk : nb.To = m
        · subst hk
          rw [if_pos rfl]
          have hx := heq nb.To hm
          have hone : ([nb].map Half.To).count nb.To = 1 := by
            simp
          rw [hone]
          omega
        · rw [if_neg hk]
          have hzero : ([nb].map Half.To).count m = 0 := by
            rw [List.count_eq_zero]
            intro hc
            rw [List.map_singleton, List.mem_singleton] at hc
            exact hk hc.symm
          rw [hzero]
          have hx := heq m hm
          omega
      have hsplit2 : arcsFrom g n = (done ++ [nb]) ++ rest := by
        rw [hsplit, List.append_assoc]
        rfl
      have hsum2 : (rem.set nb.To (rem.getD nb.To 0 - 1)).sum + 1 = rem.sum := by
        have := sum_set rem nb.To (rem.getD nb.To 0 - 1) hmrem
        omega
      by_cases hz : rem.getD nb.To 0 - 1 = 0
      · -- the target's counter reaches zero: admit it to the frontier
        rw [if_pos hz]
        -- all predecessors of nb.To are already output
        have hprednew : ∀ u, ArcL g u nb.To → u ∈ Lold ++ [n] := by
          intro u hu
          have husrc : u < g.length := arcL_src_lt hu
          have hcdone : (done.map Half.To).count nb.To
              ≤ (nodeTargets g n).count nb.To := by
            omega
          have hrc0 : consumedCount g restc nb.To = 0 := by
            have h1 := heq nb.To hmN
            omega
          by_cases hL : u ∈ Lold ++ [n]
          · exact hL
          · exfalso
            exact ((consumed_eq_zero_iff g restc nb.To).mp hrc0) u
              (hcomplrc u husrc hL) hu
        have ih := kahnArcs_spec g hb n rest (done ++ [nb]) (S ++ [nb.To]) Lold
          (rem.set nb.To (rem.getD nb.To 0 - 1)) hsplit2
          (by rw [List.length_set]; exact hlen)
          (by
            rw [List.nodup_append]
            refine ⟨hndS, List.nodup_singleton _, ?_⟩
            intro a ha hb
            rw [List.mem_singleton] at hb
            subst hb
            exact hnotio.1 ha)
          hndL
          (by
            intro m hm
            rcases List.mem_append.mp hm with hm' | hm'
            · exact hSL m hm'
            · rw [List.mem_singleton] at hm'
              subst hm'
              exact hnotio.2)
          (by
            intro m hm
            rcases List.mem_append.mp hm with hm' | hm'
            · exact hSb m hm'
            · rw [List.mem_singleton] at hm'
              subst hm'
              exact hmN)
          hLb heq2
          (by
            intro m hm
            rw [hgd2 m]
            by_cases hk : nb.To = m
            · subst hk
              rw [if_pos rfl]
              constructor
              · intro _
                exact hz
              · intro _
                exact Or.inl (List.mem_append_right S (List.mem_singleton.mpr rfl))
            · rw [if_neg hk]
              have := hio m hm
              constructor
              · intro hor
                rcases hor with hs | hl
                · rcases List.mem_append.mp hs with hs' | hs'
                  · exact this.mp (Or.inl hs')
                  · rw [List.mem_singleton] at hs'
                    exact absurd hs'.symm hk
                · exact this.mp (Or.inr hl)
              · intro hr
                rcases this.mpr hr with hs | hl
                · exact Or.inl (List.mem_append_left _ hs)
                · exact Or.inr hl)
          (by
            intro v hv u hu
            rcases hv with hv | hv
            · rcases List.mem_append.mp hv with hv' | hv'
              · exact hpred v (Or.inl hv') u hu
              · rw [List.mem_singleton] at hv'
                subst hv'
                exact hprednew u hu
            · exact hpred v (Or.inr hv) u hu)
        obtain ⟨S', rem', hrun, h1, h2, h3, h4, h5, h6, h7, h8, h9⟩ := ih
        refine ⟨S', rem', hrun, h1, h2, h3, h4, ?_, ?_, h7, h8, ?_⟩
        · intro m hm
          exact h5 m (List.mem_append_left _ hm)
        · intro m hm
          have := h6 m hm
          rw [List.append_assoc] at this
          simpa using this
        · have hlen2 : (S ++ [nb.To]).length = S.length + 1 := by
            simp
          omega
      · -- counter still positive: only the decrement
        rw [if_neg hz]
        have ih := kahnArcs_spec g hb n rest (done ++ [nb]) S Lold
          (rem.set nb.To (rem.getD nb.To 0 - 1)) hsplit2
          (by rw [List.length_set]; exact hlen)
          hndS hndL hSL hSb hLb heq2
          (by
            intro m hm
            rw [hgd2 m]
            by_cases hk : nb.To = m
            · subst hk
              rw [if_pos rfl]
              constructor
              · intro hor
                exfalso
                rcases hor with hs | hl
                · exact hnotio.1 hs
                · exact hnotio.2 hl
              · intro hr
                exact absurd hr hz
            · rw [if_neg hk]
              exact hio m hm)
          hpred
        obtain ⟨S', rem', hrun, h1, h2, h3, h4, h5, h6, h7, h8, h9⟩ := ih
        refine ⟨S', rem', hrun, h1, h2, h3, h4, h5, ?_, h7, h8, by omega⟩
        intro m hm
        have := h6 m hm
        rw [List.append_assoc] at this
        simpa using this
    · -- the guard cannot fail when `rem` tracks true remaining in-degrees
      exfalso
      have hr0 : rem.getD nb.To 0 = 0 := by omega
      have h1 := heq nb.To hmN
      omega

/-- The Kahn main loop terminates within fuel `S.length + rem.sum` and
preserves the invariant, ending with an empty frontier. -/
theorem kahnLoop_spec (g : LabeledAdjacencyList) (hb : BoundsOkL g) :
    ∀ (fuel : Nat) (S L : List NI) (rem : List Nat),
    KInv g S L rem → S.length + rem.sum ≤ fuel →
    ∃ L' rem', kahnLoop g fuel S L rem = some (L', rem') ∧
      KInv g [] L' rem' ∧ (∀ m ∈ L, m ∈ L')
  | fuel, [], L, rem, hinv, _ => by
    refine ⟨L, rem, ?_, hinv, fun m hm => hm⟩
    cases fuel <;> rfl
  | 0, s0 :: srest, L, rem, hinv, hfuel => by
    exfalso
    have hlen1 : (s0 :: srest).length = srest.length + 1 := rfl
    omega
  | fuel + 1, s0 :: srest, L, rem, hinv, hfuel => by
    obtain ⟨hlen, hndS, hndL, hSL, hSb, hLb, heq, hio, hpred, hord⟩ := hinv
    set n := (s0 :: srest).getLast (List.cons_ne_nil s0 srest) with hn
    set S1 := (s0 :: srest).dropLast with hS1
    have hSdecomp : S1 ++ [n] = s0 :: srest :=
      List.dropLast_append_getLast (List.cons_ne_nil s0 srest)
    have hnS : n ∈ s0 :: srest := by
      rw [← hSdecomp]
      exact List.mem_append_right S1 (List.mem_singleton.mpr rfl)
    have hndS' : S1.Nodup ∧ n ∉ S1 := by
      have : (S1 ++ [n]).Nodup := by rw [hSdecomp]; exact hndS
      rw [List.nodup_append] at this
      exact ⟨this.1, fun hc => this.2.2 hc (List.mem_singleton.mpr rfl)⟩
    have hnL : n ∉ L := hSL n hnS
    have hnN : n < g.length := hSb n hnS
    have hndLn : (L ++ [n]).Nodup := by
      rw [List.nodup_append]
      refine ⟨hndL, List.nodup_singleton _, ?_⟩
      intro a ha hb
      rw [List.mem_singleton] at hb
      subst hb
      exact hnL ha
    have hmemS1 : ∀ m, m ∈ S1 → m ∈ s0 :: srest := by
      intro m hm
      rw [← hSdecomp]
      exact List.mem_append_left _ hm
    have harcs := kahnArcs_spec g hb n (arcsFrom g n) [] S1 L rem rfl hlen
      hndS'.1 hndLn
      (by
        intro m hm
        intro hc
        rcases List.mem_append.mp hc with hc' | hc'
        · exact hSL m (hmemS1 m hm) hc'
        · rw [List.mem_singleton] at hc'
          subst hc'
          exact hndS'.2 hm)
      (fun m hm => hSb m (hmemS1 m hm))
      (by
        intro m hm
        rcases List.mem_append.mp hm with hm' | hm'
        · exact hLb m hm'
        · rw [List.mem_singleton] at hm'
          subst hm'
          exact hnN)
      (by
        intro m hm
        have := heq m hm
        simpa using this)
      (by
        intro m hm
        rw [← hio m hm]
        constructor
        · rintro (hs | hl)
          · exact Or.inl (hmemS1 m hs)
          · rcases List.mem_append.mp hl with hl' | hl'
            · exact Or.inr hl'
            · rw [List.mem_singleton] at hl'
              subst hl'
              exact Or.inl hnS
        · rintro (hs | hl)
          · rw [← hSdecomp] at hs
            rcases List.mem_append.mp hs with hs' | hs'
            · exact Or.inl hs'
            · exact Or.inr (List.mem_append_right L hs')
          · exact Or.inr (List.mem_append_left _ hl))
      (by
        intro v hv u hu
        have hv' : v ∈ s0 :: srest ∨ v ∈ L := by
          rcases hv with hs | hl
          · exact Or.inl (hmemS1 v hs)
          · rcases List.mem_append.mp hl with hl' | hl'
            · exact Or.inr hl'
            · rw [List.mem_singleton] at hl'
              subst hl'
              exact Or.inl hnS
        exact List.mem_append_left _ (hpred v hv' u hu))
    obtain ⟨S', rem', hrun, h1, h2, h3, h4, h5, h6, h7, h8, h9⟩ := harcs
    have heqL : ∀ m, m < g.length →
        rem'.getD m 0 + consumedCount g (L ++ [n]) m = inDeg g m := by
      intro m hm
      have hx := h6 m hm
      rw [consumed_append, consumed_single]
      have hnt : (([] ++ arcsFrom g n).map Half.To).count m
          = (nodeTargets g n).count m := by
        rw [List.nil_append]
        rfl
      rw [hnt] at hx
      omega
    have hordL : ∀ v ∈ L ++ [n], ∀ u, ArcL g u v →
        (L ++ [n]).indexOf u < (L ++ [n]).indexOf v := by
      intro v hv u hu
      rcases List.mem_append.mp hv with hvL | hvn
      · have huL : u ∈ L := hpred v (Or.inr hvL) u hu
        rw [List.indexOf_append_of_mem huL, List.indexOf_append_of_mem hvL]
        exact hord v hvL u hu
      · rw [List.mem_singleton] at hvn
        subst hvn
        have huL : u ∈ L := hpred _ (Or.inl hnS) u hu
        rw [List.indexOf_append_of_mem huL, List.indexOf_append_of_not_mem hnL]
        have hul : L.indexOf u < L.length := List.indexOf_lt_length.mpr huL
        omega
    have hinv2 : KInv g S' (L ++ [n]) rem' :=
      ⟨h1, h2, hndLn, h3, h4,
       (by
         intro m hm
         rcases List.mem_append.mp hm with hm' | hm'
         · exact hLb m hm'
         · rw [List.mem_singleton] at hm'
           subst hm'
           exact hnN),
       heqL, h7, h8, hordL⟩
    have hfuel2 : S'.length + rem'.sum ≤ fuel := by
      have hS1len : S1.length + 1 = (s0 :: srest).length := by
        rw [← hSdecomp]
        simp
      have hlen1 : (s0 :: srest).length = srest.length + 1 := rfl
      omega
    obtain ⟨L', rem'', hrun2, hinvf, hmono⟩ :=
      kahnLoop_spec g hb fuel S' (L ++ [n]) rem' hinv2 hfuel2
    refine ⟨L', rem'', ?_, hinvf, ?_⟩
    · rw [kahnLoop]
      show kahnLoop g fuel (kahnArcs (arcsFrom g n) S1 rem).1 (L ++ [n])
        (kahnArcs (arcsFrom g n) S1 rem).2 = some (L', rem'')
      rw [hrun]
      exact hrun2
    · intro m hm
      exact hmono m (List.mem_append_left _ hm)

theorem arcL_tgt_lt {g : LabeledAdjacencyList} (hb : BoundsOkL g) {u v : Nat}
    (h : ArcL g u v) : v < g.length := by
  obtain ⟨hf, hhf, rfl⟩ := arcL_elim h
  exact arcsFrom_bounds hb u hf hhf

theorem consumed_nil (g : LabeledAdjacencyList) (m : Nat) :
    consumedCount g [] m = 0 := rfl

theorem inDeg_pos_of_arc (g : LabeledAdjacencyList) {u v : Nat}
    (h : ArcL g u v) : 0 < inDeg g v := by
  obtain ⟨restc, hdec, -, -, -⟩ := consumed_decomp g (L := [u])
    (List.nodup_singleton u)
    (by
      intro x hx
      rw [List.mem_singleton] at hx
      subst hx
      exact arcL_src_lt h) v
  have hpos := (arcL_iff_count_pos g u v).mp h
  rw [consumed_single] at hdec
  omega

theorem getD_replicate_zero (N m : Nat) :
    (List.replicate N (0 : Nat)).getD m 0 = 0 := by
  rw [List.getD_eq_getElem?_getD, List.getElem?_replicate]
  by_cases hm : m < N <;> simp [hm]

theorem getD_map_length (tr : AdjacencyList) (i : Nat) (hi : i < tr.length) :
    (tr.map List.length).getD i 0 = (tr.getD i []).length := by
  rw [List.getD_eq_getElem?_getD, List.getD_eq_getElem?_getD, List.getElem?_map,
    List.getElem?_eq_getElem hi]
  rfl

/-- After initialization from the transpose: the frontier holds exactly the
in-degree-zero nodes, the counters hold the in-degrees, and the invariant
holds with an empty output. -/
theorem kahnInit_inv (g : LabeledAdjacencyList) (hb : BoundsOkL g) :
    ∃ S rem,
      kahnInit 0 (transposeL g) [] (List.replicate g.length 0) = (S, rem) ∧
      KInv g S [] rem ∧ S.length + rem.sum ≤ kahnFuel (transposeL g) := by
  have htrlen : (transposeL g).length = g.length := transposeL_length g
  have hsz : 0 + (transposeL g).length ≤ (List.replicate g.length (0 : Nat)).length := by
    rw [htrlen, List.length_replicate]
    omega
  obtain ⟨S, rem, hpair⟩ :
      ∃ S rem, kahnInit 0 (transposeL g) [] (List.replicate g.length 0) = (S, rem) :=
    ⟨_, _, rfl⟩
  have hfst : S = emptyIdx 0 (transposeL g) := by
    have hk := kahnInit_fst (transposeL g) 0 [] (List.replicate g.length 0)
    rw [hpair] at hk
    simpa using hk
  have hsndlen : rem.length = g.length := by
    have hk := kahnInit_snd_length (transposeL g) 0 [] (List.replicate g.length 0)
    rw [hpair] at hk
    simpa using hk
  have hgd : ∀ m, rem.getD m 0 = if m < g.length then inDeg g m else 0 := by
    intro m
    have hk := kahnInit_snd_getD (transposeL g) 0 [] (List.replicate g.length 0) hsz m
    rw [hpair] at hk
    dsimp only at hk
    rw [hk]
    by_cases hm : m < g.length
    · rw [if_pos hm]
      by_cases hrow : ((transposeL g).getD (m - 0) []).length ≠ 0
      · rw [if_pos ⟨Nat.zero_le m, by rw [htrlen]; omega, hrow⟩]
        have h0 : m - 0 = m := rfl
        rw [h0]
        exact transposeL_row_len g hm
      · rw [if_neg (fun hc => hrow hc.2.2), getD_replicate_zero]
        push_neg at hrow
        have h0 : m - 0 = m := rfl
        rw [h0] at hrow
        rw [transposeL_row_len g hm] at hrow
        omega
    · rw [if_neg hm, if_neg (by
        rintro ⟨-, hlt, -⟩
        rw [htrlen] at hlt
        omega), getD_replicate_zero]
  have hmemS : ∀ m, m ∈ S ↔ m < g.length ∧ inDeg g m = 0 := by
    intro m
    rw [hfst, emptyIdx_mem]
    constructor
    · rintro ⟨-, hlt, hrow⟩
      rw [htrlen] at hlt
      have h0 : m - 0 = m := rfl
      rw [h0] at hrow
      rw [Nat.sub_zero] at hlt
      have hm : m < g.length := hlt
      rw [transposeL_row_len g hm] at hrow
      exact ⟨hm, hrow⟩
    · rintro ⟨hm, hdeg⟩
      have h0 : m - 0 = m := rfl
      refine ⟨Nat.zero_le m, by rw [htrlen, Nat.sub_zero]; exact hm, ?_⟩
      rw [h0, transposeL_row_len g hm]
      exact hdeg
  refine ⟨S, rem, hpair, ?_, ?_⟩
  · refine ⟨hsndlen, by rw [hfst]; exact emptyIdx_nodup (transposeL g) 0,
      List.nodup_nil, ?_, ?_, ?_, ?_, ?_, ?_, ?_⟩
    · intro m hm hc
      cases hc
    · intro m hm
      exact ((hmemS m).mp hm).1
    · intro m hm
      cases hm
    · intro m hm
      rw [hgd m, if_pos hm, consumed_nil]
      omega
    · intro m hm
      rw [hgd m, if_pos hm]
      constructor
      · rintro (hs | hl)
        · exact ((hmemS m).mp hs).2
        · cases hl
      · intro h0
        exact Or.inl ((hmemS m).mpr ⟨hm, h0⟩)
    · rintro v (hv | hv) u hu
      · exfalso
        have hdeg := ((hmemS v).mp hv).2
        have := inDeg_pos_of_arc g hu
        omega
      · cases hv
    · intro v hv
      cases hv
  · unfold kahnFuel
    have h1 : S.length ≤ (transposeL g).length := by
      rw [hfst]
      exact emptyIdx_length_le (transposeL g) 0
    have h2 : rem.sum ≤ ((transposeL g).map List.length).sum := by
      refine sum_le_of_getD_le (by rw [hsndlen, List.length_map, htrlen]) ?_
      intro i hi
      rw [hsndlen] at hi
      rw [hgd i, if_pos hi, getD_map_length (transposeL g) i (by rw [htrlen]; exact hi),
        transposeL_row_len g hi]
    omega

/-- If every member of a non-empty node set has a predecessor inside the
set, the graph is cyclic. -/
theorem exists_cycle_of_preds (g : LabeledAdjacencyList) (U : Finset Nat)
    (hne : U.Nonempty) (hpred : ∀ m ∈ U, ∃ u ∈ U, ArcL g u m) : CyclicL g := by
  classical
  obtain ⟨m₀, hm₀⟩ := hne
  choose pr hprU hprArc using hpred
  let seq : Nat → {x : Nat // x ∈ U} := fun k =>
    Nat.rec ⟨m₀, hm₀⟩ (fun _ q => ⟨pr q.1 q.2, hprU q.1 q.2⟩) k
  have hstep : ∀ k, ArcL g (seq (k + 1)).1 (seq k).1 := fun k =>
    hprArc (seq k).1 (seq k).2
  have hchain : ∀ i d, Relation.TransGen (ArcL g) (seq (i + d + 1)).1 (seq i).1 := by
    intro i d
    induction d with
    | zero => exact Relation.TransGen.single (hstep i)
    | succ d ihd =>
      have h2 : i + (d + 1) + 1 = (i + d + 1) + 1 := by omega
      rw [h2]
      exact Relation.TransGen.head (hstep (i + d + 1)) ihd
  have hmaps : ∀ k ∈ Finset.range (U.card + 1), (seq k).1 ∈ U :=
    fun k _ => (seq k).2
  have hcard : U.card < (Finset.range (U.card + 1)).card := by
    rw [Finset.card_range]
    omega
  obtain ⟨i, hi, j, hj, hij, hequ⟩ :=
    Finset.exists_ne_map_eq_of_card_lt_of_maps_to hcard hmaps
  rcases lt_or_gt_of_ne hij with hlt | hgt
  · refine ⟨(seq i).1, ?_⟩
    have hd : j = i + (j - i - 1) + 1 := by omega
    have hc := hchain i (j - i - 1)
    rw [← hd] at hc
    nth_rewrite 1 [hequ]
    exact hc
  · refine ⟨(seq j).1, ?_⟩
    have hd : i = j + (i - j - 1) + 1 := by omega
    have hc := hchain j (i - j - 1)
    rw [← hd] at hc
    nth_rewrite 1 [← hequ]
    exact hc

/-- When `rem` still charges `m`, some arc into `m` comes from a node not
yet output. -/
theorem exists_unprocessed_pred (g : LabeledAdjacencyList) {L : List NI}
    {rem : List Nat} (hndL : L.Nodup) (hLb : ∀ m ∈ L, m < g.length)
    (heq : ∀ m, m < g.length → rem.getD m 0 + consumedCount g L m = inDeg g m)
    {m : Nat} (hmN : m < g.length) (hrm : rem.getD m 0 ≠ 0) :
    ∃ u, ArcL g u m ∧ u ∉ L := by
  obtain ⟨restc, hdec, -, hdis, -⟩ := consumed_decomp g hndL hLb m
  have hpos : consumedCount g restc m ≠ 0 := by
    have := heq m hmN
    omega
  have hex : ¬ ∀ u ∈ restc, ¬ ArcL g u m := fun hall =>
    hpos ((consumed_eq_zero_iff g restc m).mpr hall)
  push_neg at hex
  obtain ⟨u, hur, harc⟩ := hex
  exact ⟨u, harc, fun hc => hdis hc hur⟩

/-- A complete output in predecessor-first order certifies acyclicity. -/
theorem kahn_order_acyclic {g : LabeledAdjacencyList} {L : List NI}
    (hb : BoundsOkL g) (hcov : ∀ m, m < g.length → m ∈ L)
    (hord : ∀ v ∈ L, ∀ u, ArcL g u v → L.indexOf u < L.indexOf v) :
    AcyclicL g := by
  intro n htg
  have hmono : ∀ u v, Relation.TransGen (ArcL g) u v →
      L.indexOf u < L.indexOf v := by
    intro u v h
    induction h with
    | single h1 => exact hord _ (hcov _ (arcL_tgt_lt hb h1)) _ h1
    | tail _ harc ihtg =>
      exact lt_trans ihtg (hord _ (hcov _ (arcL_tgt_lt hb harc)) _ harc)
  exact absurd (hmono n n htg) (lt_irrefl _)

/-- Membership in the recovered cycle list. -/
theorem kahnCycle_mem (g : LabeledAdjacencyList) (rem : List Nat) (c : Nat) :
    c ∈ kahnCycle g rem ↔
      c < rem.length ∧ 0 < rem.getD c 0 ∧ ∃ v, ArcL g c v ∧ 0 < rem.getD v 0 := by
  unfold kahnCycle
  rw [List.mem_filter, List.mem_range]
  simp only [Bool.and_eq_true, decide_eq_true_eq, List.any_eq_true]
  constructor
  · rintro ⟨hc, hpos, nb, hnb, hv⟩
    exact ⟨hc, hpos, nb.To, arcL_of_mem hnb, hv⟩
  · rintro ⟨hc, hpos, v, hv, hvpos⟩
    obtain ⟨hf, hhf, rfl⟩ := arcL_elim hv
    exact ⟨hc, hpos, hf, hhf, hvpos⟩

/-- C3.  With the transpose of `g` supplied, `TopologicalKahn` returns a
topological ordering of all `N` nodes with an empty cycle when `g` is
acyclic, and an empty ordering together with the non-empty list of exactly
those nodes that retain nonzero remaining in-degree and have an arc into
another such node when `g` is cyclic. -/
theorem topologicalKahn_spec (g : LabeledAdjacencyList) (hb : BoundsOkL g) :
    (AcyclicL g →
      ∃ L, TopologicalKahn g (transposeL g) = (L, []) ∧
        L.Perm (List.range g.length) ∧
        (∀ u v, ArcL g u v → L.indexOf u < L.indexOf v)) ∧
    (CyclicL g →
      ∃ L rem, kahnRun g (transposeL g) = some (L, rem) ∧
        TopologicalKahn g (transposeL g) = ([], kahnCycle g rem) ∧
        kahnCycle g rem ≠ [] ∧
        (∀ c, c ∈ kahnCycle g rem ↔
          c < g.length ∧ 0 < rem.getD c 0 ∧
            ∃ v, ArcL g c v ∧ 0 < rem.getD v 0)) := by
  obtain ⟨S₀, rem₀, hinit, hinv₀, hfuel₀⟩ := kahnInit_inv g hb
  obtain ⟨L, rem, hloop, hinvf, -⟩ := kahnLoop_spec g hb
    (kahnFuel (transposeL g)) S₀ [] rem₀ hinv₀ hfuel₀
  have hrun : kahnRun g (transposeL g) = some (L, rem) := by
    unfold kahnRun
    rw [hinit]
    exact hloop
  obtain ⟨hlen, -, hndL, -, -, hLb, heq, hio, hpred, hord⟩ := hinvf
  have hioL : ∀ m, m < g.length → (m ∈ L ↔ rem.getD m 0 = 0) := by
    intro m hm
    rw [← hio m hm]
    constructor
    · exact Or.inr
    · rintro (hc | hc)
      · cases hc
      · exact hc
  constructor
  · intro hac
    have hall : ∀ m, m < g.length → m ∈ L := by
      by_contra hc
      push_neg at hc
      obtain ⟨m, hmN, hmL⟩ := hc
      have hcyc : CyclicL g := by
        refine exists_cycle_of_preds g
          ((Finset.range g.length).filter (fun k => k ∉ L)) ⟨m, ?_⟩ ?_
        · rw [Finset.mem_filter, Finset.mem_range]
          exact ⟨hmN, hmL⟩
        · intro m' hm'
          rw [Finset.mem_filter, Finset.mem_range] at hm'
          have hrm : rem.getD m' 0 ≠ 0 :=
            fun h0 => hm'.2 ((hioL m' hm'.1).mpr h0)
          obtain ⟨u, harc, huL⟩ :=
            exists_unprocessed_pred g hndL hLb heq hm'.1 hrm
          refine ⟨u, ?_, harc⟩
          rw [Finset.mem_filter, Finset.mem_range]
          exact ⟨arcL_src_lt harc, huL⟩
      exact (acyclicL_iff_not_cyclic g).mp hac hcyc
    have hcycnil : kahnCycle g rem = [] := by
      unfold kahnCycle
      rw [List.filter_eq_nil]
      intro c hc
      rw [List.mem_range, hlen] at hc
      have h0 : rem.getD c 0 = 0 := (hioL c hc).mp (hall c hc)
      rw [List.getD_eq_getElem?_getD] at h0
      simp [h0]
    refine ⟨L, ?_, ?_, ?_⟩
    · unfold TopologicalKahn
      rw [hrun]
      dsimp only
      rw [hcycnil]
      rfl
    · refine List.perm_of_nodup_nodup_toFinset_eq hndL (List.nodup_range _) ?_
      ext k
      rw [List.mem_toFinset, List.mem_toFinset, List.mem_range]
      exact ⟨fun hk => hLb k hk, fun hk => hall k hk⟩
    · intro u v harc
      exact hord v (hall v (arcL_tgt_lt hb harc)) u harc
  · intro hcyc
    have hU : ∃ m, m < g.length ∧ m ∉ L := by
      by_contra hc
      push_neg at hc
      exact (acyclicL_iff_not_cyclic g).mp (kahn_order_acyclic hb hc hord) hcyc
    obtain ⟨m, hmN, hmL⟩ := hU
    have hrm : rem.getD m 0 ≠ 0 := fun h0 => hmL ((hioL m hmN).mpr h0)
    obtain ⟨u, harc, huL⟩ := exists_unprocessed_pred g hndL hLb heq hmN hrm
    have huN : u < g.length := arcL_src_lt harc
    have hru : rem.getD u 0 ≠ 0 := fun h0 => huL ((hioL u huN).mpr h0)
    have humem : u ∈ kahnCycle g rem := by
      rw [kahnCycle_mem]
      exact ⟨by rw [hlen]; exact huN, by omega, m, harc, by omega⟩
    have hkne : kahnCycle g rem ≠ [] := List.ne_nil_of_mem humem
    refine ⟨L, rem, hrun, ?_, hkne, ?_⟩
    · unfold TopologicalKahn
      rw [hrun]
      dsimp only
      rw [if_pos (by
        have := List.length_pos.mpr hkne
        omega)]
    · intro c
      rw [kahnCycle_mem, hlen]

/-- C3 witness at the acyclic graph `{0:[1,2], 1:[2], 2:[]}`. -/
theorem topologicalKahn_spec_witness :
    ∃ L, TopologicalKahn [[⟨1, 0⟩, ⟨2, 0⟩], [⟨2, 0⟩], []]
        (transposeL [[⟨1, 0⟩, ⟨2, 0⟩], [⟨2, 0⟩], []]) = (L, []) ∧
      L.Perm (List.range 3) ∧
      (∀ u v, ArcL [[⟨1, 0⟩, ⟨2, 0⟩], [⟨2, 0⟩], []] u v →
        L.indexOf u < L.indexOf v) :=
  (topologicalKahn_spec [[⟨1, 0⟩, ⟨2, 0⟩], [⟨2, 0⟩], []] (by decide)).1
    (pairs_increase_acyclic _ (by decide))

/-- C4 (amended).  On a cyclic graph, the cycle returned by `Topological`
is non-empty and walkable (each consecutive pair of listed nodes is joined
by an arc and an arc returns from the last node to the first), and the
cycle list returned by `TopologicalKahn` on the transpose is non-empty —
but the Kahn cycle list is not in general walkable in listed order. -/
theorem cycle_witness_amended (g : LabeledAdjacencyList) (hb : BoundsOkL g)
    (hcyc : CyclicL g) :
    (Topological g).2 ≠ [] ∧ cycleWalkOK g (Topological g).2 ∧
    (TopologicalKahn g (transposeL g)).2 ≠ [] := by
  have hmain : (Topological g).2 ≠ [] ∧ cycleWalkOK g (Topological g).2 := by
    rcases Topological_cases g hb with ⟨ord, heq, hnd, hts, hcov⟩ | ⟨cyc, heq, hwok⟩
    · exact absurd hcyc
        ((acyclicL_iff_not_cyclic g).mp (ordering_complete_acyclic hts hnd hcov))
    · rw [heq]
      dsimp only
      refine ⟨?_, hwok⟩
      intro hnil
      rw [hnil] at hwok
      exact hwok
  obtain ⟨L, rem, hrun, heqk, hne, -⟩ := (topologicalKahn_spec g hb).2 hcyc
  refine ⟨hmain.1, hmain.2, ?_⟩
  rw [heqk]
  exact hne

/-- C4 (amended) witness at the two-node cycle `0 ↔ 1`. -/
theorem cycle_witness_amended_witness :
    (Topological [[⟨1, 0⟩], [⟨0, 0⟩]]).2 ≠ [] ∧
    cycleWalkOK [[⟨1, 0⟩], [⟨0, 0⟩]] (Topological [[⟨1, 0⟩], [⟨0, 0⟩]]).2 ∧
    (TopologicalKahn [[⟨1, 0⟩], [⟨0, 0⟩]]
      (transposeL [[⟨1, 0⟩], [⟨0, 0⟩]])).2 ≠ [] :=
  cycle_witness_amended [[⟨1, 0⟩], [⟨0, 0⟩]] (by decide)
    ⟨0, Relation.TransGen.head
      (show ArcL [[⟨1, 0⟩], [⟨0, 0⟩]] 0 1 by unfold ArcL arcsFrom; decide)
      (Relation.TransGen.single
        (show ArcL [[⟨1, 0⟩], [⟨0, 0⟩]] 1 0 by unfold ArcL arcsFrom; decide))⟩

/-- C4 counterexample: the graph with arcs 0→2, 1→3, 2→1, 3→0 is cyclic,
and `TopologicalKahn` on its transpose returns the cycle list
`[0, 1, 2, 3]` — but that list is not walkable in listed order: the graph
has no arc from 0 to 1.  (`Topological` itself does return a walkable
cycle; the claim fails only for the Kahn cycle value.) -/
theorem kahn_cycle_not_walkable :
    CyclicL [[⟨2, 0⟩], [⟨3, 0⟩], [⟨1, 0⟩], [⟨0, 0⟩]] ∧
    TopologicalKahn [[⟨2, 0⟩], [⟨3, 0⟩], [⟨1, 0⟩], [⟨0, 0⟩]]
      (transposeL [[⟨2, 0⟩], [⟨3, 0⟩], [⟨1, 0⟩], [⟨0, 0⟩]]) = ([], [0, 1, 2, 3]) ∧
    ¬ cycleWalkOK [[⟨2, 0⟩], [⟨3, 0⟩], [⟨1, 0⟩], [⟨0, 0⟩]] [0, 1, 2, 3] := by
  refine ⟨⟨0, ?_⟩, ?_, ?_⟩
  · have h02 : ArcL [[⟨2, 0⟩], [⟨3, 0⟩], [⟨1, 0⟩], [⟨0, 0⟩]] 0 2 := by
      unfold ArcL arcsFrom
      decide
    have h21 : ArcL [[⟨2, 0⟩], [⟨3, 0⟩], [⟨1, 0⟩], [⟨0, 0⟩]] 2 1 := by
      unfold ArcL arcsFrom
      decide
    have h13 : ArcL [[⟨2, 0⟩], [⟨3, 0⟩], [⟨1, 0⟩], [⟨0, 0⟩]] 1 3 := by
      unfold ArcL arcsFrom
      decide
    have h30 : ArcL [[⟨2, 0⟩], [⟨3, 0⟩], [⟨1, 0⟩], [⟨0, 0⟩]] 3 0 := by
      unfold ArcL arcsFrom
      decide
    exact Relation.TransGen.head h02 (Relation.TransGen.head h21
      (Relation.TransGen.head h13 (Relation.TransGen.single h30)))
  · rfl
  · intro hwok
    have hwok' : List.Chain' (ArcL [[⟨2, 0⟩], [⟨3, 0⟩], [⟨1, 0⟩], [⟨0, 0⟩]])
        [0, 1, 2, 3, 0] := hwok
    have h01 : ArcL [[⟨2, 0⟩], [⟨3, 0⟩], [⟨1, 0⟩], [⟨0, 0⟩]] 0 1 :=
      (List.chain'_cons.mp hwok').1
    have hno : ¬ ArcL [[⟨2, 0⟩], [⟨3, 0⟩], [⟨1, 0⟩], [⟨0, 0⟩]] 0 1 := by
      unfold ArcL arcsFrom
      decide
    exact hno h01

/-! ## Breadth-first traversal: `AdjacencyList.BreadthFirstTraverse`

The traversal's only observable behaviour is the sequence of `visit`
invocations, so the embedding returns that sequence (the visit trace).
The Go bit set `v` becomes a `Finset Nat`; the `frontier`/`next` slices
become lists, with `next` reset to empty at each outer iteration exactly
as `frontier, next = next, frontier[:0]` does. -/

def arcsFromU (g : AdjacencyList) (n : Nat) : List NI := g.getD n []

def ArcU (g : AdjacencyList) (u v : Nat) : Prop := v ∈ arcsFromU g u

instance (g : AdjacencyList) (u v : Nat) : Decidable (ArcU g u v) := by
  unfold ArcU
  infer_instance

def BoundsOkU (g : AdjacencyList) : Prop := ∀ l ∈ g, ∀ t ∈ l, t < g.length

instance (g : AdjacencyList) : Decidable (BoundsOkU g) := by
  unfold BoundsOkU
  infer_instance

/-- The innermost loop: `for _, nb := range g[n]` with the visited check. -/
def bfsArcs (g : AdjacencyList) :
    List NI → Finset Nat → List NI → List NI → Finset Nat × List NI × List NI
  | [], v, next, tr => (v, next, tr)
  | nb :: rest, v, next, tr =>
    if nb ∈ v then bfsArcs g rest v next tr
    else bfsArcs g rest (insert nb v) (next ++ [nb]) (tr ++ [nb])

/-- The middle loop: `for _, n := range frontier`. -/
def bfsInner (g : AdjacencyList) :
    List NI → Finset Nat → List NI → List NI → Finset Nat × List NI × List NI
  | [], v, next, tr => (v, next, tr)
  | n :: fr, v, next, tr =>
    match bfsArcs g (arcsFromU g n) v next tr with
    | (v', next', tr') => bfsInner g fr v' next' tr'

/-- The outer loop: `for frontier := []NI{start}; len(frontier) > 0;`. -/
def bfsLoop (g : AdjacencyList) :
    Nat → List NI → Finset Nat → List NI → Option (Finset Nat × List NI)
  | 0, _, _, _ => none
  | fuel + 1, frontier, v, tr =>
    match frontier with
    | [] => some (v, tr)
    | _ :: _ =>
      match bfsInner g frontier v [] tr with
      | (v', next', tr') => bfsLoop g fuel next' v' tr'

/-- `AdjacencyList.BreadthFirstTraverse`, returning the visit trace. -/
def BreadthFirstTraverse (g : AdjacencyList) (start : NI) : List NI :=
  match bfsLoop g (g.length + 2) [start] ({start} : Finset Nat) [start] with
  | none => []
  | some (_, tr) => tr

/-- Walks of a given hop count from `s`. -/
def StepsTo (g : AdjacencyList) (s : Nat) : Nat → Nat → Prop
  | 0, m => m = s
  | k + 1, m => ∃ u, StepsTo g s k u ∧ ArcU g u m

/-- Reachability from `s`. -/
def ReachU (g : AdjacencyList) (s m : Nat) : Prop := ∃ k, StepsTo g s k m

/-- `k` is the hop distance from `s` to `m`. -/
def MinDist (g : AdjacencyList) (s m k : Nat) : Prop :=
  StepsTo g s k m ∧ ∀ j, StepsTo g s j m → k ≤ j

/-- Visit-order relation: `x`'s hop distance is at most `y`'s. -/
def DistRel (g : AdjacencyList) (s x y : Nat) : Prop :=
  ∀ kx ky, MinDist g s x kx → MinDist g s y ky → kx ≤ ky

theorem stepsTo_minDist {g : AdjacencyList} {s m : Nat} :
    ∀ k, StepsTo g s k m → ∃ j, MinDist g s m j := by
  intro k
  induction k using Nat.strong_induction_on with
  | _ k ih =>
    intro hk
    by_cases hmin : ∀ j, StepsTo g s j m → k ≤ j
    · exact ⟨k, hk, hmin⟩
    · push_neg at hmin
      obtain ⟨j, hj, hjk⟩ := hmin
      exact ih j hjk hj

theorem reach_minDist {g : AdjacencyList} {s m : Nat} (h : ReachU g s m) :
    ∃ j, MinDist g s m j := by
  obtain ⟨k, hk⟩ := h
  exact stepsTo_minDist k hk

theorem minDist_unique {g : AdjacencyList} {s m k k' : Nat}
    (h : MinDist g s m k) (h' : MinDist g s m k') : k = k' :=
  Nat.le_antisymm (h.2 k' h'.1) (h'.2 k h.1)

theorem minDist_self (g : AdjacencyList) (s : Nat) : MinDist g s s 0 :=
  ⟨rfl, fun j _ => Nat.zero_le j⟩

theorem minDist_zero {g : AdjacencyList} {s m : Nat} (h : MinDist g s m 0) :
    m = s := h.1

theorem arcU_tgt_lt {g : AdjacencyList} (hb : BoundsOkU g) {u v : Nat}
    (h : ArcU g u v) : v < g.length := by
  unfold ArcU arcsFromU at h
  by_cases hu : u < g.length
  · rw [List.getD_eq_getElem?_getD, List.getElem?_eq_getElem hu] at h
    exact hb _ (List.getElem_mem hu) v h
  · rw [List.getD_eq_getElem?_getD, List.getElem?_eq_none (Nat.le_of_not_lt hu)] at h
    cases h

theorem stepsTo_lt {g : AdjacencyList} (hb : BoundsOkU g) {s : Nat}
    (hs : s < g.length) : ∀ {k m}, StepsTo g s k m → m < g.length := by
  intro k
  induction k with
  | zero =>
    intro m hm
    rw [show StepsTo g s 0 m = (m = s) from rfl] at hm
    rw [hm]
    exact hs
  | succ k ihk =>
    rintro m ⟨u, -, harc⟩
    exact arcU_tgt_lt hb harc

theorem minDist_lt {g : AdjacencyList} (hb : BoundsOkU g) {s m k : Nat}
    (hs : s < g.length) (h : MinDist g s m k) : m < g.length :=
  stepsTo_lt hb hs h.1

/-- Every node at distance `d + 1` has a predecessor at distance exactly
`d`. -/
theorem minDist_pred {g : AdjacencyList} {s w d : Nat}
    (h : MinDist g s w (d + 1)) : ∃ u, ArcU g u w ∧ MinDist g s u d := by
  obtain ⟨⟨u, hsteps, harc⟩, hmin⟩ := h
  obtain ⟨du, hdu⟩ := stepsTo_minDist d hsteps
  have hle : du ≤ d := hdu.2 d hsteps
  have hge : d ≤ du := by
    have hstep' : StepsTo g s (du + 1) w := ⟨u, hdu.1, harc⟩
    have := hmin (du + 1) hstep'
    omega
  have : du = d := by omega
  rw [this] at hdu
  exact ⟨u, harc, hdu⟩

/-- If no node lies at distance `d`, none lies at any larger distance. -/
theorem level_empty_ladder {g : AdjacencyList} {s d : Nat}
    (hempty : ∀ m, ¬ MinDist g s m d) :
    ∀ j m, ¬ MinDist g s m (d + j) := by
  intro j
  induction j with
  | zero => exact hempty
  | succ j ihj =>
    intro m hm
    rw [show d + (j + 1) = (d + j) + 1 by omega] at hm
    obtain ⟨u, -, hu⟩ := minDist_pred hm
    exact ihj u hu

theorem pairwise_of_mem {α : Type} {R : α → α → Prop} :
    ∀ (l : List α), (∀ a ∈ l, ∀ b ∈ l, R a b) → l.Pairwise R
  | [], _ => List.Pairwise.nil
  | a :: t, h =>
    List.Pairwise.cons
      (fun b hb => h a (List.mem_cons_self a t) b (List.mem_cons_of_mem a hb))
      (pairwise_of_mem t
        (fun x hx y hy => h x (List.mem_cons_of_mem a hx) y (List.mem_cons_of_mem a hy)))

/-- Specification of the innermost arc loop at level `d`: it discovers a
block `Δ` of new nodes, all at distance `d + 1`, appending them to both
`next` and the trace, and afterwards every distance-`d + 1` target of a
processed arc is queued. -/
theorem bfsArcs_spec (g : AdjacencyList) {s d u : Nat} (hu : MinDist g s u d) :
    ∀ (arcs : List NI) (v : Finset Nat) (next tr : List NI),
    (∀ w ∈ arcs, ArcU g u w) →
    (∀ m, m ∈ v ↔ (∃ j ≤ d, MinDist g s m j) ∨ m ∈ next) →
    (∀ m ∈ next, MinDist g s m (d + 1)) →
    next.Nodup →
    ∃ Δ, bfsArcs g arcs v next tr = (v ∪ Δ.toFinset, next ++ Δ, tr ++ Δ) ∧
      (∀ m ∈ Δ, MinDist g s m (d + 1)) ∧
      (next ++ Δ).Nodup ∧
      (∀ m, m ∈ v ∪ Δ.toFinset ↔
        (∃ j ≤ d, MinDist g s m j) ∨ m ∈ next ++ Δ) ∧
      (∀ w ∈ arcs, MinDist g s w (d + 1) → w ∈ next ++ Δ) := by
  intro arcs
  induction arcs with
  | nil =>
    intro v next tr harcs hiv hnext hnd
    refine ⟨[], by simp [bfsArcs], ?_, by simpa using hnd, ?_, ?_⟩
    · intro m hm
      cases hm
    · intro m
      simpa using hiv m
    · intro w hw
      cases hw
  | cons nb rest ih =>
    intro v next tr harcs hiv hnext hnd
    rw [bfsArcs]
    by_cases hmem : nb ∈ v
    · rw [if_pos hmem]
      obtain ⟨Δ, heq, hΔ, hnd', hiv', hcompl⟩ :=
        ih v next tr (fun w hw => harcs w (List.mem_cons_of_mem _ hw)) hiv hnext hnd
      refine ⟨Δ, heq, hΔ, hnd', hiv', ?_⟩
      intro w hw hwdist
      rcases List.mem_cons.mp hw with rfl | hw'
      · rcases (hiv w).mp hmem with ⟨j, hj, hmj⟩ | hnextmem
        · have := minDist_unique hmj hwdist
          omega
        · exact List.mem_append_left _ hnextmem
      · exact hcompl w hw' hwdist
    · rw [if_neg hmem]
      have harcnb : ArcU g u nb := harcs nb (List.mem_cons_self _ _)
      have hstep : StepsTo g s (d + 1) nb := ⟨u, hu.1, harcnb⟩
      obtain ⟨k, hk⟩ := stepsTo_minDist (d + 1) hstep
      have hkle : k ≤ d + 1 := hk.2 _ hstep
      have hkgt : ¬ k ≤ d := fun hc => hmem ((hiv nb).mpr (Or.inl ⟨k, hc, hk⟩))
      have hnb : MinDist g s nb (d + 1) := by
        have hkd : k = d + 1 := by omega
        rw [← hkd]
        exact hk
      have hnbnext : nb ∉ next := fun hc => hmem ((hiv nb).mpr (Or.inr hc))
      have hiv' : ∀ m, m ∈ insert nb v ↔
          (∃ j ≤ d, MinDist g s m j) ∨ m ∈ next ++ [nb] := by
        intro m
        rw [Finset.mem_insert, List.mem_append, List.mem_singleton, hiv m]
        constructor
        · rintro (rfl | h | h)
          · exact Or.inr (Or.inr rfl)
          · exact Or.inl h
          · exact Or.inr (Or.inl h)
        · rintro (h | h | rfl)
          · exact Or.inr (Or.inl h)
          · exact Or.inr (Or.inr h)
          · exact Or.inl rfl
      have hnext' : ∀ m ∈ next ++ [nb], MinDist g s m (d + 1) := by
        intro m hm
        rcases List.mem_append.mp hm with h | h
        · exact hnext m h
        · rw [List.mem_singleton] at h
          rw [h]
          exact hnb
      have hnd' : (next ++ [nb]).Nodup := by
        rw [List.nodup_append]
        refine ⟨hnd, List.nodup_singleton nb, ?_⟩
        intro a ha hbm
        rw [List.mem_singleton] at hbm
        subst hbm
        exact hnbnext ha
      obtain ⟨Δ, heq, hΔ, hndr, hivr, hcompl⟩ :=
        ih (insert nb v) (next ++ [nb]) (tr ++ [nb])
          (fun w hw => harcs w (List.mem_cons_of_mem _ hw)) hiv' hnext' hnd'
      have e1 : insert nb v ∪ Δ.toFinset = v ∪ (nb :: Δ).toFinset := by
        rw [List.toFinset_cons]
        ext x
        simp only [Finset.mem_union, Finset.mem_insert, List.mem_toFinset]
        tauto
      have e2 : (next ++ [nb]) ++ Δ = next ++ nb :: Δ := by simp
      have e3 : (tr ++ [nb]) ++ Δ = tr ++ nb :: Δ := by simp
      rw [e1, e2] at hivr
      rw [e2] at hndr hcompl
      refine ⟨nb :: Δ, ?_, ?_, hndr, hivr, ?_⟩
      · rw [heq, e1, e2, e3]
      · intro m hm
        rcases List.mem_cons.mp hm with rfl | hm'
        · exact hnb
        · exact hΔ m hm'
      · intro w hw hwdist
        rcases List.mem_cons.mp hw with rfl | hw'
        · exact List.mem_append_right _ (List.mem_cons_self _ _)
        · exact hcompl w hw' hwdist

/-- Specification of the frontier loop at level `d`: after processing all
frontier nodes, every distance-`d + 1` node with a predecessor in the
processed part of the frontier is queued. -/
theorem bfsInner_spec (g : AdjacencyList) {s d : Nat} :
    ∀ (fr : List NI) (v : Finset Nat) (next tr : List NI),
    (∀ n ∈ fr, MinDist g s n d) →
    (∀ m, m ∈ v ↔ (∃ j ≤ d, MinDist g s m j) ∨ m ∈ next) →
    (∀ m ∈ next, MinDist g s m (d + 1)) →
    next.Nodup →
    ∃ Δ, bfsInner g fr v next tr = (v ∪ Δ.toFinset, next ++ Δ, tr ++ Δ) ∧
      (∀ m ∈ Δ, MinDist g s m (d + 1)) ∧
      (next ++ Δ).Nodup ∧
      (∀ m, m ∈ v ∪ Δ.toFinset ↔
        (∃ j ≤ d, MinDist g s m j) ∨ m ∈ next ++ Δ) ∧
      (∀ w, MinDist g s w (d + 1) → (∃ n ∈ fr, ArcU g n w) → w ∈ next ++ Δ) := by
  intro fr
  induction fr with
  | nil =>
    intro v next tr hfr hiv hnext hnd
    refine ⟨[], by simp [bfsInner], ?_, by simpa using hnd, ?_, ?_⟩
    · intro m hm
      cases hm
    · intro m
      simpa using hiv m
    · rintro w - ⟨n, hn, -⟩
      cases hn
  | cons n fr ih =>
    intro v next tr hfr hiv hnext hnd
    rw [bfsInner]
    obtain ⟨Δ₁, heq₁, hΔ₁, hnd₁, hiv₁, hcompl₁⟩ :=
      bfsArcs_spec g (hfr n (List.mem_cons_self _ _)) (arcsFromU g n) v next tr
        (fun w hw => hw) hiv hnext hnd
    rw [heq₁]
    dsimp only
    obtain ⟨Δ₂, heq₂, hΔ₂, hnd₂, hiv₂, hcompl₂⟩ :=
      ih (v ∪ Δ₁.toFinset) (next ++ Δ₁) (tr ++ Δ₁)
        (fun n' h => hfr n' (List.mem_cons_of_mem _ h)) hiv₁
        (by
          intro m hm
          rcases List.mem_append.mp hm with h | h
          · exact hnext m h
          · exact hΔ₁ m h) hnd₁
    have e1 : v ∪ Δ₁.toFinset ∪ Δ₂.toFinset = v ∪ (Δ₁ ++ Δ₂).toFinset := by
      rw [List.toFinset_append, Finset.union_assoc]
    have e2 : (next ++ Δ₁) ++ Δ₂ = next ++ (Δ₁ ++ Δ₂) := by
      rw [List.append_assoc]
    have e3 : (tr ++ Δ₁) ++ Δ₂ = tr ++ (Δ₁ ++ Δ₂) := by
      rw [List.append_assoc]
    rw [e1, e2] at hiv₂
    rw [e2] at hnd₂ hcompl₂
    refine ⟨Δ₁ ++ Δ₂, ?_, ?_, hnd₂, hiv₂, ?_⟩
    · rw [heq₂, e1, e2, e3]
    · intro m hm
      rcases List.mem_append.mp hm with h | h
      · exact hΔ₁ m h
      · exact hΔ₂ m h
    · rintro w hw ⟨n', hn', harc⟩
      rcases List.mem_cons.mp hn' with rfl | hn''
      · have hq := hcompl₁ w harc hw
        rw [← e2]
        exact List.mem_append_left _ hq
      · exact hcompl₂ w hw ⟨n', hn'', harc⟩

/-- At a level with no nodes, the visited set — hence the trace — is
exactly the reachable set. -/
theorem bfs_terminal (g : AdjacencyList) {s d : Nat} {v : Finset Nat}
    {tr : List NI} (hv : ∀ m, m ∈ v ↔ ∃ j ≤ d, MinDist g s m j)
    (hempty : ∀ m, ¬ MinDist g s m d) (htv : ∀ m, m ∈ tr ↔ m ∈ v) :
    ∀ m, m ∈ tr ↔ ReachU g s m := by
  intro m
  rw [htv m, hv m]
  constructor
  · rintro ⟨j, hj, hmj⟩
    exact ⟨j, hmj.1⟩
  · intro hr
    obtain ⟨k, hk⟩ := reach_minDist hr
    refine ⟨k, ?_, hk⟩
    by_contra hgt
    push_neg at hgt
    have hkd : k = d + (k - d) := by omega
    rw [hkd] at hk
    exact level_empty_ladder hempty (k - d) m hk

/-- Main-loop specification: from a frontier holding exactly the
distance-`d` nodes, with the visited set and trace covering exactly the
nodes at distance at most `d`, the loop terminates within the fuel and
yields a duplicate-free trace of exactly the reachable nodes, headed by
`s` and ordered by nondecreasing hop distance. -/
theorem bfsLoop_spec (g : AdjacencyList) (hb : BoundsOkU g) {s : Nat}
    (hs : s < g.length) :
    ∀ fuel (frontier : List NI) (v : Finset Nat) (tr : List NI) (d : Nat),
    (∀ m, m ∈ v ↔ ∃ j ≤ d, MinDist g s m j) →
    (∀ m, m ∈ frontier ↔ MinDist g s m d) →
    frontier.Nodup →
    tr.Nodup →
    (∀ m, m ∈ tr ↔ m ∈ v) →
    tr.head? = some s →
    List.Pairwise (DistRel g s) tr →
    g.length + 2 ≤ fuel + v.card →
    ∃ v' tr', bfsLoop g fuel frontier v tr = some (v', tr') ∧
      tr'.Nodup ∧ (∀ m, m ∈ tr' ↔ ReachU g s m) ∧
      tr'.head? = some s ∧ List.Pairwise (DistRel g s) tr' := by
  intro fuel
  induction fuel using Nat.strong_induction_on with
  | _ fuel ih =>
    intro frontier v tr d hv hfr hfnd htnd htv hhead hpw hfuel
    have hcardle : v.card ≤ g.length := by
      have hsub : v ⊆ Finset.range g.length := by
        intro m hm
        rw [Finset.mem_range]
        obtain ⟨j, hj, hmj⟩ := (hv m).mp hm
        exact minDist_lt hb hs hmj
      calc v.card ≤ (Finset.range g.length).card := Finset.card_le_card hsub
        _ = g.length := Finset.card_range _
    have hfuelpos : 2 ≤ fuel := by omega
    obtain ⟨f, rfl⟩ : ∃ f, fuel = f + 1 := ⟨fuel - 1, by omega⟩
    cases frontier with
    | nil =>
      rw [bfsLoop]
      refine ⟨v, tr, rfl, htnd, ?_, hhead, hpw⟩
      refine bfs_terminal g hv ?_ htv
      intro m hm
      exact absurd ((hfr m).mpr hm) (List.not_mem_nil m)
    | cons x fr =>
      rw [bfsLoop]
      obtain ⟨Δ, heq, hΔ, hndΔ, hivΔ, hcompl⟩ :=
        bfsInner_spec g (x :: fr) v [] tr (fun n hn => (hfr n).mp hn)
          (by
            intro m
            rw [hv m]
            simp) (by intro m hm; cases hm) List.nodup_nil
      simp only [List.nil_append] at heq hΔ hndΔ hivΔ hcompl
      rw [heq]
      dsimp only
      have hlev : ∀ m, m ∈ Δ ↔ MinDist g s m (d + 1) := by
        intro m
        constructor
        · exact hΔ m
        · intro hm
          obtain ⟨u, harc, hud⟩ := minDist_pred hm
          exact hcompl m hm ⟨u, (hfr u).mpr hud, harc⟩
      have hdisj : ∀ m ∈ Δ, m ∉ v := by
        intro m hm hc
        obtain ⟨j, hj, hmj⟩ := (hv m).mp hc
        have := minDist_unique (hΔ m hm) hmj
        omega
      have hv' : ∀ m, m ∈ v ∪ Δ.toFinset ↔ ∃ j ≤ d + 1, MinDist g s m j := by
        intro m
        rw [Finset.mem_union, List.mem_toFinset, hv m, hlev m]
        constructor
        · rintro (⟨j, hj, hmj⟩ | h)
          · exact ⟨j, by omega, hmj⟩
          · exact ⟨d + 1, le_refl _, h⟩
        · rintro ⟨j, hj, hmj⟩
          by_cases hjd : j ≤ d
          · exact Or.inl ⟨j, hjd, hmj⟩
          · have hje : j = d + 1 := by omega
            rw [hje] at hmj
            exact Or.inr hmj
      have htnd' : (tr ++ Δ).Nodup := by
        rw [List.nodup_append]
        refine ⟨htnd, hndΔ, ?_⟩
        intro a ha haΔ
        exact hdisj a haΔ ((htv a).mp ha)
      have htv' : ∀ m, m ∈ tr ++ Δ ↔ m ∈ v ∪ Δ.toFinset := by
        intro m
        rw [List.mem_append, Finset.mem_union, List.mem_toFinset, htv m]
      have hhead' : (tr ++ Δ).head? = some s := by
        cases tr with
        | nil => simp at hhead
        | cons a t => simpa using hhead
      have hpw' : List.Pairwise (DistRel g s) (tr ++ Δ) := by
        rw [List.pairwise_append]
        refine ⟨hpw, ?_, ?_⟩
        · refine pairwise_of_mem Δ ?_
          intro a ha b hbm
          intro ka kb hka hkb
          have h1 := minDist_unique hka ((hlev a).mp ha)
          have h2 := minDist_unique hkb ((hlev b).mp hbm)
          omega
        · intro a ha b hbm
          intro ka kb hka hkb
          obtain ⟨j, hj, hmj⟩ := (hv a).mp ((htv a).mp ha)
          have h1 := minDist_unique hka hmj
          have h2 := minDist_unique hkb ((hlev b).mp hbm)
          omega
      rcases eq_or_ne Δ [] with rfl | hne
      · obtain ⟨f', rfl⟩ : ∃ f', f = f' + 1 := ⟨f - 1, by omega⟩
        rw [bfsLoop]
        refine ⟨v ∪ List.toFinset [], tr ++ [], rfl, htnd', ?_, hhead', hpw'⟩
        refine bfs_terminal g hv' ?_ htv'
        intro m hm
        exact absurd ((hlev m).mpr hm) (List.not_mem_nil m)
      · have hΔlen : 1 ≤ Δ.length := List.length_pos.mpr hne
        have hcard' : (v ∪ Δ.toFinset).card = v.card + Δ.length := by
          rw [Finset.card_union_of_disjoint (by
            rw [Finset.disjoint_left]
            intro a ha haΔ
            rw [List.mem_toFinset] at haΔ
            exact hdisj a haΔ ha), List.toFinset_card_of_nodup hndΔ]
        exact ih f (by omega) Δ (v ∪ Δ.toFinset) (tr ++ Δ) (d + 1) hv' hlev
          hndΔ htnd' htv' hhead' hpw' (by omega)

/-- C6.  `BreadthFirstTraverse(g, s, visit)` (whose visit sequence the
embedding returns) visits each node reachable from `s` exactly once and
never visits an unreachable node, visits `s` first, and never visits a
node before a node of strictly smaller hop distance: the trace is free of
duplicates, its membership is exactly reachability, its head is `s`, and
whenever `y` lies strictly closer to `s` than `x`, `y` appears strictly
earlier in the trace than `x`. -/
theorem breadthFirstTraverse_spec (g : AdjacencyList) (hb : BoundsOkU g)
    (s : Nat) (hs : s < g.length) :
    (BreadthFirstTraverse g s).Nodup ∧
    (∀ m, m ∈ BreadthFirstTraverse g s ↔ ReachU g s m) ∧
    (BreadthFirstTraverse g s).head? = some s ∧
    (∀ x y kx ky, MinDist g s x kx → MinDist g s y ky → ky < kx →
      (BreadthFirstTraverse g s).indexOf y <
        (BreadthFirstTraverse g s).indexOf x) := by
  have hv0 : ∀ m, m ∈ ({s} : Finset Nat) ↔ ∃ j ≤ 0, MinDist g s m j := by
    intro m
    rw [Finset.mem_singleton]
    constructor
    · intro hms
      exact ⟨0, le_refl _, by rw [hms]; exact minDist_self g s⟩
    · rintro ⟨j, hj, hmj⟩
      have hj0 : j = 0 := by omega
      rw [hj0] at hmj
      exact minDist_zero hmj
  have hfr0 : ∀ m, m ∈ [s] ↔ MinDist g s m 0 := by
    intro m
    rw [List.mem_singleton]
    constructor
    · intro hms
      rw [hms]
      exact minDist_self g s
    · intro h
      exact minDist_zero h
  obtain ⟨v', tr', hrun, hnd, hmem, hhead, hpw⟩ :=
    bfsLoop_spec g hb hs (g.length + 2) [s] {s} [s] 0 hv0 hfr0
      (List.nodup_singleton s) (List.nodup_singleton s)
      (by
        intro m
        rw [List.mem_singleton, Finset.mem_singleton]) rfl
      (List.pairwise_singleton _ s)
      (by rw [Finset.card_singleton]; omega)
  have htr : BreadthFirstTraverse g s = tr' := by
    unfold BreadthFirstTraverse
    rw [hrun]
  rw [htr]
  refine ⟨hnd, hmem, hhead, ?_⟩
  intro x y kx ky hkx hky hlt
  have hxmem : x ∈ tr' := (hmem x).mpr ⟨kx, hkx.1⟩
  have hymem : y ∈ tr' := (hmem y).mpr ⟨ky, hky.1⟩
  have hxy : x ≠ y := by
    rintro rfl
    have := minDist_unique hkx hky
    omega
  have hxi : tr'.indexOf x < tr'.length := List.indexOf_lt_length.mpr hxmem
  have hyi : tr'.indexOf y < tr'.length := List.indexOf_lt_length.mpr hymem
  by_contra hc
  push_neg at hc
  have hne : tr'.indexOf x ≠ tr'.indexOf y := by
    intro hiq
    exact hxy ((List.indexOf_inj hxmem hymem).mp hiq)
  have hord : tr'.indexOf x < tr'.indexOf y := by omega
  have hrel := (List.pairwise_iff_getElem.mp hpw) _ _ hxi hyi hord
  rw [List.getElem_indexOf hxi, List.getElem_indexOf hyi] at hrel
  have := hrel kx ky hkx hky
  omega

/-- C6 witness on the graph `0→1, 0→2, 1→3, 2→3, 4→0` started at 0
(node 4 is unreachable). -/
theorem breadthFirstTraverse_spec_witness :
    (BreadthFirstTraverse [[1, 2], [3], [3], [], [0]] 0).Nodup ∧
    (∀ m, m ∈ BreadthFirstTraverse [[1, 2], [3], [3], [], [0]] 0 ↔
      ReachU [[1, 2], [3], [3], [], [0]] 0 m) ∧
    (BreadthFirstTraverse [[1, 2], [3], [3], [], [0]] 0).head? = some 0 ∧
    (∀ x y kx ky, MinDist [[1, 2], [3], [3], [], [0]] 0 x kx →
      MinDist [[1, 2], [3], [3], [], [0]] 0 y ky → ky < kx →
      (BreadthFirstTraverse [[1, 2], [3], [3], [], [0]] 0).indexOf y <
        (BreadthFirstTraverse [[1, 2], [3], [3], [], [0]] 0).indexOf x) :=
  breadthFirstTraverse_spec [[1, 2], [3], [3], [], [0]] (by decide) 0 (by decide)

/-! ## Strongly connected components: `DirectedLabeled.Tarjan`

The callback `emit` is modelled as a state-passing function
`σ → List NI → σ × Bool`; the run additionally records the trace of
`emit` invocations (argument and returned continuation flag).  The two
`big.Int` bit sets become `Finset Nat`, the Go `int` arrays `index` and
`lowlink` (zero-initialized, assigned only counter values) become
`List Nat` read through `getD _ 0`, and the recursive closure `sc`
becomes fuel-based mutual recursion. -/

structure TjState (σ : Type) where
  indexed : Finset Nat
  stacked : Finset Nat
  index : List Nat
  lowlink : List Nat
  x : Nat
  S : List NI
  acc : σ
  trace : List (List NI × Bool)

/-- The component pop loop: pop from the top of `S` down to and
including `n`, clearing `stacked` bits and collecting the component. -/
def tjPop {σ : Type} (n : Nat) :
    Nat → TjState σ → List NI → Option (TjState σ × List NI)
  | 0, _, _ => none
  | fuel + 1, st, c =>
    match st.S.getLast? with
    | none => none
    | some w =>
      let st' := { st with
        S := st.S.dropLast
        stacked := st.stacked.erase w }
      let c' := c ++ [w]
      if w = n then some (st', c')
      else tjPop n fuel st' c'

mutual

/-- The recursive closure `sc`. -/
def tjSc {σ : Type} (g : LabeledAdjacencyList) (emit : σ → List NI → σ × Bool) :
    Nat → Nat → TjState σ → Option (TjState σ × Bool)
  | 0, _, _ => none
  | fuel + 1, n, st =>
    match tjArcs g emit fuel n (arcsFrom g n) { st with
      index := st.index.set n st.x
      indexed := insert n st.indexed
      lowlink := st.lowlink.set n st.x
      x := st.x + 1
      S := st.S ++ [n]
      stacked := insert n st.stacked } with
    | none => none
    | some (st2, false) => some (st2, false)
    | some (st2, true) =>
      if st2.lowlink.getD n 0 = st2.index.getD n 0 then
        match tjPop n (st2.S.length + 1) st2 [] with
        | none => none
        | some (st3, c) =>
          match emit st3.acc c with
          | (a, b) =>
            some ({ st3 with
              acc := a
              trace := st3.trace ++ [(c, b)] }, b)
      else some (st2, true)
termination_by fuel => (fuel, 0)

/-- The arc loop of `sc`. -/
def tjArcs {σ : Type} (g : LabeledAdjacencyList) (emit : σ → List NI → σ × Bool) :
    Nat → Nat → List Half → TjState σ → Option (TjState σ × Bool)
  | _, _, [], st => some (st, true)
  | fuel, n, nb :: rest, st =>
    if nb.To ∈ st.indexed then
      if nb.To ∈ st.stacked then
        tjArcs g emit fuel n rest
          (if st.index.getD nb.To 0 < st.lowlink.getD n 0 then
            { st with lowlink := st.lowlink.set n (st.index.getD nb.To 0) }
          else st)
      else tjArcs g emit fuel n rest st
    else
      match tjSc g emit fuel nb.To st with
      | none => none
      | some (st2, false) => some (st2, false)
      | some (st2, true) =>
        tjArcs g emit fuel n rest
          (if st2.lowlink.getD nb.To 0 < st2.lowlink.getD n 0 then
            { st2 with lowlink := st2.lowlink.set n (st2.lowlink.getD nb.To 0) }
          else st2)
termination_by fuel _ arcs => (fuel, arcs.length + 1)

end

/-- Fuel sufficient for every top-level `sc` call. -/
def tjFuel (g : LabeledAdjacencyList) : Nat := g.length + 1

/-- The top-level loop `for n := range g`. -/
def tjLoop {σ : Type} (g : LabeledAdjacencyList)
    (emit : σ → List NI → σ × Bool) :
    List Nat → TjState σ → Option (TjState σ)
  | [], st => some st
  | n :: rest, st =>
    if n ∈ st.indexed then tjLoop g emit rest st
    else
      match tjSc g emit (tjFuel g) n st with
      | none => none
      | some (st2, true) => tjLoop g emit rest st2
      | some (st2, false) => some st2

def tjInit {σ : Type} (g : LabeledAdjacencyList) (a : σ) : TjState σ :=
  { indexed := ∅
    stacked := ∅
    index := List.replicate g.length 0
    lowlink := List.replicate g.length 0
    x := 0
    S := []
    acc := a
    trace := [] }

/-- `DirectedLabeled.Tarjan`, returning the final callback state and the
trace of `emit` invocations. -/
def Tarjan {σ : Type} (g : LabeledAdjacencyList)
    (emit : σ → List NI → σ × Bool) (a : σ) :
    Option (σ × List (List NI × Bool)) :=
  match tjLoop g emit (List.range g.length) (tjInit g a) with
  | none => none
  | some st => some (st.acc, st.trace)

/-- `DirectedLabeled.TarjanForward`: collect components, then reverse. -/
def TarjanForward (g : LabeledAdjacencyList) : Option (List (List NI)) :=
  match Tarjan g (fun r c => (r ++ [c], true)) ([] : List (List NI)) with
  | none => none
  | some (r, _) => some r.reverse

/-- Innermost condensation loop: `for _, to := range g[n]` with the
per-component dedup marker `m`. -/
def condArcs (cond : List NI) :
    List Half → Finset Nat → List NI → Finset Nat × List NI
  | [], m, tos => (m, tos)
  | nb :: rest, m, tos =>
    let ct := cond.getD nb.To 0
    if ct ∈ m then condArcs cond rest m tos
    else condArcs cond rest (insert ct m) (tos ++ [ct])

/-- Middle condensation loop: `for _, n := range c`. -/
def condTos (g : LabeledAdjacencyList) (cond : List NI) :
    List NI → Finset Nat → List NI → Finset Nat × List NI
  | [], m, tos => (m, tos)
  | n :: c, m, tos =>
    match condArcs cond (arcsFrom g n) m tos with
    | (m', tos') => condTos g cond c m' tos'

/-- Outer condensation loop, `for cn := len(scc) - 1; cn >= 0; cn--`. -/
def condenseDown (g : LabeledAdjacencyList) (scc : List (List NI)) :
    Nat → List NI → AdjacencyList → List NI × AdjacencyList
  | 0, cond, cd => (cond, cd)
  | cn + 1, cond, cd =>
    match condTos g ((scc.getD cn []).foldl (fun acc n => acc.set n cn) cond)
        (scc.getD cn []) ({cn} : Finset Nat) [] with
    | (_, tos) =>
      condenseDown g scc cn
        ((scc.getD cn []).foldl (fun acc n => acc.set n cn) cond)
        (cd.set cn tos)

/-- `DirectedLabeled.TarjanCondensation`. -/
def TarjanCondensation (g : LabeledAdjacencyList) :
    Option (List (List NI) × AdjacencyList) :=
  match TarjanForward g with
  | none => none
  | some scc =>
    match condenseDown g scc scc.length (List.replicate g.length 0)
        (List.replicate scc.length []) with
    | (_, cd) => some (scc, cd)

def emL (tr : List (List NI × Bool)) : List NI := (tr.map Prod.fst).flatten

def emNodes {σ : Type} (st : TjState σ) : List NI := emL st.trace

theorem emL_append (t₁ t₂ : List (List NI × Bool)) :
    emL (t₁ ++ t₂) = emL t₁ ++ emL t₂ := by
  unfold emL
  rw [List.map_append, List.flatten_append]

/-- Abstract replay of the `emit` invocations recorded in a trace. -/
def runEmits {σ : Type} (emit : σ → List NI → σ × Bool) :
    σ → List (List NI) → σ × List Bool
  | a, [] => (a, [])
  | a, c :: cs =>
    ((runEmits emit (emit a c).1 cs).1,
     (emit a c).2 :: (runEmits emit (emit a c).1 cs).2)

theorem runEmits_append {σ : Type} (emit : σ → List NI → σ × Bool) :
    ∀ (cs₁ cs₂ : List (List NI)) (a : σ),
    runEmits emit a (cs₁ ++ cs₂) =
      ((runEmits emit (runEmits emit a cs₁).1 cs₂).1,
       (runEmits emit a cs₁).2 ++ (runEmits emit (runEmits emit a cs₁).1 cs₂).2)
  | [], cs₂, a => by simp [runEmits]
  | c :: cs, cs₂, a => by
    simp [runEmits, runEmits_append emit cs cs₂]

/-- The trace relation left by a (partial) run: the new trace entries are
exactly a replay of `emit` from the old accumulator to the new one. -/
def TRlink {σ : Type} (emit : σ → List NI → σ × Bool) (st st' : TjState σ) :
    Prop :=
  ∃ Δ, st'.trace = st.trace ++ Δ ∧
    runEmits emit st.acc (Δ.map Prod.fst) = (st'.acc, Δ.map Prod.snd)

theorem trlink_refl {σ : Type} (emit : σ → List NI → σ × Bool)
    (st : TjState σ) : TRlink emit st st :=
  ⟨[], by simp, rfl⟩

theorem trlink_trans {σ : Type} {emit : σ → List NI → σ × Bool}
    {st st' st'' : TjState σ} (h1 : TRlink emit st st')
    (h2 : TRlink emit st' st'') : TRlink emit st st'' := by
  obtain ⟨Δ₁, he₁, hr₁⟩ := h1
  obtain ⟨Δ₂, he₂, hr₂⟩ := h2
  refine ⟨Δ₁ ++ Δ₂, by rw [he₂, he₁, List.append_assoc], ?_⟩
  rw [List.map_append, List.map_append, runEmits_append, hr₁]
  dsimp only
  rw [hr₂]

/-- Emission-order soundness of a trace: every arc out of a member of an
emitted component lands in the same component or an earlier one. -/
def TraceOrdered (g : LabeledAdjacencyList) (tr : List (List NI × Bool)) :
    Prop :=
  ∀ pre e post, tr = pre ++ e :: post →
    ∀ u ∈ e.1, ∀ v, ArcL g u v → v ∈ emL pre ∨ v ∈ e.1

theorem append_singleton_split {α : Type} {l : List α} {a : α} {pre : List α}
    {e : α} {post : List α} (h : l ++ [a] = pre ++ e :: post) :
    (pre = l ∧ e = a ∧ post = []) ∨
    ∃ post₀, l = pre ++ e :: post₀ ∧ post = post₀ ++ [a] := by
  cases post using List.reverseRecOn with
  | nil =>
    left
    have h' : l ++ [a] = pre ++ [e] := h
    obtain ⟨h1, h2⟩ := List.append_inj' h' rfl
    refine ⟨h1.symm, ?_, rfl⟩
    exact (List.singleton_injective h2).symm
  | append_singleton post₀ b =>
    right
    have h' : l ++ [a] = (pre ++ e :: post₀) ++ [b] := by
      rw [h]
      simp
    obtain ⟨h1, h2⟩ := List.append_inj' h' rfl
    have hab : a = b := List.singleton_injective h2
    exact ⟨post₀, h1, by rw [hab]⟩

/-- Extending a trace by a component whose members' arcs all land in the
trace so far or in the component itself preserves ordering. -/
theorem traceOrdered_append (g : LabeledAdjacencyList)
    {tr : List (List NI × Bool)} (hord : TraceOrdered g tr) (c : List NI)
    (b : Bool) (hc : ∀ u ∈ c, ∀ v, ArcL g u v → v ∈ emL tr ∨ v ∈ c) :
    TraceOrdered g (tr ++ [(c, b)]) := by
  intro pre e post hdec u hu v hv
  rcases append_singleton_split hdec with ⟨hpre, he, -⟩ | ⟨post₀, hdec', -⟩
  · rw [he] at hu
    rw [hpre, he]
    exact hc u hu v hv
  · exact hord pre e post₀ hdec' u hu v hv

/-- Monotone part of a run step: the trace extends, indexing grows,
stacked nodes stay stacked or get emitted, and indexes of already-indexed
nodes are unchanged. -/
structure TjStep {σ : Type} (st st' : TjState σ) : Prop where
  trext : ∃ Δ, st'.trace = st.trace ++ Δ
  grow : st.indexed ⊆ st'.indexed
  spres : ∀ m ∈ st.S, m ∈ st'.S ∨ m ∈ emNodes st'
  ixpres : ∀ m ∈ st.indexed, st'.index.getD m 0 = st.index.getD m 0

theorem emNodes_mono {σ : Type} {st st' : TjState σ} (h : TjStep st st')
    {m : Nat} (hm : m ∈ emNodes st) : m ∈ emNodes st' := by
  obtain ⟨Δ, hΔ⟩ := h.trext
  unfold emNodes at hm ⊢
  rw [hΔ, emL_append]
  exact List.mem_append_left _ hm

theorem tjStep_refl {σ : Type} (st : TjState σ) : TjStep st st :=
  ⟨⟨[], by simp⟩, fun _ h => h, fun m hm => Or.inl hm, fun _ _ => rfl⟩

theorem tjStep_trans {σ : Type} {st st' st'' : TjState σ}
    (h1 : TjStep st st') (h2 : TjStep st' st'') : TjStep st st'' := by
  refine ⟨?_, fun m hm => h2.grow (h1.grow hm), ?_, ?_⟩
  · obtain ⟨Δ₁, he₁⟩ := h1.trext
    obtain ⟨Δ₂, he₂⟩ := h2.trext
    exact ⟨Δ₁ ++ Δ₂, by rw [he₂, he₁, List.append_assoc]⟩
  · intro m hm
    rcases h1.spres m hm with h | h
    · exact h2.spres m h
    · exact Or.inr (emNodes_mono h2 h)
  · intro m hm
    rw [h2.ixpres m (h1.grow hm), h1.ixpres m hm]

/-- A permitted arc target while running: already emitted, or still
stacked with an index at least `ℓ`. -/
def TgtOK {σ : Type} (st : TjState σ) (ℓ v : Nat) : Prop :=
  v ∈ emNodes st ∨ (v ∈ st.S ∧ ℓ ≤ st.index.getD v 0)

theorem tgtOK_mono {σ : Type} {st st' : TjState σ} (hstep : TjStep st st')
    {ℓ ℓ' v : Nat} (hv : v ∈ st.indexed) (hℓ : ℓ' ≤ ℓ)
    (h : TgtOK st ℓ v) : TgtOK st' ℓ' v := by
  rcases h with h | ⟨hS, hix⟩
  · exact Or.inl (emNodes_mono hstep h)
  · rcases hstep.spres v hS with h' | h'
    · refine Or.inr ⟨h', ?_⟩
      rw [hstep.ixpres v hv]
      omega
    · exact Or.inl h'

/-- The completed-node property: every arc target is emitted or stacked
no lower than the node's low-link. -/
def Wprop (g : LabeledAdjacencyList) {σ : Type} (st : TjState σ) (w : Nat) :
    Prop :=
  ∀ v, ArcL g w v → TgtOK st (st.lowlink.getD w 0) v

/-- Run invariant of the Tarjan state. -/
structure TjInv (g : LabeledAdjacencyList) {σ : Type} (st : TjState σ) :
    Prop where
  ilen : st.index.length = g.length
  llen : st.lowlink.length = g.length
  mirror : ∀ m, m ∈ st.stacked ↔ m ∈ st.S
  snodup : st.S.Nodup
  sidx : ∀ m ∈ st.S, m ∈ st.indexed
  emidx : ∀ m ∈ emNodes st, m ∈ st.indexed
  cover : ∀ m ∈ st.indexed, m ∈ emNodes st ∨ m ∈ st.S
  emnodup : (emNodes st).Nodup
  sem : ∀ m ∈ st.S, m ∉ emNodes st
  nbound : ∀ m ∈ st.indexed, m < g.length
  ixlt : ∀ m ∈ st.indexed, st.index.getD m 0 < st.x
  ssorted : List.Pairwise
    (fun a b => st.index.getD a 0 < st.index.getD b 0) st.S
  tord : TraceOrdered g st.trace
  allt : ∀ e ∈ st.trace, e.2 = true

theorem wprop_mono {σ : Type} (g : LabeledAdjacencyList)
    {st st' : TjState σ} (hstep : TjStep st st') (hinv : TjInv g st)
    {w : Nat} (hll : st'.lowlink.getD w 0 ≤ st.lowlink.getD w 0)
    (h : Wprop g st w) : Wprop g st' w := by
  intro v hv
  have htgt := h v hv
  have hvidx : v ∈ st.indexed := by
    rcases htgt with h' | ⟨h', -⟩
    · exact hinv.emidx v h'
    · exact hinv.sidx v h'
  exact tgtOK_mono hstep hvidx hll htgt

/-- Specification of the pop loop: with `n` on the stack and `R` above
it, it removes exactly `[n] ++ R`, collects them in pop order, and leaves
every other field unchanged. -/
theorem tjPop_spec {σ : Type} (n : Nat) :
    ∀ (R P : List NI) (st : TjState σ) (c : List NI) (fuel : Nat),
    st.S = P ++ [n] ++ R → n ∉ R → R.length + 1 ≤ fuel →
    ∃ st', tjPop n fuel st c = some (st', c ++ R.reverse ++ [n]) ∧
      st'.S = P ∧
      (∀ m, m ∈ st'.stacked ↔ m ∈ st.stacked ∧ m ∉ n :: R) ∧
      st'.index = st.index ∧ st'.lowlink = st.lowlink ∧
      st'.indexed = st.indexed ∧ st'.x = st.x ∧ st'.acc = st.acc ∧
      st'.trace = st.trace := by
  intro R
  induction R using List.reverseRecOn with
  | nil =>
    intro P st c fuel hS hnR hfuel
    obtain ⟨f, rfl⟩ : ∃ f, fuel = f + 1 := ⟨fuel - 1, by omega⟩
    rw [tjPop]
    have hlast : st.S.getLast? = some n := by
      rw [hS]
      simp
    rw [hlast]
    dsimp only
    rw [if_pos rfl]
    simp only [List.reverse_nil, List.append_nil]
    refine ⟨_, rfl, ?_, ?_, rfl, rfl, rfl, rfl, rfl, rfl⟩
    · dsimp only
      rw [hS]
      simp
    · intro m
      dsimp only
      rw [Finset.mem_erase]
      simp only [List.mem_cons, List.not_mem_nil, or_false]
      tauto
  | append_singleton R₀ w ihR =>
    intro P st c fuel hS hnR hfuel
    obtain ⟨f, rfl⟩ : ∃ f, fuel = f + 1 := ⟨fuel - 1, by omega⟩
    rw [tjPop]
    have hS' : st.S = (P ++ [n] ++ R₀) ++ [w] := by
      rw [hS]
      simp
    have hlast : st.S.getLast? = some w := by
      rw [hS', List.getLast?_concat]
    rw [hlast]
    dsimp only
    have hwn : ¬ w = n := by
      intro hc
      subst hc
      exact hnR (List.mem_append_right _ (List.mem_singleton_self _))
    rw [if_neg hwn]
    have hlen : R₀.length + 1 ≤ f := by
      rw [List.length_append, List.length_singleton] at hfuel
      omega
    have hnR₀ : n ∉ R₀ := fun hc => hnR (List.mem_append_left _ hc)
    obtain ⟨st', hrun, hS'', hstk, hix, hll, hidx, hx, hacc, htr⟩ :=
      ihR P { st with S := st.S.dropLast, stacked := st.stacked.erase w } (c ++ [w]) f
        (by
          show st.S.dropLast = P ++ [n] ++ R₀
          rw [hS', List.dropLast_concat]) hnR₀ hlen
    refine ⟨st', ?_, hS'', ?_, hix, hll, hidx, hx, hacc, htr⟩
    · rw [hrun]
      have hres : (c ++ [w]) ++ R₀.reverse ++ [n] = c ++ (R₀ ++ [w]).reverse ++ [n] := by
        rw [List.reverse_append]
        simp
      rw [hres]
    · intro m
      rw [hstk m]
      simp only [Finset.mem_erase]
      constructor
      · rintro ⟨⟨hmw, hm⟩, hmc⟩
        refine ⟨hm, ?_⟩
        simp only [List.mem_cons, List.mem_append, List.mem_singleton] at hmc ⊢
        tauto
      · rintro ⟨hm, hmc⟩
        simp only [List.mem_cons, List.mem_append, List.mem_singleton] at hmc
        refine ⟨⟨?_, hm⟩, ?_⟩
        · tauto
        · simp only [List.mem_cons]
          tauto

theorem tjStep_lowlink_set {σ : Type} (st : TjState σ) (n v : Nat) :
    TjStep st { st with lowlink := st.lowlink.set n v } :=
  ⟨⟨[], by simp⟩, fun _ h => h, fun m hm => Or.inl hm, fun _ _ => rfl⟩

theorem tjInv_lowlink_set {σ : Type} (g : LabeledAdjacencyList)
    {st : TjState σ} (hinv : TjInv g st) (n v : Nat) :
    TjInv g { st with lowlink := st.lowlink.set n v } := by
  obtain ⟨ilen, llen, mir, snd, sidx, emidx, cover, emnd, sem, nb, ixlt, ssort,
    tord, allt⟩ := hinv
  exact ⟨ilen, by rw [List.length_set]; exact llen, mir, snd, sidx, emidx,
    cover, emnd, sem, nb, ixlt, ssort, tord, allt⟩

/-- Pushing an unindexed node preserves the run invariant. -/
theorem tjInv_push {σ : Type} (g : LabeledAdjacencyList) {st : TjState σ}
    (hinv : TjInv g st) {n : Nat} (hn : n < g.length)
    (hnidx : n ∉ st.indexed) :
    TjInv g { st with
      index := st.index.set n st.x
      indexed := insert n st.indexed
      lowlink := st.lowlink.set n st.x
      x := st.x + 1
      S := st.S ++ [n]
      stacked := insert n st.stacked } := by
  have hnS : n ∉ st.S := fun hc => hnidx (hinv.sidx n hc)
  have hnlen : n < st.index.length := by
    rw [hinv.ilen]
    exact hn
  refine ⟨?_, ?_, ?_, ?_, ?_, ?_, ?_, ?_, ?_, ?_, ?_, ?_, ?_, ?_⟩
  · rw [List.length_set]
    exact hinv.ilen
  · rw [List.length_set]
    exact hinv.llen
  · intro m
    dsimp only
    rw [Finset.mem_insert, List.mem_append, List.mem_singleton, hinv.mirror m]
    tauto
  · dsimp only
    rw [List.nodup_append]
    exact ⟨hinv.snodup, List.nodup_singleton n, by
      intro a ha hb
      rw [List.mem_singleton] at hb
      subst hb
      exact hnS ha⟩
  · intro m hm
    dsimp only at hm ⊢
    rw [Finset.mem_insert]
    rcases List.mem_append.mp hm with h | h
    · exact Or.inr (hinv.sidx m h)
    · rw [List.mem_singleton] at h
      exact Or.inl h
  · intro m hm
    dsimp only at hm ⊢
    rw [Finset.mem_insert]
    exact Or.inr (hinv.emidx m hm)
  · intro m hm
    dsimp only at hm ⊢
    rw [Finset.mem_insert] at hm
    rcases hm with rfl | hm
    · exact Or.inr (List.mem_append_right _ (List.mem_singleton_self _))
    · rcases hinv.cover m hm with h | h
      · exact Or.inl h
      · exact Or.inr (List.mem_append_left _ h)
  · exact hinv.emnodup
  · intro m hm
    dsimp only at hm ⊢
    rcases List.mem_append.mp hm with h | h
    · exact hinv.sem m h
    · rw [List.mem_singleton] at h
      subst h
      exact fun hc => hnidx (hinv.emidx m hc)
  · intro m hm
    dsimp only at hm
    rw [Finset.mem_insert] at hm
    rcases hm with rfl | hm
    · exact hn
    · exact hinv.nbound m hm
  · intro m hm
    dsimp only at hm ⊢
    rw [Finset.mem_insert] at hm
    rw [getD_set_nat]
    rcases hm with rfl | hm
    · rw [if_pos ⟨rfl, hnlen⟩]
      omega
    · rw [if_neg (by
        rintro ⟨rfl, -⟩
        exact hnidx hm)]
      have := hinv.ixlt m hm
      omega
  · dsimp only
    rw [List.pairwise_append]
    refine ⟨?_, List.pairwise_singleton _ _, ?_⟩
    · refine hinv.ssorted.imp_of_mem ?_
      intro a b ha hb h
      rw [getD_set_nat, getD_set_nat,
        if_neg (by rintro ⟨rfl, -⟩; exact hnS ha),
        if_neg (by rintro ⟨rfl, -⟩; exact hnS hb)]
      exact h
    · intro a ha b hb
      rw [List.mem_singleton] at hb
      subst hb
      rw [getD_set_nat, getD_set_nat,
        if_neg (by rintro ⟨rfl, -⟩; exact hnS ha), if_pos ⟨rfl, hnlen⟩]
      exact hinv.ixlt a (hinv.sidx a ha)
  · exact hinv.tord
  · exact hinv.allt

/-- Full postcondition of a completed `sc(n)` call that never saw `emit`
decline. -/
structure TjPost (g : LabeledAdjacencyList) {σ : Type} (st st' : TjState σ)
    (n : Nat) : Prop where
  inv : TjInv g st'
  step : TjStep st st'
  nidx : n ∈ st'.indexed
  xmono : st.x ≤ st'.x
  llpres : ∀ m ∈ st.indexed, st'.lowlink.getD m 0 = st.lowlink.getD m 0
  newge : ∀ m ∈ st'.indexed, m ∉ st.indexed → st.x ≤ st'.index.getD m 0
  scases : (st'.S = st.S ∧ st'.lowlink.getD n 0 = st'.index.getD n 0) ∨
    (∃ rest, rest ≠ [] ∧ st'.S = st.S ++ rest ∧ n ∈ rest ∧
      st'.lowlink.getD n 0 < st'.index.getD n 0 ∧
      (∃ p ∈ st.S, st'.index.getD p 0 = st'.lowlink.getD n 0) ∧
      (∀ w ∈ rest, Wprop g st' w ∧
        st'.lowlink.getD n 0 ≤ st'.lowlink.getD w 0 ∧
        st'.index.getD n 0 ≤ st'.index.getD w 0))

/-- Postcondition of the arc loop of `sc(n)` relative to the anchors of
the enclosing call: `P` the stack below `n`, `x₀` the index of `n`, `I₀`
the indexed set before `n` was pushed. -/
structure TjArcsPost (g : LabeledAdjacencyList) {σ : Type}
    (stM st' : TjState σ) (n : Nat) (P : List NI) (x₀ : Nat)
    (I₀ : Finset Nat) : Prop where
  inv : TjInv g st'
  step : TjStep stM st'
  llpres : ∀ m ∈ stM.indexed, m ≠ n →
    st'.lowlink.getD m 0 = stM.lowlink.getD m 0
  lldec : st'.lowlink.getD n 0 ≤ stM.lowlink.getD n 0
  stack : ∃ rest', st'.S = P ++ [n] ++ rest' ∧
    ∀ w ∈ rest', Wprop g st' w ∧
      st'.lowlink.getD n 0 ≤ st'.lowlink.getD w 0 ∧
      x₀ + 1 ≤ st'.index.getD w 0
  tgts : ∀ h ∈ arcsFrom g n, TgtOK st' (st'.lowlink.getD n 0) (Half.To h)
  lowsrc : st'.lowlink.getD n 0 = x₀ ∨
    ∃ p ∈ P, st'.index.getD p 0 = st'.lowlink.getD n 0
  xmono : stM.x ≤ st'.x
  newge : ∀ m ∈ st'.indexed, m ∉ I₀ → x₀ ≤ st'.index.getD m 0

/-- Loop-head hypotheses of the arc loop of `sc(n)`. -/
structure TjArcsPre (g : LabeledAdjacencyList) {σ : Type} (stM : TjState σ)
    (n : Nat) (done arcs : List Half) (P : List NI) (x₀ : Nat)
    (I₀ : Finset Nat) (fuel : Nat) : Prop where
  inv : TjInv g stM
  hdone : arcsFrom g n = done ++ arcs
  stack : ∃ restM, stM.S = P ++ [n] ++ restM ∧
    ∀ w ∈ restM, Wprop g stM w ∧
      stM.lowlink.getD n 0 ≤ stM.lowlink.getD w 0 ∧
      x₀ + 1 ≤ stM.index.getD w 0
  doneT : ∀ h ∈ done, TgtOK stM (stM.lowlink.getD n 0) (Half.To h)
  llle : stM.lowlink.getD n 0 ≤ x₀
  ixn : stM.index.getD n 0 = x₀
  plt : ∀ m ∈ P, stM.index.getD m 0 < x₀
  lowsrc : stM.lowlink.getD n 0 = x₀ ∨
    ∃ p ∈ P, stM.index.getD p 0 = stM.lowlink.getD n 0
  newge : ∀ m ∈ stM.indexed, m ∉ I₀ → x₀ ≤ stM.index.getD m 0
  hfuel : g.length + 1 ≤ fuel + stM.indexed.card
  hI : I₀ ⊆ stM.indexed
  nidx : n ∈ stM.indexed
  nnotI : n ∉ I₀

theorem tgtOK_idx {σ : Type} {g : LabeledAdjacencyList} {stM : TjState σ}
    (hinv : TjInv g stM) {ℓ v : Nat} (h : TgtOK stM ℓ v) : v ∈ stM.indexed := by
  rcases h with h | ⟨h, -⟩
  · exact hinv.emidx v h
  · exact hinv.sidx v h

/-- Taking a small step and consuming one arc preserves the loop-head
hypotheses. -/
theorem tjArcsPre_trans {σ : Type} {g : LabeledAdjacencyList}
    {stM stN : TjState σ} {n : Nat} {done : List Half} {nb : Half}
    {arcs : List Half} {P : List NI} {x₀ : Nat} {I₀ : Finset Nat}
    {fuel : Nat} (pre : TjArcsPre g stM n done (nb :: arcs) P x₀ I₀ fuel)
    (hinvN : TjInv g stN) (hstep : TjStep stM stN)
    (hlldec : stN.lowlink.getD n 0 ≤ stM.lowlink.getD n 0)
    (hstackN : ∃ restN, stN.S = P ++ [n] ++ restN ∧
      ∀ w ∈ restN, Wprop g stN w ∧
        stN.lowlink.getD n 0 ≤ stN.lowlink.getD w 0 ∧
        x₀ + 1 ≤ stN.index.getD w 0)
    (hsrcN : stN.lowlink.getD n 0 = x₀ ∨
      ∃ p ∈ P, stN.index.getD p 0 = stN.lowlink.getD n 0)
    (hnewN : ∀ m ∈ stN.indexed, m ∉ I₀ → x₀ ≤ stN.index.getD m 0)
    (hnbT : TgtOK stN (stN.lowlink.getD n 0) nb.To) :
    TjArcsPre g stN n (done ++ [nb]) arcs P x₀ I₀ fuel := by
  refine ⟨hinvN, ?_, hstackN, ?_, le_trans hlldec pre.llle, ?_, ?_, hsrcN,
    hnewN, ?_, fun m hm => hstep.grow (pre.hI hm), hstep.grow pre.nidx,
    pre.nnotI⟩
  · rw [pre.hdone, List.append_assoc]
    rfl
  · intro h hh
    rcases List.mem_append.mp hh with h' | h'
    · exact tgtOK_mono hstep (tgtOK_idx pre.inv (pre.doneT h h')) hlldec
        (pre.doneT h h')
    · rw [List.mem_singleton] at h'
      subst h'
      exact hnbT
  · rw [hstep.ixpres n pre.nidx]
    exact pre.ixn
  · intro m hm
    have hmS : m ∈ stM.S := by
      obtain ⟨restM, hSM, -⟩ := pre.stack
      rw [hSM]
      exact List.mem_append_left _ (List.mem_append_left _ hm)
    rw [hstep.ixpres m (pre.inv.sidx m hmS)]
    exact pre.plt m hm
  · have := Finset.card_le_card hstep.grow
    have := pre.hfuel
    omega

/-- A completed arc-loop tail composes with the step that led to it. -/
theorem tjArcsPost_comp {σ : Type} {g : LabeledAdjacencyList}
    {stM stN st' : TjState σ} {n : Nat} {P : List NI} {x₀ : Nat}
    {I₀ : Finset Nat} (hstep : TjStep stM stN)
    (hllpres : ∀ m ∈ stM.indexed, m ≠ n →
      stN.lowlink.getD m 0 = stM.lowlink.getD m 0)
    (hlldec : stN.lowlink.getD n 0 ≤ stM.lowlink.getD n 0)
    (hxm : stM.x ≤ stN.x) (hnidxM : n ∈ stM.indexed)
    (post : TjArcsPost g stN st' n P x₀ I₀) :
    TjArcsPost g stM st' n P x₀ I₀ := by
  refine ⟨post.inv, tjStep_trans hstep post.step, ?_, ?_, post.stack,
    post.tgts, post.lowsrc, le_trans hxm post.xmono, post.newge⟩
  · intro m hm hne
    rw [post.llpres m (hstep.grow hm) hne, hllpres m hm hne]
  · exact le_trans (post.lldec) hlldec

theorem falseShape_comp {σ : Type} {stM stN st' : TjState σ}
    (hΔc : ∃ Δc, stN.trace = stM.trace ++ Δc ∧ ∀ e ∈ Δc, e.2 = true)
    (h : ∃ Δ₀ c, st'.trace = stN.trace ++ Δ₀ ++ [(c, false)] ∧
      ∀ e ∈ Δ₀, e.2 = true) :
    ∃ Δ₀ c, st'.trace = stM.trace ++ Δ₀ ++ [(c, false)] ∧
      ∀ e ∈ Δ₀, e.2 = true := by
  obtain ⟨Δc, he, ht⟩ := hΔc
  obtain ⟨Δ₀, c, he', ht'⟩ := h
  refine ⟨Δc ++ Δ₀, c, by rw [he', he]; simp [List.append_assoc], ?_⟩
  intro e hemem
  rcases List.mem_append.mp hemem with h' | h'
  exacts [ht e h', ht' e h']

theorem emL_singleton (c : List NI) (b : Bool) : emL [(c, b)] = c := by
  simp [emL]

/-- Master correctness lemma for `tjSc`/`tjArcs`: with sufficient fuel the
call returns, its trace is an `emit` replay, and on a `true` result the
full postcondition holds. -/
theorem tjMaster {σ : Type} (g : LabeledAdjacencyList) (hb : BoundsOkL g)
    (emit : σ → List NI → σ × Bool) :
    ∀ fuel : Nat,
    (∀ (n : Nat) (st : TjState σ), n < g.length → n ∉ st.indexed →
      TjInv g st → g.length + 1 ≤ fuel + st.indexed.card →
      ∃ st' b, tjSc g emit fuel n st = some (st', b) ∧ TRlink emit st st' ∧
        (b = true → TjPost g st st' n) ∧
        (b = false → ∃ Δ₀ c, st'.trace = st.trace ++ Δ₀ ++ [(c, false)] ∧
          ∀ e ∈ Δ₀, e.2 = true)) ∧
    (∀ (n : Nat) (arcs done : List Half) (stM : TjState σ) (P : List NI)
      (x₀ : Nat) (I₀ : Finset Nat),
      TjArcsPre g stM n done arcs P x₀ I₀ fuel →
      ∃ st' b, tjArcs g emit fuel n arcs stM = some (st', b) ∧
        TRlink emit stM st' ∧
        (b = true → TjArcsPost g stM st' n P x₀ I₀) ∧
        (b = false → ∃ Δ₀ c, st'.trace = stM.trace ++ Δ₀ ++ [(c, false)] ∧
          ∀ e ∈ Δ₀, e.2 = true)) := by
  intro fuel
  induction fuel using Nat.strong_induction_on with
  | _ fuel ih =>
    have hsc : ∀ (n : Nat) (st : TjState σ), n < g.length → n ∉ st.indexed →
        TjInv g st → g.length + 1 ≤ fuel + st.indexed.card →
        ∃ st' b, tjSc g emit fuel n st = some (st', b) ∧ TRlink emit st st' ∧
          (b = true → TjPost g st st' n) ∧
          (b = false → ∃ Δ₀ c, st'.trace = st.trace ++ Δ₀ ++ [(c, false)] ∧
            ∀ e ∈ Δ₀, e.2 = true) := by
      intro n st hn hnidx hinv hfuel
      have hsubN : insert n st.indexed ⊆ Finset.range g.length := by
        intro m hm
        rw [Finset.mem_range]
        rw [Finset.mem_insert] at hm
        rcases hm with rfl | hm
        · exact hn
        · exact hinv.nbound m hm
      have hcard : st.indexed.card + 1 ≤ g.length := by
        have h1 := Finset.card_le_card hsubN
        rw [Finset.card_insert_of_not_mem hnidx, Finset.card_range] at h1
        exact h1
      obtain ⟨f, rfl⟩ : ∃ f, fuel = f + 1 := ⟨fuel - 1, by omega⟩
      rw [tjSc]
      set stP : TjState σ := { st with
        index := st.index.set n st.x
        indexed := insert n st.indexed
        lowlink := st.lowlink.set n st.x
        x := st.x + 1
        S := st.S ++ [n]
        stacked := insert n st.stacked } with hstP
      have hnlen : n < st.index.length := by
        rw [hinv.ilen]
        exact hn
      have hnllen : n < st.lowlink.length := by
        rw [hinv.llen]
        exact hn
      have hnS : n ∉ st.S := fun hc => hnidx (hinv.sidx n hc)
      have hix1n : stP.index.getD n 0 = st.x := by
        rw [hstP]
        dsimp only
        rw [getD_set_nat, if_pos ⟨rfl, hnlen⟩]
      have hll1n : stP.lowlink.getD n 0 = st.x := by
        rw [hstP]
        dsimp only
        rw [getD_set_nat, if_pos ⟨rfl, hnllen⟩]
      have hix1pres : ∀ m ∈ st.indexed, stP.index.getD m 0 = st.index.getD m 0 := by
        intro m hm
        rw [hstP]
        dsimp only
        rw [getD_set_nat, if_neg (by rintro ⟨rfl, -⟩; exact hnidx hm)]
      have hll1pres : ∀ m ∈ st.indexed, stP.lowlink.getD m 0 = st.lowlink.getD m 0 := by
        intro m hm
        rw [hstP]
        dsimp only
        rw [getD_set_nat, if_neg (by rintro ⟨rfl, -⟩; exact hnidx hm)]
      have hnidx1 : n ∈ stP.indexed := by
        rw [hstP]
        dsimp only
        exact Finset.mem_insert_self _ _
      have hinv1 : TjInv g stP := tjInv_push g hinv hn hnidx
      have hcard1 : stP.indexed.card = st.indexed.card + 1 := by
        rw [hstP]
        dsimp only
        rw [Finset.card_insert_of_not_mem hnidx]
      have hstepP : TjStep st stP := by
        refine ⟨⟨[], by simp [hstP]⟩, ?_, ?_, hix1pres⟩
        · rw [hstP]
          dsimp only
          exact Finset.subset_insert _ _
        · intro m hm
          rw [hstP]
          dsimp only
          exact Or.inl (List.mem_append_left _ hm)
      have htlP : TRlink emit st stP := ⟨[], by simp [hstP], rfl⟩
      have hpre1 : TjArcsPre g stP n [] (arcsFrom g n) st.S st.x st.indexed f := by
        refine ⟨hinv1, ?_, ⟨[], ?_, ?_⟩, ?_, le_of_eq hll1n, hix1n, ?_,
          Or.inl hll1n, ?_, ?_, ?_, hnidx1, hnidx⟩
        · rw [List.nil_append]
        · rw [List.append_nil, hstP]
        · intro w hw
          cases hw
        · intro h hh
          cases hh
        · intro m hm
          rw [hix1pres m (hinv.sidx m hm)]
          exact hinv.ixlt m (hinv.sidx m hm)
        · intro m hm hmI
          rw [hstP] at hm
          dsimp only at hm
          rw [Finset.mem_insert] at hm
          rcases hm with rfl | hm
          · rw [hix1n]
          · exact absurd hm hmI
        · rw [hcard1]
          omega
        · rw [hstP]
          dsimp only
          exact Finset.subset_insert _ _
      obtain ⟨st2, b2, harcrun, htr2, hpostT, hpostF⟩ :=
        (ih f (by omega)).2 n (arcsFrom g n) [] stP st.S st.x st.indexed hpre1
      rw [harcrun]
      cases b2 with
      | false =>
        dsimp only
        refine ⟨st2, false, rfl, trlink_trans htlP htr2, ?_, ?_⟩
        · intro h
          cases h
        · rintro -
          obtain ⟨Δ₀, c, hsh, hΔ₀⟩ := hpostF rfl
          refine ⟨Δ₀, c, ?_, hΔ₀⟩
          rw [hsh, hstP]
      | true =>
        dsimp only
        obtain hpost2 := hpostT rfl
        have hinv2 := hpost2.inv
        have hix2n : st2.index.getD n 0 = st.x := by
          rw [hpost2.step.ixpres n hnidx1, hix1n]
        have hll2le : st2.lowlink.getD n 0 ≤ st.x := by
          have := hpost2.lldec
          rw [hll1n] at this
          exact this
        have hix2pres : ∀ m ∈ st.indexed, st2.index.getD m 0 = st.index.getD m 0 := by
          intro m hm
          rw [hpost2.step.ixpres m (hstepP.grow hm), hix1pres m hm]
        have hll2pres : ∀ m ∈ st.indexed, st2.lowlink.getD m 0 = st.lowlink.getD m 0 := by
          intro m hm
          rw [hpost2.llpres m (hstepP.grow hm) (by rintro rfl; exact hnidx hm),
            hll1pres m hm]
        by_cases hpop : st2.lowlink.getD n 0 = st2.index.getD n 0
        · rw [if_pos hpop]
          have hll2n : st2.lowlink.getD n 0 = st.x := by
            rw [hpop, hix2n]
          obtain ⟨rest', hS2, hrestw⟩ := hpost2.stack
          have hnd2 : (st.S ++ [n] ++ rest').Nodup := by
            rw [← hS2]
            exact hinv2.snodup
          rw [List.append_assoc] at hnd2
          rw [List.nodup_append] at hnd2
          obtain ⟨hndS, hndnr, hdisjS⟩ := hnd2
          rw [List.singleton_append, List.nodup_cons] at hndnr
          obtain ⟨hnrest, hndrest⟩ := hndnr
          obtain ⟨st3, hpoprun, hS3, hstk3, hix3, hll3, hidx3, hx3, hacc3, htr3⟩ :=
            tjPop_spec n rest' st.S st2 [] (st2.S.length + 1) hS2 hnrest (by
              rw [hS2, List.length_append, List.length_append]
              omega)
          rw [hpoprun]
          dsimp only
          rw [List.nil_append]
          rcases hemit : emit st3.acc (rest'.reverse ++ [n]) with ⟨a₃, b₃⟩
          dsimp only
          set st4 : TjState σ := { st3 with
            acc := a₃
            trace := st3.trace ++ [(rest'.reverse ++ [n], b₃)] } with hst4
          have htr4 : st4.trace = st2.trace ++ [(rest'.reverse ++ [n], b₃)] := by
            rw [hst4]
            dsimp only
            rw [htr3]
          have hem4 : emNodes st4 = emNodes st2 ++ (rest'.reverse ++ [n]) := by
            unfold emNodes
            rw [htr4, emL_append, emL_singleton]
          have hc₀ : ∀ m, m ∈ rest'.reverse ++ [n] ↔ m ∈ rest' ∨ m = n := by
            intro m
            rw [List.mem_append, List.mem_reverse, List.mem_singleton]
          have hS2mem : ∀ m, m ∈ st2.S ↔ m ∈ st.S ∨ (m = n ∨ m ∈ rest') := by
            intro m
            rw [hS2, List.append_assoc, List.mem_append, List.mem_append,
              List.mem_singleton]
          have htri : ∀ ℓ v, st.x ≤ ℓ → TgtOK st2 ℓ v →
              v ∈ emNodes st2 ∨ (v ∈ rest' ∨ v = n) := by
            intro ℓ v hℓ htv
            rcases htv with h | ⟨hvS, hvix⟩
            · exact Or.inl h
            · right
              rcases (hS2mem v).mp hvS with hv | hv
              · exfalso
                have hvidx : v ∈ st.indexed := hinv.sidx v hv
                have hlt := hinv.ixlt v hvidx
                rw [← hix2pres v hvidx] at hlt
                omega
              · tauto
          have htl24 : TRlink emit st2 st4 := by
            refine ⟨[(rest'.reverse ++ [n], b₃)], htr4, ?_⟩
            show runEmits emit st2.acc [rest'.reverse ++ [n]] = _
            rw [runEmits, ← hacc3, hemit]
            rfl
          have hstep24 : TjStep st2 st4 := by
            refine ⟨⟨[(rest'.reverse ++ [n], b₃)], htr4⟩, ?_, ?_, ?_⟩
            · rw [hst4]
              dsimp only
              rw [hidx3]
            · intro m hm
              rcases (hS2mem m).mp hm with h | h
              · left
                rw [hst4]
                dsimp only
                rw [hS3]
                exact h
              · right
                rw [hem4]
                refine List.mem_append_right _ ((hc₀ m).mpr ?_)
                tauto
            · intro m hm
              rw [hst4]
              dsimp only
              rw [hix3]
          refine ⟨st4, b₃, rfl, trlink_trans htlP (trlink_trans htr2 htl24), ?_, ?_⟩
          · intro hb3
            subst hb3
            have hinv4 : TjInv g st4 := by
              refine ⟨?_, ?_, ?_, ?_, ?_, ?_, ?_, ?_, ?_, ?_, ?_, ?_, ?_, ?_⟩
              · rw [hst4]
                dsimp only
                rw [hix3]
                exact hinv2.ilen
              · rw [hst4]
                dsimp only
                rw [hll3]
                exact hinv2.llen
              · intro m
                rw [hst4]
                dsimp only
                rw [hstk3 m, hS3, hinv2.mirror m, hS2mem m]
                constructor
                · rintro ⟨h | h, hnot⟩
                  · exact h
                  · exfalso
                    apply hnot
                    rw [List.mem_cons]
                    tauto
                · intro h
                  refine ⟨Or.inl h, ?_⟩
                  rw [List.mem_cons]
                  rintro (rfl | hc)
                  · exact hnS h
                  · exact hdisjS h (List.mem_append_right _ hc)
              · rw [hst4]
                dsimp only
                rw [hS3]
                exact hndS
              · intro m hm
                rw [hst4] at hm ⊢
                dsimp only at hm ⊢
                rw [hS3] at hm
                rw [hidx3]
                exact hinv2.sidx m ((hS2mem m).mpr (Or.inl hm))
              · intro m hm
                rw [hem4] at hm
                rw [hst4]
                dsimp only
                rw [hidx3]
                rcases List.mem_append.mp hm with h | h
                · exact hinv2.emidx m h
                · exact hinv2.sidx m ((hS2mem m).mpr (Or.inr (Or.symm ((hc₀ m).mp h))))
              · intro m hm
                rw [hst4] at hm
                dsimp only at hm
                rw [hidx3] at hm
                rcases hinv2.cover m hm with h | h
                · left
                  rw [hem4]
                  exact List.mem_append_left _ h
                · rcases (hS2mem m).mp h with h' | h'
                  · right
                    rw [hst4]
                    dsimp only
                    rw [hS3]
                    exact h'
                  · left
                    rw [hem4]
                    refine List.mem_append_right _ ((hc₀ m).mpr ?_)
                    tauto
              · rw [hem4, List.nodup_append]
                refine ⟨hinv2.emnodup, ?_, ?_⟩
                · rw [List.nodup_append]
                  refine ⟨List.nodup_reverse.mpr hndrest, List.nodup_singleton n, ?_⟩
                  intro a ha hamem
                  rw [List.mem_reverse] at ha
                  rw [List.mem_singleton] at hamem
                  subst hamem
                  exact hnrest ha
                · intro a ha hamem
                  have haS : a ∈ st2.S :=
                    (hS2mem a).mpr (Or.inr (Or.symm ((hc₀ a).mp hamem)))
                  exact hinv2.sem a haS ha
              · intro m hm
                rw [hst4] at hm
                dsimp only at hm
                rw [hS3] at hm
                rw [hem4]
                intro hc
                rcases List.mem_append.mp hc with h | h
                · exact hinv2.sem m ((hS2mem m).mpr (Or.inl hm)) h
                · rcases (hc₀ m).mp h with h' | rfl
                  · exact hdisjS hm (List.mem_append_right _ h')
                  · exact hnS hm
              · intro m hm
                rw [hst4] at hm
                dsimp only at hm
                rw [hidx3] at hm
                exact hinv2.nbound m hm
              · intro m hm
                rw [hst4] at hm ⊢
                dsimp only at hm ⊢
                rw [hidx3] at hm
                rw [hix3, hx3]
                exact hinv2.ixlt m hm
              · rw [hst4]
                dsimp only
                rw [hS3, hix3]
                refine List.Pairwise.sublist ?_ hinv2.ssorted
                rw [hS2, List.append_assoc]
                exact List.sublist_append_left _ _
              · rw [htr4]
                refine traceOrdered_append g hinv2.tord _ _ ?_
                intro u hu v hv
                rcases (hc₀ u).mp hu with hu' | rfl
                · obtain ⟨hw, hlw, hixw⟩ := hrestw u hu'
                  have htv := hw v hv
                  have hx : st.x ≤ st2.lowlink.getD u 0 := by
                    rw [← hll2n]
                    exact hlw
                  rcases htri _ v hx htv with h | h
                  · exact Or.inl h
                  · right
                    rw [hc₀ v]
                    tauto
                · obtain ⟨h, hh, rfl⟩ := arcL_elim hv
                  have htv := hpost2.tgts h hh
                  have hx : st.x ≤ st2.lowlink.getD u 0 := le_of_eq hll2n.symm
                  rcases htri _ _ hx htv with h' | h'
                  · exact Or.inl h'
                  · right
                    rw [hc₀ _]
                    tauto
              · intro e he
                rw [htr4] at he
                rcases List.mem_append.mp he with h | h
                · exact hinv2.allt e h
                · rw [List.mem_singleton] at h
                  subst h
                  rfl
            refine ⟨hinv4, tjStep_trans hstepP (tjStep_trans hpost2.step hstep24),
              ?_, ?_, ?_, ?_, ?_⟩
            · rw [hst4]
              dsimp only
              rw [hidx3]
              exact hpost2.step.grow hnidx1
            · have h1 : stP.x ≤ st2.x := hpost2.xmono
              have h2 : stP.x = st.x + 1 := by rw [hstP]
              rw [hst4]
              dsimp only
              rw [hx3]
              omega
            · intro m hm
              rw [hst4]
              dsimp only
              rw [hll3]
              exact hll2pres m hm
            · intro m hm hmnot
              rw [hst4] at hm ⊢
              dsimp only at hm ⊢
              rw [hidx3] at hm
              rw [hix3]
              by_cases hmn : m = n
              · subst hmn
                rw [hix2n]
              · exact hpost2.newge m hm hmnot
            · left
              constructor
              · rw [hst4]
                dsimp only
                rw [hS3]
              · rw [hst4]
                dsimp only
                rw [hll3, hix3]
                exact hpop
          · intro hb3
            subst hb3
            obtain ⟨Δ2, hΔ2⟩ := hpost2.step.trext
            rw [hstP] at hΔ2
            dsimp only at hΔ2
            refine ⟨Δ2, rest'.reverse ++ [n], ?_, ?_⟩
            · rw [htr4, hΔ2]
            · intro e he
              have : e ∈ st2.trace := by
                rw [hΔ2]
                exact List.mem_append_right _ he
              exact hinv2.allt e this
        · rw [if_neg hpop]
          refine ⟨st2, true, rfl, trlink_trans htlP htr2, ?_, fun h => nomatch h⟩
          rintro -
          obtain ⟨rest', hS2, hrestw⟩ := hpost2.stack
          have hlt : st2.lowlink.getD n 0 < st2.index.getD n 0 := by
            rw [hix2n]
            rcases Nat.lt_or_ge (st2.lowlink.getD n 0) st.x with h | h
            · exact h
            · exfalso
              apply hpop
              rw [hix2n]
              omega
          refine ⟨hinv2, tjStep_trans hstepP hpost2.step, hpost2.step.grow hnidx1,
            ?_, ?_, ?_, ?_⟩
          · have h1 : stP.x ≤ st2.x := hpost2.xmono
            have h2 : stP.x = st.x + 1 := by rw [hstP]
            omega
          · exact hll2pres
          · intro m hm hmnot
            by_cases hmn : m = n
            · subst hmn
              rw [hix2n]
            · exact hpost2.newge m hm hmnot
          · right
            refine ⟨n :: rest', List.cons_ne_nil _ _, ?_, List.mem_cons_self _ _,
              hlt, ?_, ?_⟩
            · rw [hS2, List.append_assoc]
              rfl
            · rcases hpost2.lowsrc with h | h
              · exfalso
                rw [hix2n] at hlt
                omega
              · exact h
            · intro w hw
              rcases List.mem_cons.mp hw with rfl | hw'
              · refine ⟨?_, le_refl _, le_refl _⟩
                intro v hv
                obtain ⟨h, hh, rfl⟩ := arcL_elim hv
                exact hpost2.tgts h hh
              · obtain ⟨hwp, hlw, hixw⟩ := hrestw w hw'
                refine ⟨hwp, hlw, ?_⟩
                rw [hix2n]
                omega
    refine ⟨hsc, ?_⟩
    intro n arcs
    induction arcs with
    | nil =>
      intro done stM P x₀ I₀ pre
      rw [tjArcs]
      refine ⟨stM, true, rfl, trlink_refl emit stM, ?_, fun h => nomatch h⟩
      rintro -
      refine ⟨pre.inv, tjStep_refl stM, fun m hm hne => rfl, le_refl _,
        pre.stack, ?_, pre.lowsrc, le_refl _, pre.newge⟩
      intro h hh
      have := pre.hdone
      rw [List.append_nil] at this
      rw [this] at hh
      exact pre.doneT h hh
    | cons nb rest iharcs =>
      intro done stM P x₀ I₀ pre
      have hinv := pre.inv
      have hnbmem : nb ∈ arcsFrom g n := by
        rw [pre.hdone]
        exact List.mem_append_right _ (List.mem_cons_self _ _)
      have hnbN : nb.To < g.length := arcsFrom_bounds hb n nb hnbmem
      have hnN : n < g.length := hinv.nbound n pre.nidx
      have hnllen : n < stM.lowlink.length := by
        rw [hinv.llen]
        exact hnN
      obtain ⟨restM, hSM, hrestM⟩ := pre.stack
      have hnrestM : n ∉ restM := by
        have hnd := hinv.snodup
        rw [hSM, List.append_assoc, List.nodup_append] at hnd
        have h2 := hnd.2.1
        rw [List.singleton_append, List.nodup_cons] at h2
        exact h2.1
      have htriP : ∀ v, v ∈ stM.S → stM.index.getD v 0 < x₀ → v ∈ P := by
        intro v hv hlt
        rw [hSM, List.append_assoc, List.mem_append] at hv
        rcases hv with hv | hv
        · exact hv
        · exfalso
          rw [List.singleton_append, List.mem_cons] at hv
          rcases hv with rfl | hv
          · rw [pre.ixn] at hlt
            omega
          · have := (hrestM v hv).2.2
            omega
      have hxlt : x₀ < stM.x := by
        have := hinv.ixlt n pre.nidx
        rw [pre.ixn] at this
        exact this
      rw [tjArcs]
      by_cases hidxm : nb.To ∈ stM.indexed
      · rw [if_pos hidxm]
        by_cases hstkm : nb.To ∈ stM.stacked
        · rw [if_pos hstkm]
          have hnbS : nb.To ∈ stM.S := (hinv.mirror _).mp hstkm
          by_cases hupd : stM.index.getD nb.To 0 < stM.lowlink.getD n 0
          · rw [if_pos hupd]
            set stU : TjState σ := { stM with
              lowlink := stM.lowlink.set n (stM.index.getD nb.To 0) } with hstU
            have hllU : stU.lowlink.getD n 0 = stM.index.getD nb.To 0 := by
              rw [hstU]
              dsimp only
              rw [getD_set_nat, if_pos ⟨rfl, hnllen⟩]
            have hllUpres : ∀ m, m ≠ n →
                stU.lowlink.getD m 0 = stM.lowlink.getD m 0 := by
              intro m hm
              rw [hstU]
              dsimp only
              rw [getD_set_nat, if_neg (by rintro ⟨rfl, -⟩; exact hm rfl)]
            have hstepU : TjStep stM stU := tjStep_lowlink_set stM n _
            have hinvU : TjInv g stU := tjInv_lowlink_set g hinv n _
            have htlU : TRlink emit stM stU :=
              ⟨[], (List.append_nil stM.trace).symm, rfl⟩
            have hpre' : TjArcsPre g stU n (done ++ [nb]) rest P x₀ I₀ fuel := by
              refine tjArcsPre_trans pre hinvU hstepU ?_ ?_ ?_ ?_ ?_
              · rw [hllU]
                omega
              · refine ⟨restM, hSM, ?_⟩
                intro w hw
                obtain ⟨hwp, hlw, hixw⟩ := hrestM w hw
                have hwn : w ≠ n := by
                  rintro rfl
                  exact hnrestM hw
                refine ⟨wprop_mono g hstepU hinv (le_of_eq (hllUpres w hwn)) hwp,
                  ?_, hixw⟩
                rw [hllU, hllUpres w hwn]
                omega
              · right
                have hplt : stM.index.getD nb.To 0 < x₀ := by
                  have := pre.llle
                  omega
                refine ⟨nb.To, htriP nb.To hnbS hplt, ?_⟩
                rw [hllU]
              · intro m hm hmI
                exact pre.newge m hm hmI
              · right
                refine ⟨hnbS, ?_⟩
                rw [hllU]
            obtain ⟨st', b', hrun', htl', hT', hF'⟩ :=
              iharcs (done ++ [nb]) stU P x₀ I₀ hpre'
            refine ⟨st', b', hrun', trlink_trans htlU htl', ?_, ?_⟩
            · intro hbt
              refine tjArcsPost_comp hstepU (fun m hm hne => hllUpres m hne)
                ?_ (le_refl _) pre.nidx (hT' hbt)
              rw [hllU]
              omega
            · intro hbf
              exact falseShape_comp
                ⟨[], (List.append_nil stM.trace).symm, fun e he => nomatch he⟩
                (hF' hbf)
          · rw [if_neg hupd]
            have hpre' : TjArcsPre g stM n (done ++ [nb]) rest P x₀ I₀ fuel := by
              refine tjArcsPre_trans pre hinv (tjStep_refl stM) (le_refl _)
                ⟨restM, hSM, hrestM⟩ pre.lowsrc pre.newge ?_
              exact Or.inr ⟨hnbS, le_of_not_lt hupd⟩
            obtain ⟨st', b', hrun', htl', hT', hF'⟩ :=
              iharcs (done ++ [nb]) stM P x₀ I₀ hpre'
            refine ⟨st', b', hrun', htl', ?_, hF'⟩
            intro hbt
            exact tjArcsPost_comp (tjStep_refl stM) (fun m hm hne => rfl)
              (le_refl _) (le_refl _) pre.nidx (hT' hbt)
        · rw [if_neg hstkm]
          have hnbem : nb.To ∈ emNodes stM := by
            rcases hinv.cover nb.To hidxm with h | h
            · exact h
            · exact absurd ((hinv.mirror _).mpr h) hstkm
          have hpre' : TjArcsPre g stM n (done ++ [nb]) rest P x₀ I₀ fuel := by
            refine tjArcsPre_trans pre hinv (tjStep_refl stM) (le_refl _)
              ⟨restM, hSM, hrestM⟩ pre.lowsrc pre.newge ?_
            exact Or.inl hnbem
          obtain ⟨st', b', hrun', htl', hT', hF'⟩ :=
            iharcs (done ++ [nb]) stM P x₀ I₀ hpre'
          refine ⟨st', b', hrun', htl', ?_, hF'⟩
          intro hbt
          exact tjArcsPost_comp (tjStep_refl stM) (fun m hm hne => rfl)
            (le_refl _) (le_refl _) pre.nidx (hT' hbt)
      · rw [if_neg hidxm]
        obtain ⟨stC, bC, hCrun, hCtr, hCpostT, hCpostF⟩ :=
          hsc nb.To stM hnbN hidxm hinv pre.hfuel
        rw [hCrun]
        cases bC with
        | false =>
          dsimp only
          refine ⟨stC, false, rfl, hCtr, ?_, hCpostF⟩
          intro h
          cases h
        | true =>
          dsimp only
          obtain hC := hCpostT rfl
          have hCinv := hC.inv
          have hllCn : stC.lowlink.getD n 0 = stM.lowlink.getD n 0 :=
            hC.llpres n pre.nidx
          have hrestC : ∀ w ∈ restM, Wprop g stC w ∧
              stC.lowlink.getD n 0 ≤ stC.lowlink.getD w 0 ∧
              x₀ + 1 ≤ stC.index.getD w 0 := by
            intro w hw
            obtain ⟨hwp, hlw, hixw⟩ := hrestM w hw
            have hwidx : w ∈ stM.indexed := hinv.sidx w (by
              rw [hSM]
              exact List.mem_append_right _ hw)
            have hllw : stC.lowlink.getD w 0 = stM.lowlink.getD w 0 :=
              hC.llpres w hwidx
            refine ⟨wprop_mono g hC.step hinv (le_of_eq hllw) hwp, ?_, ?_⟩
            · rw [hllCn, hllw]
              exact hlw
            · rw [hC.step.ixpres w hwidx]
              exact hixw
          have hlowsrcC : stC.lowlink.getD n 0 = x₀ ∨
              ∃ p ∈ P, stC.index.getD p 0 = stC.lowlink.getD n 0 := by
            rcases pre.lowsrc with h | ⟨p, hp, hpe⟩
            · left
              rw [hllCn]
              exact h
            · right
              refine ⟨p, hp, ?_⟩
              have hpidx : p ∈ stM.indexed := hinv.sidx p (by
                rw [hSM, List.append_assoc]
                exact List.mem_append_left _ hp)
              rw [hC.step.ixpres p hpidx, hllCn]
              exact hpe
          have hnewC : ∀ m ∈ stC.indexed, m ∉ I₀ → x₀ ≤ stC.index.getD m 0 := by
            intro m hm hmI
            by_cases hmM : m ∈ stM.indexed
            · rw [hC.step.ixpres m hmM]
              exact pre.newge m hmM hmI
            · have := hC.newge m hm hmM
              omega
          have hΔCgood : ∃ Δc, stC.trace = stM.trace ++ Δc ∧
              ∀ e ∈ Δc, e.2 = true := by
            obtain ⟨Δc, hΔc⟩ := hC.step.trext
            refine ⟨Δc, hΔc, ?_⟩
            intro e he
            refine hCinv.allt e ?_
            rw [hΔc]
            exact List.mem_append_right _ he
          rcases hC.scases with ⟨hSC, hllC⟩ | hBC
          · -- child popped its component: target already emitted
            have hnbem : nb.To ∈ emNodes stC := by
              rcases hCinv.cover nb.To hC.nidx with h | h
              · exact h
              · exfalso
                rw [hSC] at h
                exact hidxm (hinv.sidx nb.To h)
            have hnoupd : ¬ stC.lowlink.getD nb.To 0 < stC.lowlink.getD n 0 := by
              rw [hllC, hllCn]
              have h1 : stM.x ≤ stC.index.getD nb.To 0 :=
                hC.newge nb.To hC.nidx hidxm
              have h2 := pre.llle
              omega
            rw [if_neg hnoupd]
            have hpre' : TjArcsPre g stC n (done ++ [nb]) rest P x₀ I₀ fuel := by
              refine tjArcsPre_trans pre hCinv hC.step (le_of_eq hllCn)
                ?_ hlowsrcC hnewC (Or.inl hnbem)
              refine ⟨restM, ?_, hrestC⟩
              rw [hSC, hSM]
            obtain ⟨st', b', hrun', htl', hT', hF'⟩ :=
              iharcs (done ++ [nb]) stC P x₀ I₀ hpre'
            refine ⟨st', b', hrun', trlink_trans hCtr htl', ?_, ?_⟩
            · intro hbt
              exact tjArcsPost_comp hC.step (fun m hm hne => hC.llpres m hm)
                (le_of_eq hllCn) hC.xmono pre.nidx (hT' hbt)
            · intro hbf
              exact falseShape_comp hΔCgood (hF' hbf)
          · obtain ⟨restC, hrcne, hSC, hnbrc, hllltC, hsrcC, hrcw⟩ := hBC
            have hnbge : stM.x ≤ stC.index.getD nb.To 0 :=
              hC.newge nb.To hC.nidx hidxm
            have hnrestC : n ∉ restC := by
              have hnd := hCinv.snodup
              rw [hSC, List.nodup_append] at hnd
              refine fun hc => hnd.2.2 ?_ hc
              rw [hSM, List.append_assoc]
              exact List.mem_append_right _
                (List.mem_append_left _ (List.mem_singleton_self n))
            have hSCfull : stC.S = P ++ [n] ++ (restM ++ restC) := by
              rw [hSC, hSM, List.append_assoc]
            by_cases hupd2 : stC.lowlink.getD nb.To 0 < stC.lowlink.getD n 0
            · rw [if_pos hupd2]
              set stU : TjState σ := { stC with
                lowlink := stC.lowlink.set n (stC.lowlink.getD nb.To 0) } with hstU
              have hnllenC : n < stC.lowlink.length := by
                rw [hCinv.llen]
                exact hnN
              have hllU : stU.lowlink.getD n 0 = stC.lowlink.getD nb.To 0 := by
                rw [hstU]
                dsimp only
                rw [getD_set_nat, if_pos ⟨rfl, hnllenC⟩]
              have hllUpres : ∀ m, m ≠ n →
                  stU.lowlink.getD m 0 = stC.lowlink.getD m 0 := by
                intro m hm
                rw [hstU]
                dsimp only
                rw [getD_set_nat, if_neg (by rintro ⟨rfl, -⟩; exact hm rfl)]
              have hstepU : TjStep stC stU := tjStep_lowlink_set stC n _
              have hinvU : TjInv g stU := tjInv_lowlink_set g hCinv n _
              have htlU : TRlink emit stC stU :=
                ⟨[], (List.append_nil stC.trace).symm, rfl⟩
              have hpre' : TjArcsPre g stU n (done ++ [nb]) rest P x₀ I₀ fuel := by
                refine tjArcsPre_trans pre hinvU
                  (tjStep_trans hC.step hstepU) ?_ ?_ ?_ ?_ ?_
                · rw [hllU, ← hllCn]
                  omega
                · refine ⟨restM ++ restC, hSCfull, ?_⟩
                  intro w hw
                  have hwn : w ≠ n := by
                    rintro rfl
                    rcases List.mem_append.mp hw with h | h
                    · exact hnrestM h
                    · exact hnrestC h
                  rcases List.mem_append.mp hw with h | h
                  · obtain ⟨hwp, hlw, hixw⟩ := hrestC w h
                    refine ⟨wprop_mono g hstepU hCinv
                      (le_of_eq (hllUpres w hwn)) hwp, ?_, hixw⟩
                    rw [hllU, hllUpres w hwn]
                    omega
                  · obtain ⟨hwp, hlw, hixw⟩ := hrcw w h
                    refine ⟨wprop_mono g hstepU hCinv
                      (le_of_eq (hllUpres w hwn)) hwp, ?_, ?_⟩
                    · rw [hllU, hllUpres w hwn]
                      omega
                    · show x₀ + 1 ≤ stC.index.getD w 0
                      omega
                · right
                  obtain ⟨p, hp, hpe⟩ := hsrcC
                  have hpidx : p ∈ stM.indexed := hinv.sidx p hp
                  have hpix : stC.index.getD p 0 = stM.index.getD p 0 :=
                    hC.step.ixpres p hpidx
                  have hplt : stM.index.getD p 0 < x₀ := by
                    have h1 := pre.llle
                    rw [← hpix]
                    rw [← hpe, hllCn] at hupd2
                    omega
                  refine ⟨p, htriP p hp hplt, ?_⟩
                  rw [hllU, ← hpe]
                · intro m hm hmI
                  exact hnewC m hm hmI
                · right
                  refine ⟨?_, ?_⟩
                  · show nb.To ∈ stC.S
                    rw [hSC]
                    exact List.mem_append_right _ hnbrc
                  · rw [hllU]
                    show stC.lowlink.getD nb.To 0 ≤ stC.index.getD nb.To 0
                    omega
              obtain ⟨st', b', hrun', htl', hT', hF'⟩ :=
                iharcs (done ++ [nb]) stU P x₀ I₀ hpre'
              refine ⟨st', b', hrun',
                trlink_trans hCtr (trlink_trans htlU htl'), ?_, ?_⟩
              · intro hbt
                refine tjArcsPost_comp (tjStep_trans hC.step hstepU) ?_ ?_
                  hC.xmono pre.nidx (hT' hbt)
                · intro m hm hne
                  rw [hllUpres m hne, hC.llpres m hm]
                · rw [hllU, ← hllCn]
                  omega
              · intro hbf
                exact falseShape_comp hΔCgood (falseShape_comp
                  ⟨[], (List.append_nil stC.trace).symm, fun e he => nomatch he⟩
                  (hF' hbf))
            · rw [if_neg hupd2]
              have hpre' : TjArcsPre g stC n (done ++ [nb]) rest P x₀ I₀ fuel := by
                refine tjArcsPre_trans pre hCinv hC.step (le_of_eq hllCn)
                  ?_ hlowsrcC hnewC ?_
                · refine ⟨restM ++ restC, hSCfull, ?_⟩
                  intro w hw
                  rcases List.mem_append.mp hw with h | h
                  · exact hrestC w h
                  · obtain ⟨hwp, hlw, hixw⟩ := hrcw w h
                    refine ⟨hwp, by omega, by omega⟩
                · right
                  refine ⟨?_, ?_⟩
                  · rw [hSC]
                    exact List.mem_append_right _ hnbrc
                  · have h1 := pre.llle
                    rw [hllCn]
                    omega
              obtain ⟨st', b', hrun', htl', hT', hF'⟩ :=
                iharcs (done ++ [nb]) stC P x₀ I₀ hpre'
              refine ⟨st', b', hrun', trlink_trans hCtr htl', ?_, ?_⟩
              · intro hbt
                exact tjArcsPost_comp hC.step (fun m hm hne => hC.llpres m hm)
                  (le_of_eq hllCn) hC.xmono pre.nidx (hT' hbt)
              · intro hbf
                exact falseShape_comp hΔCgood (hF' hbf)

theorem tjInv_init {σ : Type} (g : LabeledAdjacencyList) (a : σ) :
    TjInv g (tjInit g a) := by
  refine ⟨?_, ?_, ?_, ?_, ?_, ?_, ?_, ?_, ?_, ?_, ?_, ?_, ?_, ?_⟩
  · exact List.length_replicate _ _
  · exact List.length_replicate _ _
  · intro m
    constructor
    · intro h
      exact absurd h (Finset.not_mem_empty m)
    · intro h
      cases h
  · exact List.nodup_nil
  · intro m hm
    cases hm
  · intro m hm
    cases hm
  · intro m hm
    exact absurd hm (Finset.not_mem_empty m)
  · exact List.nodup_nil
  · intro m hm
    cases hm
  · intro m hm
    exact absurd hm (Finset.not_mem_empty m)
  · intro m hm
    exact absurd hm (Finset.not_mem_empty m)
  · exact List.Pairwise.nil
  · intro pre e post hdec
    exact absurd hdec.symm (List.append_ne_nil_of_right_ne_nil pre
      (List.cons_ne_nil e post))
  · intro e he
    cases he

/-- The top-level loop of `Tarjan`: every listed in-range node gets
indexed, the stack stays empty, the invariant is maintained, and an
abort leaves a trace whose only declined entry is the last. -/
theorem tjLoop_spec {σ : Type} (g : LabeledAdjacencyList) (hb : BoundsOkL g)
    (emit : σ → List NI → σ × Bool) :
    ∀ (ns : List Nat) (st : TjState σ),
    (∀ m ∈ ns, m < g.length) → TjInv g st → st.S = [] →
    ∃ st', tjLoop g emit ns st = some st' ∧ TRlink emit st st' ∧
      ((TjInv g st' ∧ st'.S = [] ∧ st.indexed ⊆ st'.indexed ∧
        (∀ m ∈ ns, m ∈ st'.indexed)) ∨
       (∃ Δ₀ c, st'.trace = st.trace ++ Δ₀ ++ [(c, false)] ∧
        ∀ e ∈ Δ₀, e.2 = true)) := by
  intro ns
  induction ns with
  | nil =>
    intro st hbound hinv hS
    rw [tjLoop]
    exact ⟨st, rfl, trlink_refl emit st,
      Or.inl ⟨hinv, hS, fun _ h => h, fun m hm => nomatch hm⟩⟩
  | cons n ns ihns =>
    intro st hbound hinv hS
    rw [tjLoop]
    by_cases hidx : n ∈ st.indexed
    · rw [if_pos hidx]
      obtain ⟨st', hrun, htl, hpost⟩ :=
        ihns st (fun m hm => hbound m (List.mem_cons_of_mem _ hm)) hinv hS
      refine ⟨st', hrun, htl, ?_⟩
      rcases hpost with ⟨h1, h2, h3, h4⟩ | h
      · left
        refine ⟨h1, h2, h3, ?_⟩
        intro m hm
        rcases List.mem_cons.mp hm with rfl | hm
        · exact h3 hidx
        · exact h4 m hm
      · exact Or.inr h
    · rw [if_neg hidx]
      obtain ⟨st2, b2, hrun2, htl2, hT, hF⟩ :=
        (tjMaster g hb emit (tjFuel g)).1 n st
          (hbound n (List.mem_cons_self _ _)) hidx hinv (by
            unfold tjFuel
            omega)
      rw [hrun2]
      cases b2 with
      | true =>
        dsimp only
        obtain hp := hT rfl
        have hS2 : st2.S = [] := by
          rcases hp.scases with ⟨h, -⟩ | ⟨restq, -, -, -, -, hsrc, -⟩
          · rw [h, hS]
          · exfalso
            obtain ⟨p, hp', -⟩ := hsrc
            rw [hS] at hp'
            exact (List.not_mem_nil p) hp'
        obtain ⟨st', hrun, htl, hpost⟩ :=
          ihns st2 (fun m hm => hbound m (List.mem_cons_of_mem _ hm)) hp.inv hS2
        refine ⟨st', hrun, trlink_trans htl2 htl, ?_⟩
        rcases hpost with ⟨h1, h2, h3, h4⟩ | hfa
        · left
          refine ⟨h1, h2, fun m hm => h3 (hp.step.grow hm), ?_⟩
          intro m hm
          rcases List.mem_cons.mp hm with rfl | hm
          · exact h3 hp.nidx
          · exact h4 m hm
        · right
          refine falseShape_comp ?_ hfa
          obtain ⟨Δc, hΔc⟩ := hp.step.trext
          exact ⟨Δc, hΔc, fun e he => hp.inv.allt e
            (by rw [hΔc]; exact List.mem_append_right _ he)⟩
      | false =>
        dsimp only
        exact ⟨st2, rfl, htl2, Or.inr (hF rfl)⟩

/-- C8.  With the callback modelled as a state-passing function, `Tarjan`
terminates and its recorded sequence of `emit` invocations is exactly a
replay of `emit`; every invocation except possibly the last returned
`true` — so after any invocation that declined continuation, `emit` is
never invoked again. -/
theorem tarjan_early_termination {σ : Type} (g : LabeledAdjacencyList)
    (hb : BoundsOkL g) (emit : σ → List NI → σ × Bool) (a : σ) :
    ∃ acc T, Tarjan g emit a = some (acc, T) ∧
      runEmits emit a (T.map Prod.fst) = (acc, T.map Prod.snd) ∧
      ∀ e ∈ T.dropLast, e.2 = true := by
  obtain ⟨st', hrun, htl, hpost⟩ := tjLoop_spec g hb emit (List.range g.length)
    (tjInit g a) (fun m hm => List.mem_range.mp hm) (tjInv_init g a) rfl
  obtain ⟨Δ, hΔ, hre⟩ := htl
  have hΔeq : st'.trace = Δ := by
    rw [hΔ]
    rfl
  refine ⟨st'.acc, st'.trace, ?_, ?_, ?_⟩
  · unfold Tarjan
    rw [hrun]
  · rw [hΔeq]
    exact hre
  · rcases hpost with ⟨hinv', -, -, -⟩ | ⟨Δ₀, c, hsh, hΔ₀⟩
    · intro e he
      exact hinv'.allt e (List.Sublist.mem he (List.dropLast_sublist _))
    · intro e he
      rw [hsh] at he
      have hsh' : (tjInit g a).trace ++ Δ₀ ++ [(c, false)] = Δ₀ ++ [(c, false)] := rfl
      rw [hsh', List.dropLast_concat] at he
      exact hΔ₀ e he

/-- C8 witness: a callback that declines after the first component. -/
theorem tarjan_early_termination_witness :
    ∃ acc T, Tarjan [[⟨1, 0⟩], [⟨0, 0⟩], []]
        (fun (k : Nat) _ => (k + 1, false)) 0 = some (acc, T) ∧
      runEmits (fun (k : Nat) _ => (k + 1, false)) 0 (T.map Prod.fst) =
        (acc, T.map Prod.snd) ∧
      ∀ e ∈ T.dropLast, e.2 = true :=
  tarjan_early_termination [[⟨1, 0⟩], [⟨0, 0⟩], []] (by decide)
    (fun (k : Nat) _ => (k + 1, false)) 0

theorem runEmits_collect :
    ∀ (cs : List (List NI)) (r : List (List NI)),
    runEmits (fun r c => (r ++ [c], true)) r cs =
      (r ++ cs, List.replicate cs.length true)
  | [], r => by simp [runEmits]
  | c :: cs, r => by
    rw [runEmits]
    dsimp only
    rw [runEmits_collect cs (r ++ [c])]
    simp [List.replicate_succ]

theorem flatten_nodup_idx_unique {α : Type} :
    ∀ (L : List (List α)), L.flatten.Nodup →
    ∀ i j (hi : i < L.length) (hj : j < L.length) (v : α),
    v ∈ L.get ⟨i, hi⟩ → v ∈ L.get ⟨j, hj⟩ → i = j := by
  intro L
  induction L with
  | nil =>
    intro _ i j hi
    exact absurd hi (Nat.not_lt_zero i)
  | cons c L ihL =>
    intro hnd i j hi hj v hvi hvj
    rw [List.flatten_cons, List.nodup_append] at hnd
    obtain ⟨hndc, hndL, hdisj⟩ := hnd
    match i, j with
    | 0, 0 => rfl
    | 0, j + 1 =>
      exfalso
      have hj' : j < L.length := by
        rw [List.length_cons] at hj
        omega
      refine hdisj hvi ?_
      rw [List.mem_flatten]
      exact ⟨L.get ⟨j, hj'⟩, List.get_mem L j hj', hvj⟩
    | i + 1, 0 =>
      exfalso
      have hi' : i < L.length := by
        rw [List.length_cons] at hi
        omega
      refine hdisj hvj ?_
      rw [List.mem_flatten]
      exact ⟨L.get ⟨i, hi'⟩, List.get_mem L i hi', hvi⟩
    | i + 1, j + 1 =>
      have hi' : i < L.length := by
        rw [List.length_cons] at hi
        omega
      have hj' : j < L.length := by
        rw [List.length_cons] at hj
        omega
      have := ihL hndL i j hi' hj' v hvi hvj
      omega

/-- C2.  `TarjanForward` returns components that partition the node set
`0..N-1` exactly (their concatenation is a permutation of all node
identifiers, so every node lies in exactly one component), and the
forward component order is a topological order of the condensation: every
arc's source component comes no later than its target component. -/
theorem tarjanForward_spec (g : LabeledAdjacencyList) (hb : BoundsOkL g) :
    ∃ scc, TarjanForward g = some scc ∧
      scc.flatten.Perm (List.range g.length) ∧
      (∀ i j (hi : i < scc.length) (hj : j < scc.length),
        ∀ u ∈ scc.get ⟨i, hi⟩, ∀ v ∈ scc.get ⟨j, hj⟩, ArcL g u v → i ≤ j) := by
  obtain ⟨st', hrun, htl, hpost⟩ := tjLoop_spec g hb
    (fun r c => (r ++ [c], true)) (List.range g.length)
    (tjInit g []) (fun m hm => List.mem_range.mp hm) (tjInv_init g []) rfl
  obtain ⟨Δ, hΔ, hre⟩ := htl
  have hΔeq : st'.trace = Δ := by
    rw [hΔ]
    rfl
  rw [runEmits_collect] at hre
  have h1 := congrArg Prod.fst hre
  have h2 := congrArg Prod.snd hre
  dsimp only at h1 h2
  have hacc : st'.acc = Δ.map Prod.fst := by
    rw [← h1]
    rfl
  have hltrue : ∀ e ∈ st'.trace, e.2 = true := by
    intro e he
    rw [hΔeq] at he
    have hmem : e.2 ∈ Δ.map Prod.snd := List.mem_map_of_mem _ he
    rw [← h2] at hmem
    exact List.eq_of_mem_replicate hmem
  rcases hpost with ⟨hinv', hS', -, hallidx⟩ | ⟨Δ₀, c, hsh, -⟩
  swap
  · exfalso
    have hmem : ((c, false) : List NI × Bool) ∈ st'.trace := by
      rw [hsh]
      exact List.mem_append_right _ (List.mem_singleton_self _)
    have := hltrue _ hmem
    exact Bool.false_ne_true this
  have hfwd : TarjanForward g = some ((st'.trace.map Prod.fst).reverse) := by
    unfold TarjanForward Tarjan
    rw [hrun]
    dsimp only
    rw [hacc, hΔeq]
  have hem : ∀ m, m ∈ emNodes st' ↔ m < g.length := by
    intro m
    constructor
    · intro h
      exact hinv'.nbound m (hinv'.emidx m h)
    · intro h
      rcases hinv'.cover m (hallidx m (List.mem_range.mpr h)) with h' | h'
      · exact h'
      · exfalso
        rw [hS'] at h'
        exact List.not_mem_nil m h'
  set T := st'.trace with hT
  have hlen : ((T.map Prod.fst).reverse).length = T.length := by
    rw [List.length_reverse, List.length_map]
  refine ⟨(T.map Prod.fst).reverse, hfwd, ?_, ?_⟩
  · have hp1 : ((T.map Prod.fst).reverse).flatten.Perm
        ((T.map Prod.fst).flatten) :=
      (List.reverse_perm (T.map Prod.fst)).join
    have hp2 : ((T.map Prod.fst).flatten) = emNodes st' := rfl
    refine hp1.trans ?_
    rw [hp2]
    refine List.perm_of_nodup_nodup_toFinset_eq hinv'.emnodup
      (List.nodup_range _) ?_
    ext k
    rw [List.mem_toFinset, List.mem_toFinset, List.mem_range]
    exact hem k
  · intro i j hi hj u hu v hv harc
    rw [hlen] at hi hj
    have hgeti : ((T.map Prod.fst).reverse).get ⟨i, by rw [hlen]; exact hi⟩ =
        (T.get ⟨T.length - 1 - i, by omega⟩).1 := by
      simp only [List.get_eq_getElem, List.getElem_reverse, List.getElem_map,
        List.length_map]
    have hgetj : ((T.map Prod.fst).reverse).get ⟨j, by rw [hlen]; exact hj⟩ =
        (T.get ⟨T.length - 1 - j, by omega⟩).1 := by
      simp only [List.get_eq_getElem, List.getElem_reverse, List.getElem_map,
        List.length_map]
    rw [hgeti] at hu
    rw [hgetj] at hv
    set iT := T.length - 1 - i with hiT
    set jT := T.length - 1 - j with hjT
    have hiTlt : iT < T.length := by omega
    have hjTlt : jT < T.length := by omega
    have hdec : T = T.take iT ++ T.get ⟨iT, hiTlt⟩ :: T.drop (iT + 1) := by
      rw [List.get_eq_getElem, ← List.drop_eq_getElem_cons hiTlt,
        List.take_append_drop]
    have hloc := hinv'.tord (T.take iT) (T.get ⟨iT, hiTlt⟩) (T.drop (iT + 1))
      hdec u hu v harc
    have hvT : ∀ kT (hk : kT < T.length), v ∈ (T.get ⟨kT, hk⟩).1 → kT = jT := by
      intro kT hk hvk
      refine flatten_nodup_idx_unique (T.map Prod.fst) hinv'.emnodup kT jT
        (by rw [List.length_map]; exact hk)
        (by rw [List.length_map]; exact hjTlt) v ?_ ?_
      · rw [List.get_eq_getElem, List.getElem_map]
        exact hvk
      · rw [List.get_eq_getElem, List.getElem_map]
        exact hv
    rcases hloc with hvpre | hvhere
    · unfold emL at hvpre
      rw [List.mem_flatten] at hvpre
      obtain ⟨cc, hcc, hvcc⟩ := hvpre
      rw [List.mem_map] at hcc
      obtain ⟨e, he, rfl⟩ := hcc
      rw [List.mem_iff_getElem] at he
      obtain ⟨kT, hk, hke⟩ := he
      have hklen : kT < iT := by
        rw [List.length_take] at hk
        omega
      have hkT : kT < T.length := by omega
      have hkeq : T.get ⟨kT, hkT⟩ = e := by
        rw [List.get_eq_getElem, ← List.getElem_take]
        exact hke
      have := hvT kT hkT (by rw [hkeq]; exact hvcc)
      omega
    · have := hvT iT hiTlt hvhere
      omega

/-- C2 witness on the eight-node graph of the specification's SCC
example (components `{6,5}`, `{7,3,2}`, `{4,1,0}` in emission order). -/
theorem tarjanForward_spec_witness :
    ∃ scc, TarjanForward [[⟨1, 0⟩], [⟨4, 0⟩, ⟨2, 0⟩, ⟨5, 0⟩],
        [⟨3, 0⟩, ⟨6, 0⟩], [⟨2, 0⟩, ⟨7, 0⟩], [⟨5, 0⟩, ⟨0, 0⟩], [⟨6, 0⟩],
        [⟨5, 0⟩], [⟨3, 0⟩, ⟨6, 0⟩]] = some scc ∧
      scc.flatten.Perm (List.range 8) ∧
      (∀ i j (hi : i < scc.length) (hj : j < scc.length),
        ∀ u ∈ scc.get ⟨i, hi⟩, ∀ v ∈ scc.get ⟨j, hj⟩,
          ArcL [[⟨1, 0⟩], [⟨4, 0⟩, ⟨2, 0⟩, ⟨5, 0⟩], [⟨3, 0⟩, ⟨6, 0⟩],
            [⟨2, 0⟩, ⟨7, 0⟩], [⟨5, 0⟩, ⟨0, 0⟩], [⟨6, 0⟩], [⟨5, 0⟩],
            [⟨3, 0⟩, ⟨6, 0⟩]] u v → i ≤ j) :=
  tarjanForward_spec [[⟨1, 0⟩], [⟨4, 0⟩, ⟨2, 0⟩, ⟨5, 0⟩], [⟨3, 0⟩, ⟨6, 0⟩],
    [⟨2, 0⟩, ⟨7, 0⟩], [⟨5, 0⟩, ⟨0, 0⟩], [⟨6, 0⟩], [⟨5, 0⟩],
    [⟨3, 0⟩, ⟨6, 0⟩]] (by decide)

theorem getD_set_gen {α : Type} (l : List α) (i : Nat) (v d : α) (m : Nat) :
    (l.set i v).getD m d = if i = m ∧ i < l.length then v else l.getD m d := by
  rw [List.getD_eq_getElem?_getD, List.getD_eq_getElem?_getD, List.getElem?_set]
  by_cases h : i = m
  · subst h
    by_cases hl : i < l.length
    · simp [hl]
    · rw [if_pos rfl, if_neg hl,
        if_neg (fun hc : i = i ∧ i < l.length => hl hc.2),
        List.getElem?_eq_none (Nat.le_of_not_lt hl)]
  · simp [h]

theorem foldl_set_length (cn : Nat) : ∀ (c : List NI) (cond : List NI),
    (c.foldl (fun acc n => acc.set n cn) cond).length = cond.length
  | [], cond => rfl
  | a :: c, cond => by
    rw [List.foldl_cons, foldl_set_length cn c, List.length_set]

theorem foldl_set_getD (cn : Nat) : ∀ (c : List NI) (cond : List NI) (m : Nat),
    (c.foldl (fun acc n => acc.set n cn) cond).getD m 0 =
      if m ∈ c ∧ m < cond.length then cn else cond.getD m 0
  | [], cond, m => by simp
  | a :: c, cond, m => by
    rw [List.foldl_cons, foldl_set_getD cn c (cond.set a cn) m, List.length_set,
      getD_set_gen]
    by_cases h2 : m < cond.length
    · by_cases h1 : m ∈ c
      · rw [if_pos ⟨h1, h2⟩, if_pos ⟨List.mem_cons_of_mem a h1, h2⟩]
      · rw [if_neg (fun hc => h1 hc.1)]
        by_cases h3 : a = m
        · rw [if_pos ⟨h3, by rw [h3]; exact h2⟩,
            if_pos ⟨h3 ▸ List.mem_cons_self a c, h2⟩]
        · rw [if_neg (fun hc => h3 hc.1), if_neg (by
            rintro ⟨hc1, -⟩
            rcases List.mem_cons.mp hc1 with h | h
            · exact h3 h.symm
            · exact h1 h)]
    · rw [if_neg (fun hc : m ∈ c ∧ m < cond.length => h2 hc.2),
        if_neg (fun hc : a = m ∧ a < cond.length => h2 (hc.1 ▸ hc.2)),
        if_neg (fun hc : m ∈ a :: c ∧ m < cond.length => h2 hc.2)]

/-- The inner condensation arc loop: deduplicated accumulation of the
`cond`-images of the arc targets. -/
theorem condArcs_spec (cond : List NI) (cn : Nat) :
    ∀ (arcs : List Half) (m : Finset Nat) (tos : List NI),
    (∀ x, x ∈ m ↔ x = cn ∨ x ∈ tos) → tos.Nodup → cn ∉ tos →
    ∃ m' tos', condArcs cond arcs m tos = (m', tos') ∧
      (∀ x, x ∈ m' ↔ x = cn ∨ x ∈ tos') ∧ tos'.Nodup ∧ cn ∉ tos' ∧
      (∃ Δ, tos' = tos ++ Δ) ∧
      (∀ x, x ∈ tos' ↔ x ∈ tos ∨
        (x ≠ cn ∧ ∃ h ∈ arcs, cond.getD h.To 0 = x)) := by
  intro arcs
  induction arcs with
  | nil =>
    intro m tos hsync hnd hcn
    refine ⟨m, tos, rfl, hsync, hnd, hcn, ⟨[], by simp⟩, ?_⟩
    intro x
    constructor
    · exact Or.inl
    · rintro (h | ⟨-, h, hh, -⟩)
      · exact h
      · cases hh
  | cons nb rest ih =>
    intro m tos hsync hnd hcn
    rw [condArcs]
    by_cases hctm : cond.getD nb.To 0 ∈ m
    · rw [if_pos hctm]
      obtain ⟨m', tos', hrun, hsync', hnd', hcn', hΔ', hmem'⟩ := ih m tos hsync hnd hcn
      refine ⟨m', tos', hrun, hsync', hnd', hcn', hΔ', ?_⟩
      intro x
      rw [hmem' x]
      constructor
      · rintro (h | ⟨hx, h, hh, he⟩)
        · exact Or.inl h
        · exact Or.inr ⟨hx, h, List.mem_cons_of_mem _ hh, he⟩
      · rintro (h | ⟨hx, h, hh, he⟩)
        · exact Or.inl h
        · rcases List.mem_cons.mp hh with rfl | hh'
          · rcases (hsync _).mp (he ▸ hctm) with h' | h'
            · exact absurd h'.symm (by rw [he] at *; exact fun hc => hx hc.symm)
            · exact Or.inl h'
          · exact Or.inr ⟨hx, h, hh', he⟩
    · rw [if_neg hctm]
      have hctcn : cond.getD nb.To 0 ≠ cn :=
        fun hc => hctm ((hsync _).mpr (Or.inl hc))
      have hcttos : cond.getD nb.To 0 ∉ tos :=
        fun hc => hctm ((hsync _).mpr (Or.inr hc))
      have hsync2 : ∀ x, x ∈ insert (cond.getD nb.To 0) m ↔
          x = cn ∨ x ∈ tos ++ [cond.getD nb.To 0] := by
        intro x
        rw [Finset.mem_insert, hsync x, List.mem_append, List.mem_singleton]
        tauto
      have hnd2 : (tos ++ [cond.getD nb.To 0]).Nodup := by
        rw [List.nodup_append]
        refine ⟨hnd, List.nodup_singleton _, ?_⟩
        intro a ha hb
        rw [List.mem_singleton] at hb
        subst hb
        exact hcttos ha
      have hcn2 : cn ∉ tos ++ [cond.getD nb.To 0] := by
        rw [List.mem_append, List.mem_singleton]
        rintro (h | h)
        · exact hcn h
        · exact hctcn h.symm
      obtain ⟨m', tos', hrun, hsync', hnd', hcn', hΔ', hmem'⟩ :=
        ih (insert (cond.getD nb.To 0) m) (tos ++ [cond.getD nb.To 0]) hsync2 hnd2 hcn2
      refine ⟨m', tos', hrun, hsync', hnd', hcn', ?_, ?_⟩
      · obtain ⟨Δ, hΔ⟩ := hΔ'
        exact ⟨cond.getD nb.To 0 :: Δ, by rw [hΔ]; simp⟩
      · intro x
        rw [hmem' x, List.mem_append, List.mem_singleton]
        constructor
        · rintro ((h | h) | ⟨hx, h, hh, he⟩)
          · exact Or.inl h
          · exact Or.inr ⟨h ▸ hctcn, nb, List.mem_cons_self _ _, h.symm⟩
          · exact Or.inr ⟨hx, h, List.mem_cons_of_mem _ hh, he⟩
        · rintro (h | ⟨hx, h, hh, he⟩)
          · exact Or.inl (Or.inl h)
          · rcases List.mem_cons.mp hh with rfl | hh'
            · exact Or.inl (Or.inr he.symm)
            · exact Or.inr ⟨hx, h, hh', he⟩

/-- The middle condensation loop over the members of one component. -/
theorem condTos_spec (g : LabeledAdjacencyList) (cond : List NI) (cn : Nat) :
    ∀ (c : List NI) (m : Finset Nat) (tos : List NI),
    (∀ x, x ∈ m ↔ x = cn ∨ x ∈ tos) → tos.Nodup → cn ∉ tos →
    ∃ m' tos', condTos g cond c m tos = (m', tos') ∧
      (∀ x, x ∈ m' ↔ x = cn ∨ x ∈ tos') ∧ tos'.Nodup ∧ cn ∉ tos' ∧
      (∀ x, x ∈ tos' ↔ x ∈ tos ∨
        (x ≠ cn ∧ ∃ n ∈ c, ∃ h ∈ arcsFrom g n, cond.getD h.To 0 = x)) := by
  intro c
  induction c with
  | nil =>
    intro m tos hsync hnd hcn
    refine ⟨m, tos, rfl, hsync, hnd, hcn, ?_⟩
    intro x
    constructor
    · exact Or.inl
    · rintro (h | ⟨-, n, hn, -⟩)
      · exact h
      · cases hn
  | cons n c ih =>
    intro m tos hsync hnd hcn
    rw [condTos]
    obtain ⟨m₁, tos₁, hrun₁, hsync₁, hnd₁, hcn₁, hΔ₁, hmem₁⟩ :=
      condArcs_spec cond cn (arcsFrom g n) m tos hsync hnd hcn
    rw [hrun₁]
    dsimp only
    obtain ⟨m', tos', hrun, hsync', hnd', hcn', hmem'⟩ :=
      ih m₁ tos₁ hsync₁ hnd₁ hcn₁
    refine ⟨m', tos', hrun, hsync', hnd', hcn', ?_⟩
    intro x
    rw [hmem' x, hmem₁ x]
    constructor
    · rintro ((h | ⟨hx, hh, harc, he⟩) | ⟨hx, n', hn', hh, he⟩)
      · exact Or.inl h
      · exact Or.inr ⟨hx, n, List.mem_cons_self _ _, hh, harc, he⟩
      · exact Or.inr ⟨hx, n', List.mem_cons_of_mem _ hn', hh, he⟩
    · rintro (h | ⟨hx, n', hn', hh, he⟩)
      · exact Or.inl (Or.inl h)
      · rcases List.mem_cons.mp hn' with rfl | hn''
        · exact Or.inl (Or.inr ⟨hx, hh, he⟩)
        · exact Or.inr ⟨hx, n', hn'', hh, he⟩

/-- Row specification of the condensation: duplicate-free, no self arc,
and exactly the distinct non-self component pairs crossed by an original
arc. -/
def RowSpec (g : LabeledAdjacencyList) (scc : List (List NI)) (j : Nat)
    (row : List NI) : Prop :=
  row.Nodup ∧ j ∉ row ∧
  ∀ ct, ct ∈ row ↔ ct ≠ j ∧ ct < scc.length ∧
    ∃ u ∈ scc.getD j [], ∃ v ∈ scc.getD ct [], ArcL g u v

/-- The downward condensation loop fills every remaining row according to
`RowSpec`, given a components list that partitions the nodes in
topological order. -/
theorem condenseDown_spec (g : LabeledAdjacencyList) (hb : BoundsOkL g)
    (scc : List (List NI))
    (hcov : ∀ v, v < g.length → ∃ k, ∃ hk : k < scc.length, v ∈ scc.get ⟨k, hk⟩)
    (huniq : ∀ i j (hi : i < scc.length) (hj : j < scc.length) (v : NI),
      v ∈ scc.get ⟨i, hi⟩ → v ∈ scc.get ⟨j, hj⟩ → i = j)
    (hmemN : ∀ k (hk : k < scc.length), ∀ v ∈ scc.get ⟨k, hk⟩, v < g.length)
    (hord : ∀ i j (hi : i < scc.length) (hj : j < scc.length),
      ∀ u ∈ scc.get ⟨i, hi⟩, ∀ v ∈ scc.get ⟨j, hj⟩, ArcL g u v → i ≤ j) :
    ∀ (cn : Nat) (cond : List NI) (cd : AdjacencyList),
    cn ≤ scc.length →
    cond.length = g.length →
    (∀ k, cn ≤ k → ∀ (hk : k < scc.length), ∀ v ∈ scc.get ⟨k, hk⟩,
      cond.getD v 0 = k) →
    cd.length = scc.length →
    (∀ j, cn ≤ j → j < scc.length → RowSpec g scc j (cd.getD j [])) →
    ∃ condF cdF, condenseDown g scc cn cond cd = (condF, cdF) ∧
      cdF.length = scc.length ∧
      ∀ j, j < scc.length → RowSpec g scc j (cdF.getD j []) := by
  intro cn
  induction cn with
  | zero =>
    intro cond cd hle hclen hcgood hcdlen hrows
    rw [condenseDown]
    exact ⟨cond, cd, rfl, hcdlen, fun j hj => hrows j (Nat.zero_le j) hj⟩
  | succ cn ihcn =>
    intro cond cd hle hclen hcgood hcdlen hrows
    rw [condenseDown]
    have hcnlt : cn < scc.length := by omega
    have hc : scc.getD cn [] = scc.get ⟨cn, hcnlt⟩ := by
      rw [List.getD_eq_getElem?_getD, List.getElem?_eq_getElem hcnlt]
      rfl
    set cond1 := (scc.getD cn []).foldl (fun acc n => acc.set n cn) cond
      with hcond1
    have hc1len : cond1.length = g.length := by
      rw [hcond1, foldl_set_length, hclen]
    have hc1good : ∀ k, cn ≤ k → ∀ (hk : k < scc.length),
        ∀ v ∈ scc.get ⟨k, hk⟩, cond1.getD v 0 = k := by
      intro k hkge hk v hv
      rw [hcond1, foldl_set_getD]
      by_cases hkc : k = cn
      · subst hkc
        rw [if_pos ⟨by rw [hc]; exact hv, by
          rw [hclen]
          exact hmemN k hk v hv⟩]
      · rw [if_neg (by
          rintro ⟨hin, -⟩
          rw [hc] at hin
          exact hkc (huniq k cn hk hcnlt v hv hin))]
        exact hcgood k (by omega) hk v hv
    obtain ⟨mF, tosF, hrunT, -, hndT, hcnT, hmemT⟩ :=
      condTos_spec g cond1 cn (scc.getD cn []) {cn} []
        (by
          intro x
          rw [Finset.mem_singleton]
          simp) List.nodup_nil (List.not_mem_nil cn)
    rw [hrunT]
    dsimp only
    have hrowcn : RowSpec g scc cn tosF := by
      refine ⟨hndT, hcnT, ?_⟩
      intro ct
      rw [hmemT ct]
      constructor
      · rintro (h | ⟨hne, n, hn, h, hh, he⟩)
        · exact absurd h (List.not_mem_nil ct)
        · have harc : ArcL g n (Half.To h) := arcL_of_mem hh
          have htoN : Half.To h < g.length := arcsFrom_bounds hb n h hh
          obtain ⟨k, hk, hvk⟩ := hcov (Half.To h) htoN
          have hkge : cn ≤ k := hord cn k hcnlt hk n (by
            rw [← hc]
            exact hn) (Half.To h) hvk harc
          have hcd1 : cond1.getD (Half.To h) 0 = k := hc1good k hkge hk _ hvk
          rw [hcd1] at he
          subst he
          refine ⟨hne, hk, n, hn, Half.To h, ?_, harc⟩
          rw [List.getD_eq_getElem?_getD, List.getElem?_eq_getElem hk]
          exact hvk
      · rintro ⟨hne, hct, u, hu, v, hv, harc⟩
        right
        refine ⟨hne, u, hu, ?_⟩
        obtain ⟨h, hh, rfl⟩ := arcL_elim harc
        refine ⟨h, hh, ?_⟩
        have hvget : Half.To h ∈ scc.get ⟨ct, hct⟩ := by
          rw [List.getD_eq_getElem?_getD, List.getElem?_eq_getElem hct] at hv
          exact hv
        have hkge : cn ≤ ct := hord cn ct hcnlt hct u (by
          rw [← hc]
          exact hu) (Half.To h) hvget harc
        exact hc1good ct hkge hct _ hvget
    have hrows' : ∀ j, cn ≤ j → j < scc.length →
        RowSpec g scc j ((cd.set cn tosF).getD j []) := by
      intro j hjge hjlt
      rw [getD_set_gen]
      by_cases hjc : cn = j
      · subst hjc
        rw [if_pos ⟨rfl, by
          rw [hcdlen]
          exact hcnlt⟩]
        exact hrowcn
      · rw [if_neg (fun hcc => hjc hcc.1)]
        exact hrows j (by omega) hjlt
    obtain ⟨condF, cdF, hrunF, hlenF, hrowsF⟩ := ihcn cond1 (cd.set cn tosF)
      (by omega) hc1len hc1good (by
        rw [List.length_set]
        exact hcdlen) hrows'
    exact ⟨condF, cdF, hrunF, hlenF, hrowsF⟩

/-- C5.  `TarjanCondensation` returns an acyclic condensation graph with
no self-arcs and at most one arc per ordered component pair: row `X` of
the condensation lists, without duplicates and excluding `X` itself,
exactly those components `Y` reached by some original arc from a member
of `X` to a member of `Y`. -/
theorem tarjanCondensation_spec (g : LabeledAdjacencyList)
    (hb : BoundsOkL g) :
    ∃ scc cd, TarjanCondensation g = some (scc, cd) ∧
      cd.length = scc.length ∧
      (∀ cn, cn < scc.length →
        (cd.getD cn []).Nodup ∧ cn ∉ cd.getD cn [] ∧
        (∀ ct, ct ∈ cd.getD cn [] ↔ ct ≠ cn ∧ ct < scc.length ∧
          ∃ u ∈ scc.getD cn [], ∃ v ∈ scc.getD ct [], ArcL g u v)) ∧
      (∀ k, ¬ Relation.TransGen (ArcU cd) k k) := by
  obtain ⟨scc, hfwd, hperm, hord⟩ := tarjanForward_spec g hb
  have hndflat : scc.flatten.Nodup := hperm.nodup_iff.mpr (List.nodup_range _)
  have hmemflat : ∀ v, v ∈ scc.flatten ↔ v < g.length := by
    intro v
    rw [hperm.mem_iff, List.mem_range]
  have hcov : ∀ v, v < g.length →
      ∃ k, ∃ hk : k < scc.length, v ∈ scc.get ⟨k, hk⟩ := by
    intro v hv
    have hvf : v ∈ scc.flatten := (hmemflat v).mpr hv
    rw [List.mem_flatten] at hvf
    obtain ⟨c, hcmem, hvc⟩ := hvf
    rw [List.mem_iff_getElem] at hcmem
    obtain ⟨k, hk, hkc⟩ := hcmem
    refine ⟨k, hk, ?_⟩
    rw [List.get_eq_getElem, hkc]
    exact hvc
  have huniq := flatten_nodup_idx_unique scc hndflat
  have hmemN : ∀ k (hk : k < scc.length), ∀ v ∈ scc.get ⟨k, hk⟩,
      v < g.length := by
    intro k hk v hv
    refine (hmemflat v).mp ?_
    rw [List.mem_flatten]
    exact ⟨scc.get ⟨k, hk⟩, List.get_mem scc k hk, hv⟩
  obtain ⟨condF, cdF, hrunD, hlenF, hrowsF⟩ :=
    condenseDown_spec g hb scc hcov huniq hmemN hord scc.length
      (List.replicate g.length 0) (List.replicate scc.length [])
      (le_refl _) (List.length_replicate _ _)
      (fun k hkge hk => absurd hk (Nat.not_lt.mpr hkge))
      (List.length_replicate _ _)
      (fun j hjge hjlt => absurd hjlt (Nat.not_lt.mpr hjge))
  refine ⟨scc, cdF, ?_, hlenF, ?_, ?_⟩
  · unfold TarjanCondensation
    rw [hfwd]
    dsimp only
    rw [hrunD]
  · intro cn hcn
    exact hrowsF cn hcn
  · have hasc : ∀ a b, ArcU cdF a b → a < b := by
      intro a b hab
      unfold ArcU arcsFromU at hab
      by_cases ha : a < cdF.length
      · have ha' : a < scc.length := by
          rw [← hlenF]
          exact ha
        obtain ⟨-, hself, hchar⟩ := hrowsF a ha'
        obtain ⟨hne, hblt, u, hu, v, hv, harc⟩ := (hchar b).mp hab
        have hu' : u ∈ scc.get ⟨a, ha'⟩ := by
          rw [List.getD_eq_getElem?_getD, List.getElem?_eq_getElem ha'] at hu
          exact hu
        have hv' : v ∈ scc.get ⟨b, hblt⟩ := by
          rw [List.getD_eq_getElem?_getD, List.getElem?_eq_getElem hblt] at hv
          exact hv
        have hle := hord a b ha' hblt u hu' v hv' harc
        exact lt_of_le_of_ne hle (Ne.symm hne)
      · have hnil : cdF.getD a [] = ([] : List NI) := by
          rw [List.getD_eq_getElem?_getD,
            List.getElem?_eq_none (Nat.le_of_not_lt ha)]
          rfl
        rw [hnil] at hab
        cases hab
    intro k htg
    have hmono : ∀ a b, Relation.TransGen (ArcU cdF) a b → a < b := by
      intro a b h
      induction h with
      | single h1 => exact hasc _ _ h1
      | tail hp harc ihp => exact lt_trans ihp (hasc _ _ harc)
    exact absurd (hmono k k htg) (lt_irrefl k)

/-- C5 witness on the eight-node SCC example graph. -/
theorem tarjanCondensation_spec_witness :
    ∃ scc cd, TarjanCondensation [[⟨1, 0⟩], [⟨4, 0⟩, ⟨2, 0⟩, ⟨5, 0⟩],
        [⟨3, 0⟩, ⟨6, 0⟩], [⟨2, 0⟩, ⟨7, 0⟩], [⟨5, 0⟩, ⟨0, 0⟩], [⟨6, 0⟩],
        [⟨5, 0⟩], [⟨3, 0⟩, ⟨6, 0⟩]] = some (scc, cd) ∧
      cd.length = scc.length ∧
      (∀ cn, cn < scc.length →
        (cd.getD cn []).Nodup ∧ cn ∉ cd.getD cn [] ∧
        (∀ ct, ct ∈ cd.getD cn [] ↔ ct ≠ cn ∧ ct < scc.length ∧
          ∃ u ∈ scc.getD cn [], ∃ v ∈ scc.getD ct [],
            ArcL [[⟨1, 0⟩], [⟨4, 0⟩, ⟨2, 0⟩, ⟨5, 0⟩], [⟨3, 0⟩, ⟨6, 0⟩],
              [⟨2, 0⟩, ⟨7, 0⟩], [⟨5, 0⟩, ⟨0, 0⟩], [⟨6, 0⟩], [⟨5, 0⟩],
              [⟨3, 0⟩, ⟨6, 0⟩]] u v)) ∧
      (∀ k, ¬ Relation.TransGen (ArcU cd) k k) :=
  tarjanCondensation_spec [[⟨1, 0⟩], [⟨4, 0⟩, ⟨2, 0⟩, ⟨5, 0⟩],
    [⟨3, 0⟩, ⟨6, 0⟩], [⟨2, 0⟩, ⟨7, 0⟩], [⟨5, 0⟩, ⟨0, 0⟩], [⟨6, 0⟩],
    [⟨5, 0⟩], [⟨3, 0⟩, ⟨6, 0⟩]] (by decide)

end Ed
